import Mathlib

/-!
Shallow embedding of the norrilsk/Alg priority-queue library:
`src/Bheap.hpp` (binomial heap `alg::Bheap<T>`) and `src/FibHeap.h`
(Fibonacci heap `alg::FibHeap<T>`), both instantiated at `T = Int`
(the code only requires `operator<`, a total order).

Pointer structures are embedded as rose trees: a node's `child` pointer
followed by the `sibling` chain (binomial) or the child ring read from the
`child` pointer (Fibonacci) becomes the `children` list; the root chain /
root ring becomes a list of trees (for the Fibonacci heap the list is the
ring read clockwise from the cached `min` pointer, so the head of the list
is the node `min` points to).  Parent pointers are implicit: the parent of
a node is the node whose `children` list contains it, which matches the
source's maintenance of `p` (set in `link_nodes` / `fib_link`, cleared when
a node is promoted to the root level).
-/

/-- `BheapNode<T>` of src/Bheap.hpp (`T = Int`): key, `degree`, and the
child chain (`child` pointer followed by `sibling` pointers) as a list.
The chain order of `children` is the order of the C++ chain. -/
inductive BTree where
  | node (key : Int) (degree : Nat) (children : List BTree)
deriving Repr

def BTree.key : BTree → Int
  | .node k _ _ => k

def BTree.degree : BTree → Nat
  | .node _ d _ => d

def BTree.children : BTree → List BTree
  | .node _ _ c => c

mutual

/-- Multiset of keys stored in a binomial tree. -/
def BTree.keys : BTree → Multiset Int
  | .node k _ cs => k ::ₘ BForest.keys cs

/-- Multiset of keys stored in a chain/forest of binomial trees. -/
def BForest.keys : List BTree → Multiset Int
  | [] => 0
  | t :: ts => BTree.keys t + BForest.keys ts

end

mutual

/-- Heap order inside one tree: every child's key is `≥` its node's key
(this is the property maintained by `link_nodes`, which only ever makes the
node that compared smaller the parent). -/
def BTree.orderedB : BTree → Bool
  | .node k _ cs => BForest.childrenOrd k cs

/-- All trees of `cs` heap-ordered with root keys `≥ k`. -/
def BForest.childrenOrd : Int → List BTree → Bool
  | _, [] => true
  | k, c :: cs => decide (k ≤ c.key) && BTree.orderedB c && BForest.childrenOrd k cs

end

/-- Heap order over a whole chain/forest. -/
def BForest.orderedB (l : List BTree) : Bool :=
  l.all BTree.orderedB

/-- `Bheap::link_nodes(y, z)`: `y` becomes the first child of `z`
(`y->sibling = z->child; z->child = y; z->degree++`). -/
def link_nodes (y z : BTree) : BTree :=
  .node z.key (z.degree + 1) (y :: z.children)

/-- The inner `while` of `Bheap::merge_heads`: advance `insert_point`
while the next sibling's degree is `<` the degree of the node being
inserted.  Returns the chain walked past, the final `insert_point`, and
its remaining sibling chain. -/
def advanceIns (c : BTree) : List BTree → BTree → List BTree × BTree × List BTree
  | [], _ => ([], c, [])
  | r :: rs, b =>
      if r.degree < b.degree then
        let q := advanceIns r rs b
        (c :: q.1, q.2.1, q.2.2)
      else ([], c, r :: rs)

/-- The outer insertion loop of `Bheap::merge_heads`: `c` is the node
`insert_point` currently points at, `rest` its sibling chain, and the third
argument the chain still to be inserted.  Each node is spliced right after
the advanced `insert_point` (which does not move past it). -/
def insertFrom (c : BTree) (rest : List BTree) : List BTree → List BTree
  | [] => c :: rest
  | b :: bs =>
      (advanceIns c rest b).1 ++
        insertFrom (advanceIns c rest b).2.1 (b :: (advanceIns c rest b).2.2) bs

/-- `Bheap::merge_heads(h1, h2)` (both chains non-empty when called from
`add_heap_head`): `new_head = h1, inserted = h2`, swapped when
`head->degree > h2->degree` (`head` aliases `h1` at every call site), then
each node of `inserted` is spliced into `new_head`'s chain. -/
def merge_heads (h1 h2 : List BTree) : List BTree :=
  match h1, h2 with
  | a :: as', b :: bs =>
      if a.degree > b.degree then insertFrom b bs (a :: as')
      else insertFrom a as' (b :: bs)
  | _, _ => h1 ++ h2

/-- The advance condition of the carry loop of `Bheap::add_heap_head`
(cases 1 and 2): the degrees of `x` and `next_x` differ, or a third
consecutive root of the same degree follows. -/
def bcarryCond (x y : BTree) (rest : List BTree) : Bool :=
  x.degree != y.degree ||
    (match rest with | z :: _ => z.degree == x.degree | [] => false)

/-- The carry loop of `Bheap::add_heap_head`: `done` is the (reversed)
chain before `prev_x`/`x`, `x` the current node, the third argument the
chain from `next_x` on.  Case 1/2 advance; case 3 links `next_x` under `x`
when `x->compare_less(next_x)`; case 4 links `x` under `next_x`. -/
def bcarry : List BTree → BTree → List BTree → List BTree
  | done, x, [] => done.reverse ++ [x]
  | done, x, y :: rest =>
      if bcarryCond x y rest then
        bcarry (x :: done) y rest
      else if x.key < y.key then
        bcarry done (link_nodes y x) rest
      else
        bcarry done (link_nodes x y) rest

/-- `Bheap::add_heap_head(h2head)` acting on the root chain `head`:
early-out when either chain is empty, otherwise merge then carry. -/
def add_heap_head (head h2 : List BTree) : List BTree :=
  match h2 with
  | [] => head
  | _ :: _ =>
    match head with
    | [] => h2
    | _ :: _ =>
      match merge_heads head h2 with
      | [] => []
      | x :: rest => bcarry [] x rest

/-- `alg::Bheap<Int>`: root chain (`head` + `sibling` pointers) and the
`_size` counter. -/
structure BHeap where
  roots : List BTree
  size : Nat
deriving Repr

/-- Result of a call that can throw or hit undefined behaviour:
`nullDeref` models the C++ dereferencing a null pointer (no explicit
error is raised), `emptyErr` models the thrown `std::out_of_range`. -/
inductive Res (α : Type) where
  | nullDeref
  | emptyErr
  | ok (a : α)
deriving Repr

/-- `Bheap::insert(d)`: allocate a degree-0 singleton, `add_heap_head(x)`,
`_size++`. -/
def Binsert (h : BHeap) (d : Int) : BHeap :=
  { roots := add_heap_head h.roots [.node d 0 []], size := h.size + 1 }

/-- The root scan shared by `Bheap::get_min_node` and `Bheap::pop`:
`min` is replaced only on strict `compare_less`, so the first minimal root
wins. -/
def min_scan (m : Int) : List BTree → Int
  | [] => m
  | t :: ts => if t.key < m then min_scan t.key ts else min_scan m ts

/-- `Bheap::get_min()`: `get_min_node` starts from `head->sibling` with
`min = head`, dereferencing `head` without any emptiness guard. -/
def Bget_min (h : BHeap) : Res Int :=
  match h.roots with
  | [] => .nullDeref
  | t :: ts => .ok (min_scan t.key ts)

/-- Index (into `head`'s chain) of the root `Bheap::pop` extracts: the
first root with minimal key (`min` replaced only on strict
`compare_less`). -/
def firstMinIdx (i best : Nat) (bk : Int) : List BTree → Nat
  | [] => best
  | t :: ts => if t.key < bk then firstMinIdx (i + 1) i t.key ts
               else firstMinIdx (i + 1) best bk ts

/-- `Bheap::pop()`: throws on `_size < 1`; otherwise detaches the first
minimal root, clears its children's `p` pointers and melds the child chain
(in its stored order — the code performs no reversal) back via
`add_heap_head`, then `_size--`. -/
def Bpop (h : BHeap) : Res (Int × BHeap) :=
  if h.size < 1 then .emptyErr
  else
    match h.roots with
    | [] => .nullDeref
    | t :: ts =>
      let i := firstMinIdx 1 0 t.key ts
      let m := (t :: ts).getD i t
      let rest := (t :: ts).eraseIdx i
      .ok (m.key, ⟨add_heap_head rest m.children, h.size - 1⟩)

/-- `Bheap::add_heap(H2)`: `add_heap_head(H2.head)` and nothing else —
in particular `_size` is left untouched (and `H2`'s fields are not
cleared either). -/
def Badd_heap (h1 h2 : BHeap) : BHeap :=
  { roots := add_heap_head h1.roots h2.roots, size := h1.size }

/-- Build a heap by inserting the keys of `l` in order into a
default-constructed `Bheap`. -/
def Bbuild (l : List Int) : BHeap :=
  l.foldl Binsert ⟨[], 0⟩

/-- Pop `n` times, collecting the returned keys (stopping at any
throw/UB). -/
def BpopAll : Nat → BHeap → List Int
  | 0, _ => []
  | n + 1, h =>
    match Bpop h with
    | .ok (k, h') => k :: BpopAll n h'
    | _ => []

/-- `FibHeapNode<T>` of src/FibHeap.h (`T = Int`): key, the cascading-cut
`mark`, `degree`, and the child ring read clockwise from the `child`
pointer as a list.  The `p`, `left`, `right` pointers are implicit in the
tree/list structure. -/
inductive FTree where
  | node (key : Int) (mark : Bool) (degree : Nat) (children : List FTree)
deriving Repr

def FTree.key : FTree → Int
  | .node k _ _ _ => k

def FTree.mark : FTree → Bool
  | .node _ m _ _ => m

def FTree.degree : FTree → Nat
  | .node _ _ d _ => d

def FTree.children : FTree → List FTree
  | .node _ _ _ c => c

mutual

/-- Multiset of keys stored in a Fibonacci tree. -/
def FTree.keys : FTree → Multiset Int
  | .node k _ _ cs => k ::ₘ FForest.keys cs

/-- Multiset of keys stored in a forest/ring of Fibonacci trees. -/
def FForest.keys : List FTree → Multiset Int
  | [] => 0
  | t :: ts => FTree.keys t + FForest.keys ts

end

mutual

/-- Heap order inside one Fibonacci tree. -/
def FTree.orderedB : FTree → Bool
  | .node k _ _ cs => FForest.childrenOrd k cs

/-- All trees of `cs` heap-ordered with root keys `≥ k`. -/
def FForest.childrenOrd : Int → List FTree → Bool
  | _, [] => true
  | k, c :: cs => decide (k ≤ c.key) && FTree.orderedB c && FForest.childrenOrd k cs

end

def FForest.orderedB (l : List FTree) : Bool :=
  l.all FTree.orderedB

/-- `alg::FibHeap<Int>`: the root ring read clockwise from the cached
`min` pointer (so the head of `roots` is the node `min` points to), plus
the `_size` counter. -/
structure FHeap where
  roots : List FTree
  size : Nat
deriving Repr

/-- `FibHeap::insert_node(x)`: splice `x` between `min->left` and `min`
(i.e. append it at the seam of the ring, which in min-first reading order
is the end of the list), then `min = x` if `x->compare_less(min)` (which
in min-first reading order rotates `x` to the head).  Returns the new ring
and whether `x` became the new `min`. -/
def finsert_node (l : List FTree) (x : FTree) : List FTree × Bool :=
  match l with
  | [] => ([x], true)
  | m :: rest => if x.key < m.key then (x :: m :: rest, true)
                 else (m :: (rest ++ [x]), false)

/-- `FibHeap::fib_link(y, x)`: remove `y` from the root ring, splice it
into `x`'s child ring at `x->child->right` (second position of the ring
read from `x->child`, or the sole child if `x` had none), `x->degree++`,
and `y->mark = false`. -/
def fib_link (y x : FTree) : FTree :=
  match x with
  | .node k m d [] => .node k m (d + 1) [.node y.key false y.degree y.children]
  | .node k m d (c :: cs') =>
      .node k m (d + 1) (c :: .node y.key false y.degree y.children :: cs')

/-- The inner `while (A[d] != nullptr)` loop of `FibHeap::consolidate`:
repeatedly link the two same-degree roots (the one with the larger key
under the one with the smaller key, cf. the `compare_less` swap) and move
up one degree, then store the survivor at its degree's slot.  The C++ loop
is bounded because each iteration empties a bucket; `fuel` is any bound on
the number of filled buckets (the callers pass the total number of roots,
which always suffices). -/
def fib_link_loop : Nat → List (Option FTree) → FTree → Nat → List (Option FTree)
  | 0, A, x, d => A.set d (some x)
  | fuel + 1, A, x, d =>
    match A.getD d none with
    | none => A.set d (some x)
    | some y =>
      let xy := if y.key < x.key then (y, x) else (x, y)
      fib_link_loop fuel (A.set d none) (fib_link xy.2 xy.1) (d + 1)

/-- `FibHeap::consolidate()`: walk the root ring from `min` collecting
`orig_nodes` and the maximal degree, bucket the roots by degree (array of
size `max_d + num_trees`), then rebuild the root ring by `insert_node`-ing
the non-empty buckets in index order (which also recomputes `min`). -/
def consolidate (l : List FTree) : List FTree :=
  let max_d := l.foldl (fun m t => max m t.degree) 0
  let num := l.length
  let A0 : List (Option FTree) := List.replicate (max_d + num) none
  let A := l.foldl (fun A x => fib_link_loop num A x x.degree) A0
  A.foldl (fun acc o => match o with | none => acc | some t => (finsert_node acc t).1) []

/-- `FibHeap::insert(key)`: fresh unmarked degree-0 node spliced in by
`insert_node`, `_size++`. -/
def Finsert (h : FHeap) (k : Int) : FHeap :=
  { roots := (finsert_node h.roots (.node k false 0 [])).1, size := h.size + 1 }

/-- `FibHeap::get_min()`: `return min->key` with no emptiness guard. -/
def Fget_min (h : FHeap) : Res Int :=
  match h.roots with
  | [] => .nullDeref
  | z :: _ => .ok z.key

/-- The child-splicing loop of `FibHeap::pop()`: each child of `z` (in
child-ring order) gets `p = nullptr` (implicit here; its `mark` is NOT
cleared) and is spliced into the root ring by `insert_node`.  The second
component tracks the position of `z` in the ring (an `insert_node` that
promotes the inserted node to `min` shifts `z` one place right). -/
def fsplice_children : List FTree → Nat → List FTree → List FTree × Nat
  | l, zIdx, [] => (l, zIdx)
  | l, zIdx, c :: cs =>
    let p := finsert_node l c
    fsplice_children p.1 (if p.2 then zIdx + 1 else zIdx) cs

/-- `FibHeap::pop()`: throws iff `min` is null; otherwise splice the
children of `z = min` into the root ring, set `min = z->right` (null if
`z` was alone), unlink `z`, `_size--`, `consolidate()`, return `z->key`. -/
def Fpop (h : FHeap) : Res (Int × FHeap) :=
  match h.roots with
  | [] => .emptyErr
  | z :: rest =>
    let p := fsplice_children (z :: rest) 0 z.children
    let n := p.1.length
    if n ≤ 1 then .ok (z.key, ⟨consolidate [], h.size - 1⟩)
    else
      let l2 := p.1.eraseIdx p.2
      let rot := p.2 % (n - 1)
      .ok (z.key, ⟨consolidate (l2.drop rot ++ l2.take rot), h.size - 1⟩)

/-- Build a Fibonacci heap by inserting the keys of `l` in order. -/
def Fbuild (l : List Int) : FHeap :=
  l.foldl Finsert ⟨[], 0⟩

/-- Pop `n` times from a Fibonacci heap, collecting the returned keys. -/
def FpopAll : Nat → FHeap → List Int
  | 0, _ => []
  | n + 1, h =>
    match Fpop h with
    | .ok (k, h') => k :: FpopAll n h'
    | _ => []

/-! ### Basic lemmas about the binomial-heap embedding -/

theorem BTree.keys_node (k : Int) (d : Nat) (cs : List BTree) :
    (BTree.node k d cs).keys = k ::ₘ BForest.keys cs := rfl

theorem BTree.orderedB_node_iff (k : Int) (d : Nat) (cs : List BTree) :
    (BTree.node k d cs).orderedB = true ↔ ∀ c ∈ cs, k ≤ c.key ∧ c.orderedB = true := by
  rw [BTree.orderedB]
  induction cs with
  | nil => simp [BForest.childrenOrd]
  | cons c cs ih =>
    rw [BForest.childrenOrd]
    simp only [Bool.and_eq_true, decide_eq_true_eq, List.mem_cons]
    constructor
    · rintro ⟨⟨h1, h2⟩, h3⟩ u hu
      rcases hu with rfl | hu
      · exact ⟨h1, h2⟩
      · exact ih.1 h3 u hu
    · intro h
      exact ⟨h c (Or.inl rfl), ih.2 (fun u hu => h u (Or.inr hu))⟩

/-- Membership in the keys of a list of trees. -/
theorem mem_keys_listsum {cs : List BTree} {x : Int} :
    x ∈ BForest.keys cs ↔ ∃ c ∈ cs, x ∈ c.keys := by
  induction cs with
  | nil => simp [BForest.keys]
  | cons c cs ih =>
    rw [BForest.keys]
    simp [ih]

/-- Strong induction principle for `BTree` with the hypothesis available on
every child. -/
theorem BTree.strongInd {P : BTree → Prop}
    (H : ∀ k d cs, (∀ c ∈ cs, P c) → P (.node k d cs)) : ∀ t, P t := by
  have aux : ∀ n (t : BTree), sizeOf t ≤ n → P t := by
    intro n
    induction n with
    | zero =>
      intro t ht
      cases t with
      | node k d cs =>
        simp only [BTree.node.sizeOf_spec] at ht
        omega
    | succ n ih =>
      intro t ht
      cases t with
      | node k d cs =>
        refine H k d cs (fun c hc => ih c ?_)
        have := List.sizeOf_lt_of_mem hc
        simp only [BTree.node.sizeOf_spec] at ht
        omega
  exact fun t => aux (sizeOf t) t le_rfl

/-- In a heap-ordered tree the root key is a lower bound for all keys. -/
theorem BTree.key_le_of_mem_keys :
    ∀ t : BTree, t.orderedB = true → ∀ x ∈ t.keys, t.key ≤ x := by
  refine BTree.strongInd ?_
  intro k d cs ih hord x hx
  rw [BTree.keys_node] at hx
  rw [BTree.orderedB_node_iff] at hord
  rcases Multiset.mem_cons.1 hx with h | h
  · simp [BTree.key, h]
  · obtain ⟨c, hc, hxm⟩ := mem_keys_listsum.1 h
    have h1 := (hord c hc).1
    have h2 := ih c hc (hord c hc).2 x hxm
    show k ≤ x
    omega

theorem BForest.keys_nil : BForest.keys [] = 0 := rfl

theorem BForest.keys_cons (t : BTree) (ts : List BTree) :
    BForest.keys (t :: ts) = t.keys + BForest.keys ts := rfl

theorem BForest.keys_append (l1 l2 : List BTree) :
    BForest.keys (l1 ++ l2) = BForest.keys l1 + BForest.keys l2 := by
  induction l1 with
  | nil => rw [List.nil_append, BForest.keys, zero_add]
  | cons t ts ih =>
    rw [List.cons_append, BForest.keys_cons, BForest.keys_cons, ih, add_assoc]

theorem BForest.keys_reverse (l : List BTree) :
    BForest.keys l.reverse = BForest.keys l := by
  induction l with
  | nil => rfl
  | cons t ts ih =>
    rw [List.reverse_cons, BForest.keys_append, BForest.keys_cons, BForest.keys_nil, ih,
      BForest.keys_cons]
    rw [add_zero, add_comm]

theorem BForest.keys_perm {l1 l2 : List BTree} (h : l1.Perm l2) :
    BForest.keys l1 = BForest.keys l2 := by
  induction h with
  | nil => rfl
  | cons x _ ih => rw [BForest.keys_cons, BForest.keys_cons, ih]
  | swap x y l =>
    rw [BForest.keys_cons, BForest.keys_cons, BForest.keys_cons, BForest.keys_cons]
    rw [add_left_comm]
  | trans _ _ ih1 ih2 => rw [ih1, ih2]

theorem BForest.orderedB_iff (l : List BTree) :
    BForest.orderedB l = true ↔ ∀ t ∈ l, t.orderedB = true := by
  rw [BForest.orderedB, List.all_eq_true]

theorem keys_link_nodes (y z : BTree) :
    (link_nodes y z).keys = y.keys + z.keys := by
  cases z with
  | node k d cs =>
    rw [link_nodes]
    simp only [BTree.key, BTree.degree, BTree.children]
    rw [BTree.keys_node, BTree.keys_node, BForest.keys_cons]
    rw [← Multiset.singleton_add, ← Multiset.singleton_add]
    abel

theorem orderedB_link_nodes {y z : BTree} (hzy : z.key ≤ y.key)
    (hy : y.orderedB = true) (hz : z.orderedB = true) :
    (link_nodes y z).orderedB = true := by
  cases z with
  | node k d cs =>
    rw [link_nodes]
    simp only [BTree.key, BTree.degree, BTree.children] at *
    rw [BTree.orderedB_node_iff]
    rw [BTree.orderedB_node_iff] at hz
    intro c hc
    rcases List.mem_cons.1 hc with rfl | hc
    · exact ⟨hzy, hy⟩
    · exact hz c hc

/-- `advanceIns` only walks the chain: prefix, cursor and remainder
re-assemble to the input chain. -/
theorem advanceIns_eq (b : BTree) :
    ∀ (rest : List BTree) (c : BTree),
      (advanceIns c rest b).1 ++ (advanceIns c rest b).2.1 :: (advanceIns c rest b).2.2 =
        c :: rest := by
  intro rest
  induction rest with
  | nil => intro c; rw [advanceIns]; rfl
  | cons r rs ih =>
    intro c
    rw [advanceIns]
    by_cases h : r.degree < b.degree
    · rw [if_pos h]
      dsimp only
      rw [List.cons_append, ih r]
    · rw [if_neg h]
      rfl

theorem insertFrom_perm (c : BTree) (rest bs : List BTree) :
    (insertFrom c rest bs).Perm (c :: rest ++ bs) := by
  induction bs generalizing c rest with
  | nil =>
    rw [insertFrom]
    simp
  | cons b bs ih =>
    rw [insertFrom]
    have hadv := advanceIns_eq b rest c
    refine (List.Perm.append_left (advanceIns c rest b).1
      (ih (advanceIns c rest b).2.1 (b :: (advanceIns c rest b).2.2))).trans ?_
    refine (List.Perm.append_left (advanceIns c rest b).1
      ((List.perm_middle.symm).cons (advanceIns c rest b).2.1)).trans ?_
    refine List.Perm.of_eq ?_
    have h2 : (advanceIns c rest b).1 ++
        ((advanceIns c rest b).2.1 :: ((advanceIns c rest b).2.2 ++ b :: bs)) =
        ((advanceIns c rest b).1 ++
          (advanceIns c rest b).2.1 :: (advanceIns c rest b).2.2) ++ (b :: bs) := by
      simp
    rw [h2, hadv]

theorem merge_heads_perm (h1 h2 : List BTree) :
    (merge_heads h1 h2).Perm (h1 ++ h2) := by
  match h1, h2 with
  | a :: as', b :: bs =>
    rw [merge_heads]
    by_cases h : a.degree > b.degree
    · rw [if_pos h]
      exact (insertFrom_perm b bs (a :: as')).trans List.perm_append_comm
    · rw [if_neg h]
      exact insertFrom_perm a as' (b :: bs)
  | [], h2 => rw [merge_heads]; simp
  | a :: as', [] => rw [merge_heads]; simp

theorem bcarry_keys (done : List BTree) (x : BTree) (rest : List BTree) :
    BForest.keys (bcarry done x rest) =
      BForest.keys done + x.keys + BForest.keys rest := by
  induction rest generalizing done x with
  | nil =>
    rw [bcarry, BForest.keys_append, BForest.keys_reverse, BForest.keys_cons,
      BForest.keys_nil]
    abel
  | cons y rest ih =>
    rw [bcarry]
    by_cases h1 : bcarryCond x y rest = true
    · rw [if_pos h1, ih, BForest.keys_cons, BForest.keys_cons]
      abel
    · rw [if_neg h1]
      by_cases h2 : x.key < y.key
      · rw [if_pos h2, ih, keys_link_nodes, BForest.keys_cons]
        abel
      · rw [if_neg h2, ih, keys_link_nodes, BForest.keys_cons]
        abel

theorem bcarry_ordered {done : List BTree} {x : BTree} {rest : List BTree}
    (hd : ∀ t ∈ done, t.orderedB = true) (hx : x.orderedB = true)
    (hr : ∀ t ∈ rest, t.orderedB = true) :
    ∀ t ∈ bcarry done x rest, t.orderedB = true := by
  induction rest generalizing done x with
  | nil =>
    rw [bcarry]
    intro t ht
    rcases List.mem_append.1 ht with h | h
    · exact hd t (List.mem_reverse.1 h)
    · rcases List.mem_singleton.1 h with rfl
      exact hx
  | cons y rest ih =>
    rw [bcarry]
    have hy : y.orderedB = true := hr y (List.mem_cons_self _ _)
    have hr' : ∀ t ∈ rest, t.orderedB = true := fun t ht => hr t (List.mem_cons_of_mem _ ht)
    by_cases h1 : bcarryCond x y rest = true
    · rw [if_pos h1]
      refine ih ?_ hy hr'
      intro t ht
      rcases List.mem_cons.1 ht with rfl | ht
      · exact hx
      · exact hd t ht
    · rw [if_neg h1]
      by_cases h2 : x.key < y.key
      · rw [if_pos h2]
        exact ih hd (orderedB_link_nodes (le_of_lt h2) hy hx) hr'
      · rw [if_neg h2]
        exact ih hd (orderedB_link_nodes (le_of_not_lt h2) hx hy) hr'

theorem add_heap_head_keys (l1 l2 : List BTree) :
    BForest.keys (add_heap_head l1 l2) = BForest.keys l1 + BForest.keys l2 := by
  match l2 with
  | [] => rw [add_heap_head]; rw [BForest.keys_nil, add_zero]
  | b :: bs =>
    match l1 with
    | [] => rw [add_heap_head]; rw [BForest.keys_nil, zero_add]
    | a :: as' =>
      rw [add_heap_head]
      have hm := merge_heads_perm (a :: as') (b :: bs)
      match hmh : merge_heads (a :: as') (b :: bs) with
      | [] =>
        rw [hmh] at hm
        exact absurd hm.length_eq (by simp)
      | x :: rest =>
        rw [hmh] at hm
        rw [bcarry_keys, BForest.keys_nil, zero_add]
        have h := BForest.keys_perm hm
        rw [BForest.keys_cons, BForest.keys_append] at h
        exact h

theorem add_heap_head_ordered {l1 l2 : List BTree}
    (h1 : ∀ t ∈ l1, t.orderedB = true) (h2 : ∀ t ∈ l2, t.orderedB = true) :
    ∀ t ∈ add_heap_head l1 l2, t.orderedB = true := by
  match l2 with
  | [] => rw [add_heap_head]; exact h1
  | b :: bs =>
    match l1 with
    | [] => rw [add_heap_head]; exact h2
    | a :: as' =>
      rw [add_heap_head]
      have hm := merge_heads_perm (a :: as') (b :: bs)
      match hmh : merge_heads (a :: as') (b :: bs) with
      | [] => intro t ht; simp at ht
      | x :: rest =>
        rw [hmh] at hm
        have hmem : ∀ t ∈ x :: rest, t.orderedB = true := by
          intro t ht
          rcases List.mem_append.1 (hm.mem_iff.1 ht) with h | h
          · exact h1 t h
          · exact h2 t h
        exact bcarry_ordered (fun t ht => by simp at ht)
          (hmem x (List.mem_cons_self _ _))
          (fun t ht => hmem t (List.mem_cons_of_mem _ ht))

/-! ### `Bheap::pop` extracts the minimum -/

theorem getD_of_drop_cons {l ts' : List BTree} {u d : BTree} :
    ∀ i, l.drop i = u :: ts' → l.getD i d = u := by
  induction l with
  | nil => intro i h; simp at h
  | cons a l ih =>
    intro i h
    match i with
    | 0 => simp at h ⊢; exact h.1
    | i + 1 =>
      rw [List.drop_succ_cons] at h
      simpa using ih i h

theorem drop_succ_of_drop_cons {l ts' : List BTree} {u : BTree} :
    ∀ i, l.drop i = u :: ts' → l.drop (i + 1) = ts' := by
  intro i h
  have : l.drop (i + 1) = (l.drop i).drop 1 := by
    rw [List.drop_drop]
  rw [this, h]
  rfl

theorem lt_length_of_drop_cons {l ts' : List BTree} {u : BTree} {i : Nat}
    (h : l.drop i = u :: ts') : i < l.length := by
  have := congrArg List.length h
  rw [List.length_drop] at this
  simp at this
  omega

theorem perm_getD_eraseIdx (l : List BTree) :
    ∀ i, i < l.length → ∀ d, l.Perm (l.getD i d :: l.eraseIdx i) := by
  induction l with
  | nil => intro i h; simp at h
  | cons a l ih =>
    intro i h d
    match i with
    | 0 => simp
    | i + 1 =>
      simp only [List.getD_cons_succ, List.eraseIdx_cons_succ]
      have h' : i < l.length := by simpa using h
      exact ((ih i h' d).cons a).trans (List.Perm.swap _ _ _)

theorem min_scan_le (ts : List BTree) : ∀ bk, min_scan bk ts ≤ bk := by
  induction ts with
  | nil => intro bk; rw [min_scan]
  | cons u ts ih =>
    intro bk
    rw [min_scan]
    by_cases h : u.key < bk
    · rw [if_pos h]
      exact le_of_lt (lt_of_le_of_lt (ih u.key) h)
    · rw [if_neg h]
      exact ih bk

theorem min_scan_le_mem (ts : List BTree) :
    ∀ bk, ∀ u ∈ ts, min_scan bk ts ≤ u.key := by
  induction ts with
  | nil => intro bk u hu; simp at hu
  | cons v ts ih =>
    intro bk u hu
    rw [min_scan]
    rcases List.mem_cons.1 hu with rfl | hu
    · by_cases h : u.key < bk
      · rw [if_pos h]; exact min_scan_le ts u.key
      · rw [if_neg h]
        exact le_trans (min_scan_le ts bk) (le_of_not_lt h)
    · by_cases h : v.key < bk
      · rw [if_pos h]; exact ih v.key u hu
      · rw [if_neg h]; exact ih bk u hu

theorem firstMinIdx_lt (ts : List BTree) :
    ∀ (i best : Nat) (bk : Int), best < i → firstMinIdx i best bk ts < i + ts.length := by
  induction ts with
  | nil =>
    intro i best bk h
    rw [firstMinIdx]
    simpa using h
  | cons u ts ih =>
    intro i best bk h
    rw [firstMinIdx]
    by_cases hc : u.key < bk
    · rw [if_pos hc]
      have := ih (i + 1) i u.key (Nat.lt_succ_self i)
      simp only [List.length_cons]
      omega
    · rw [if_neg hc]
      have := ih (i + 1) best bk (Nat.lt_succ_of_lt h)
      simp only [List.length_cons]
      omega

theorem firstMinIdx_key (ts : List BTree) :
    ∀ (l : List BTree) (i best : Nat) (bk : Int) (d : BTree),
      l.drop i = ts → best < i → (l.getD best d).key = bk →
      (l.getD (firstMinIdx i best bk ts) d).key = min_scan bk ts := by
  induction ts with
  | nil =>
    intro l i best bk d _ _ hk
    rw [firstMinIdx, min_scan]
    exact hk
  | cons u ts ih =>
    intro l i best bk d hdrop hlt hk
    rw [firstMinIdx, min_scan]
    have hu : l.getD i d = u := getD_of_drop_cons i hdrop
    have hdrop' : l.drop (i + 1) = ts := drop_succ_of_drop_cons i hdrop
    by_cases hc : u.key < bk
    · rw [if_pos hc, if_pos hc]
      exact ih l (i + 1) i u.key d hdrop' (Nat.lt_succ_self i) (by rw [hu])
    · rw [if_neg hc, if_neg hc]
      exact ih l (i + 1) best bk d hdrop' (Nat.lt_succ_of_lt hlt) hk

/-- The invariant `Bheap`'s operations maintain for the states claim C1
exercises: all trees heap-ordered and `_size` equal to the number of
stored keys. -/
def BInv (h : BHeap) : Prop :=
  (∀ t ∈ h.roots, t.orderedB = true) ∧
    h.size = Multiset.card (BForest.keys h.roots)

theorem BTree.keys_eq (t : BTree) :
    t.keys = t.key ::ₘ BForest.keys t.children := by
  cases t with
  | node k d cs =>
    rw [BTree.keys_node]
    rfl

theorem BTree.children_ordered {t : BTree} (h : t.orderedB = true) :
    ∀ c ∈ t.children, c.orderedB = true := by
  cases t with
  | node k d cs =>
    rw [BTree.orderedB_node_iff] at h
    intro c hc
    exact (h c hc).2

theorem Binsert_keys (h : BHeap) (d : Int) :
    BForest.keys (Binsert h d).roots = d ::ₘ BForest.keys h.roots := by
  rw [Binsert]
  simp only []
  rw [add_heap_head_keys]
  rw [BForest.keys_cons, BForest.keys_nil, BTree.keys_node]
  simp [← Multiset.singleton_add]
  abel

theorem Binsert_inv {h : BHeap} (hinv : BInv h) (d : Int) : BInv (Binsert h d) := by
  constructor
  · show ∀ t ∈ add_heap_head h.roots [BTree.node d 0 []], t.orderedB = true
    refine add_heap_head_ordered hinv.1 ?_
    intro t ht
    rcases List.mem_singleton.1 ht with rfl
    rw [BTree.orderedB_node_iff]
    intro c hc
    simp at hc
  · rw [Binsert_keys]
    simp only [Binsert, Multiset.card_cons]
    rw [hinv.2]

theorem Bpop_spec {h : BHeap} (hinv : BInv h) (hpos : 0 < h.size) :
    ∃ k h', Bpop h = .ok (k, h') ∧ BInv h' ∧ h'.size = h.size - 1 ∧
      BForest.keys h.roots = k ::ₘ BForest.keys h'.roots ∧
      ∀ x ∈ BForest.keys h.roots, k ≤ x := by
  match hr : h.roots with
  | [] =>
    exfalso
    have hc := hinv.2
    rw [hr, BForest.keys_nil] at hc
    simp at hc
    omega
  | t :: ts =>
    have hord : ∀ u ∈ t :: ts, u.orderedB = true := by rw [← hr]; exact hinv.1
    have hlt : firstMinIdx 1 0 t.key ts < (t :: ts).length := by
      have := firstMinIdx_lt ts 1 0 t.key (by omega)
      simp only [List.length_cons]
      omega
    set i := firstMinIdx 1 0 t.key ts with hi
    set m := (t :: ts).getD i t with hm
    set rest := (t :: ts).eraseIdx i with hrest
    have hperm : (t :: ts).Perm (m :: rest) := perm_getD_eraseIdx (t :: ts) i hlt t
    have hmmem : m ∈ t :: ts := hperm.mem_iff.2 (List.mem_cons_self _ _)
    have hkeyeq : BForest.keys (t :: ts) = m.keys + BForest.keys rest := by
      have hx := BForest.keys_perm hperm
      rw [BForest.keys_cons] at hx
      exact hx
    have hrestord : ∀ u ∈ rest, u.orderedB = true := by
      intro u hu
      exact hord u (hperm.mem_iff.2 (List.mem_cons_of_mem _ hu))
    have hminkey : m.key = min_scan t.key ts := by
      rw [hm, hi]
      exact firstMinIdx_key ts (t :: ts) 1 0 t.key t rfl (by omega) rfl
    have hminle : ∀ u ∈ t :: ts, m.key ≤ u.key := by
      intro u hu
      rw [hminkey]
      rcases List.mem_cons.1 hu with rfl | hu
      · exact min_scan_le ts u.key
      · exact min_scan_le_mem ts t.key u hu
    have hkeys2 : BForest.keys (t :: ts) =
        m.key ::ₘ BForest.keys (add_heap_head rest m.children) := by
      rw [hkeyeq, add_heap_head_keys, BTree.keys_eq]
      rw [← Multiset.singleton_add, ← Multiset.singleton_add]
      abel
    refine ⟨m.key, ⟨add_heap_head rest m.children, h.size - 1⟩, ?_, ⟨?_, ?_⟩, rfl, ?_, ?_⟩
    · rw [Bpop, if_neg (by omega)]
      simp only [hr]
    · intro u hu
      exact add_heap_head_ordered hrestord (BTree.children_ordered (hord m hmmem)) u hu
    · show h.size - 1 = Multiset.card (BForest.keys (add_heap_head rest m.children))
      have hcard : Multiset.card (BForest.keys (t :: ts)) =
          Multiset.card (BForest.keys (add_heap_head rest m.children)) + 1 := by
        rw [hkeys2]
        simp
      have hsz := hinv.2
      rw [hr] at hsz
      omega
    · exact hkeys2
    · intro x hx
      obtain ⟨u, hu, hxu⟩ := mem_keys_listsum.1 hx
      exact le_trans (hminle u hu) (BTree.key_le_of_mem_keys u (hord u hu) x hxu)

theorem BpopAll_spec :
    ∀ (n : Nat) (h : BHeap), BInv h → h.size = n →
      List.Sorted (· ≤ ·) (BpopAll n h) ∧
        (↑(BpopAll n h) : Multiset Int) = BForest.keys h.roots := by
  intro n
  induction n with
  | zero =>
    intro h hinv hs
    refine ⟨List.sorted_nil, ?_⟩
    have h2 := hinv.2
    have : Multiset.card (BForest.keys h.roots) = 0 := by omega
    rw [Multiset.card_eq_zero] at this
    rw [this]
    rfl
  | succ n ih =>
    intro h hinv hs
    obtain ⟨k, h', hpop, hinv', hsz, hkeys, hmin⟩ := Bpop_spec hinv (by omega)
    have hrec := ih h' hinv' (by omega)
    rw [BpopAll, hpop]
    constructor
    · rw [List.sorted_cons]
      refine ⟨?_, hrec.1⟩
      intro b hb
      refine hmin b ?_
      rw [hkeys]
      refine Multiset.mem_cons_of_mem ?_
      rw [← hrec.2]
      exact Multiset.mem_coe.2 hb
    · rw [hkeys, ← hrec.2]
      rfl

theorem Bbuild_aux :
    ∀ (l : List Int) (h : BHeap), BInv h →
      BInv (l.foldl Binsert h) ∧
        BForest.keys ((l.foldl Binsert h).roots) = BForest.keys h.roots + ↑l := by
  intro l
  induction l with
  | nil => intro h hinv; exact ⟨hinv, by simp⟩
  | cons a l ih =>
    intro h hinv
    rw [List.foldl_cons]
    obtain ⟨hinv', hk⟩ := ih (Binsert h a) (Binsert_inv hinv a)
    refine ⟨hinv', ?_⟩
    rw [hk, Binsert_keys]
    rw [← Multiset.cons_coe, ← Multiset.singleton_add, ← Multiset.singleton_add]
    abel

theorem BInv_empty : BInv ⟨[], 0⟩ := by
  constructor
  · intro t ht; simp at ht
  · rfl

/-- `Bheap`: inserting the keys of `l` and popping `size()` times yields
the keys of `l` in non-decreasing order. -/
theorem Bheap_sorted_extraction (l : List Int) :
    List.Sorted (· ≤ ·) (BpopAll (Bbuild l).size (Bbuild l)) ∧
      (BpopAll (Bbuild l).size (Bbuild l)).Perm l := by
  obtain ⟨hinv, hkeys⟩ := Bbuild_aux l ⟨[], 0⟩ BInv_empty
  rw [BForest.keys_nil, zero_add] at hkeys
  have hkeys' : BForest.keys (Bbuild l).roots = ↑l := hkeys
  obtain ⟨hs, hm⟩ := BpopAll_spec (Bbuild l).size (Bbuild l) hinv rfl
  refine ⟨hs, ?_⟩
  rw [← Multiset.coe_eq_coe]
  rw [hm, hkeys']

/-! ### Basic lemmas about the Fibonacci-heap embedding -/

theorem FTree.keys_nodeF (k : Int) (m : Bool) (d : Nat) (cs : List FTree) :
    (FTree.node k m d cs).keys = k ::ₘ FForest.keys cs := rfl

theorem FTree.orderedB_node_iffF (k : Int) (m : Bool) (d : Nat) (cs : List FTree) :
    (FTree.node k m d cs).orderedB = true ↔ ∀ c ∈ cs, k ≤ c.key ∧ c.orderedB = true := by
  rw [FTree.orderedB]
  induction cs with
  | nil => simp [FForest.childrenOrd]
  | cons c cs ih =>
    rw [FForest.childrenOrd]
    simp only [Bool.and_eq_true, decide_eq_true_eq, List.mem_cons]
    constructor
    · rintro ⟨⟨h1, h2⟩, h3⟩ u hu
      rcases hu with rfl | hu
      · exact ⟨h1, h2⟩
      · exact ih.1 h3 u hu
    · intro h
      exact ⟨h c (Or.inl rfl), ih.2 (fun u hu => h u (Or.inr hu))⟩

theorem mem_fkeys_listsum {cs : List FTree} {x : Int} :
    x ∈ FForest.keys cs ↔ ∃ c ∈ cs, x ∈ c.keys := by
  induction cs with
  | nil => simp [FForest.keys]
  | cons c cs ih =>
    rw [FForest.keys]
    simp [ih]

theorem FTree.strongIndF {P : FTree → Prop}
    (H : ∀ k m d cs, (∀ c ∈ cs, P c) → P (.node k m d cs)) : ∀ t, P t := by
  have aux : ∀ n (t : FTree), sizeOf t ≤ n → P t := by
    intro n
    induction n with
    | zero =>
      intro t ht
      cases t with
      | node k m d cs =>
        simp only [FTree.node.sizeOf_spec] at ht
        omega
    | succ n ih =>
      intro t ht
      cases t with
      | node k m d cs =>
        refine H k m d cs (fun c hc => ih c ?_)
        have := List.sizeOf_lt_of_mem hc
        simp only [FTree.node.sizeOf_spec] at ht
        omega
  exact fun t => aux (sizeOf t) t le_rfl

theorem FTree.key_le_of_mem_keysF :
    ∀ t : FTree, t.orderedB = true → ∀ x ∈ t.keys, t.key ≤ x := by
  refine FTree.strongIndF ?_
  intro k m d cs ih hord x hx
  rw [FTree.keys_nodeF] at hx
  rw [FTree.orderedB_node_iffF] at hord
  rcases Multiset.mem_cons.1 hx with h | h
  · simp [FTree.key, h]
  · obtain ⟨c, hc, hxm⟩ := mem_fkeys_listsum.1 h
    have h1 := (hord c hc).1
    have h2 := ih c hc (hord c hc).2 x hxm
    show k ≤ x
    omega

theorem FForest.keys_nilF : FForest.keys [] = 0 := rfl

theorem FForest.keys_consF (t : FTree) (ts : List FTree) :
    FForest.keys (t :: ts) = t.keys + FForest.keys ts := rfl

theorem FForest.keys_appendF (l1 l2 : List FTree) :
    FForest.keys (l1 ++ l2) = FForest.keys l1 + FForest.keys l2 := by
  induction l1 with
  | nil => rw [List.nil_append, FForest.keys, zero_add]
  | cons t ts ih =>
    rw [List.cons_append, FForest.keys_consF, FForest.keys_consF, ih, add_assoc]

theorem FTree.keys_eqF (t : FTree) :
    t.keys = t.key ::ₘ FForest.keys t.children := by
  cases t with
  | node k m d cs =>
    rw [FTree.keys_nodeF]
    rfl

theorem FTree.children_orderedF {t : FTree} (h : t.orderedB = true) :
    ∀ c ∈ t.children, c.orderedB = true := by
  cases t with
  | node k m d cs =>
    rw [FTree.orderedB_node_iffF] at h
    intro c hc
    exact (h c hc).2

/-- The `min`-first reading of a root ring respects the cached minimum:
the head's key is a lower bound for all root keys. -/
def RMH : List FTree → Prop
  | [] => True
  | m :: rest => ∀ t ∈ m :: rest, m.key ≤ t.key

theorem finsert_node_keys (l : List FTree) (x : FTree) :
    FForest.keys (finsert_node l x).1 = x.keys + FForest.keys l := by
  match l with
  | [] =>
    rw [finsert_node]
    simp [FForest.keys]
  | m :: rest =>
    rw [finsert_node]
    by_cases h : x.key < m.key
    · rw [if_pos h]
      rw [FForest.keys_consF]
    · rw [if_neg h]
      show FForest.keys (m :: (rest ++ [x])) = _
      rw [FForest.keys_consF, FForest.keys_appendF, FForest.keys_consF, FForest.keys_consF,
        FForest.keys_nilF]
      abel

theorem finsert_node_mem {l : List FTree} {x t : FTree}
    (h : t ∈ (finsert_node l x).1) : t = x ∨ t ∈ l := by
  match l with
  | [] =>
    rw [finsert_node] at h
    rcases List.mem_singleton.1 h with rfl
    exact Or.inl rfl
  | m :: rest =>
    rw [finsert_node] at h
    by_cases hc : x.key < m.key
    · rw [if_pos hc] at h
      simp only [] at h
      rcases List.mem_cons.1 h with rfl | h
      · exact Or.inl rfl
      · exact Or.inr h
    · rw [if_neg hc] at h
      simp only [] at h
      rcases List.mem_cons.1 h with rfl | h
      · exact Or.inr (List.mem_cons_self _ _)
      · rcases List.mem_append.1 h with h | h
        · exact Or.inr (List.mem_cons_of_mem _ h)
        · rcases List.mem_singleton.1 h with rfl
          exact Or.inl rfl

theorem finsert_node_rmh {l : List FTree} {x : FTree} (h : RMH l) :
    RMH (finsert_node l x).1 := by
  match l with
  | [] =>
    rw [finsert_node]
    intro t ht
    rcases List.mem_singleton.1 ht with rfl
    exact le_refl _
  | m :: rest =>
    rw [finsert_node]
    by_cases hc : x.key < m.key
    · rw [if_pos hc]
      intro t ht
      rcases List.mem_cons.1 ht with rfl | ht
      · exact le_refl _
      · exact le_trans (le_of_lt hc) (h t ht)
    · rw [if_neg hc]
      intro t ht
      rcases List.mem_cons.1 ht with rfl | ht
      · exact le_refl _
      · rcases List.mem_append.1 ht with ht | ht
        · exact h t (List.mem_cons_of_mem _ ht)
        · rcases List.mem_singleton.1 ht with rfl
          exact le_of_not_lt hc

theorem FTree.keys_mark_clear (t : FTree) :
    (FTree.node t.key false t.degree t.children).keys = t.keys := by
  cases t with
  | node k m d cs =>
    simp only [FTree.key, FTree.degree, FTree.children]
    rw [FTree.keys_nodeF, FTree.keys_nodeF]

theorem FTree.orderedB_mark_clear (t : FTree) :
    (FTree.node t.key false t.degree t.children).orderedB = t.orderedB := by
  cases t with
  | node k m d cs =>
    by_cases h : (FTree.node k m d cs).orderedB = true
    · have h2 : (FTree.node k false d cs).orderedB = true := by
        rw [FTree.orderedB_node_iffF] at h ⊢
        exact h
      simp only [FTree.key, FTree.degree, FTree.children]
      rw [h2, h]
    · have h2 : ¬(FTree.node k false d cs).orderedB = true := by
        rw [FTree.orderedB_node_iffF] at h ⊢
        exact h
      simp only [FTree.key, FTree.degree, FTree.children]
      rw [Bool.eq_false_iff.2 h, Bool.eq_false_iff.2 h2]

theorem fib_link_keys (y x : FTree) :
    (fib_link y x).keys = y.keys + x.keys := by
  cases x with
  | node k m d cs =>
    match cs with
    | [] =>
      rw [fib_link, FTree.keys_nodeF, FTree.keys_nodeF]
      rw [FForest.keys_consF, FForest.keys_nilF]
      rw [FTree.keys_mark_clear]
      rw [← Multiset.singleton_add, ← Multiset.singleton_add]
      abel
    | c :: cs' =>
      rw [fib_link, FTree.keys_nodeF, FTree.keys_nodeF]
      rw [FForest.keys_consF, FForest.keys_consF, FForest.keys_consF]
      rw [FTree.keys_mark_clear]
      rw [← Multiset.singleton_add, ← Multiset.singleton_add]
      abel

theorem fib_link_ordered {y x : FTree} (hxy : x.key ≤ y.key)
    (hy : y.orderedB = true) (hx : x.orderedB = true) :
    (fib_link y x).orderedB = true := by
  have hy' : (FTree.node y.key false y.degree y.children).orderedB = true := by
    rw [FTree.orderedB_mark_clear]
    exact hy
  cases x with
  | node k m d cs =>
    have hk : (FTree.node k m d cs).key = k := rfl
    rw [hk] at hxy
    rw [FTree.orderedB_node_iffF] at hx
    match cs with
    | [] =>
      rw [fib_link, FTree.orderedB_node_iffF]
      intro c hc
      rcases List.mem_singleton.1 hc with rfl
      exact ⟨hxy, hy'⟩
    | c :: cs' =>
      rw [fib_link, FTree.orderedB_node_iffF]
      intro u hu
      rcases List.mem_cons.1 hu with rfl | hu
      · exact hx u (List.mem_cons_self _ _)
      · rcases List.mem_cons.1 hu with rfl | hu
        · exact ⟨hxy, hy'⟩
        · exact hx u (List.mem_cons_of_mem _ hu)

/-! ### Bookkeeping for `FibHeap::consolidate`'s bucket array -/

/-- Keys stored in the non-empty buckets of the consolidation array. -/
def AOKeys : List (Option FTree) → Multiset Int
  | [] => 0
  | none :: A => AOKeys A
  | some t :: A => t.keys + AOKeys A

/-- Number of non-empty buckets. -/
def countSome : List (Option FTree) → Nat
  | [] => 0
  | none :: A => countSome A
  | some _ :: A => countSome A + 1

/-- All bucketed trees are heap-ordered. -/
def AOrdered (A : List (Option FTree)) : Prop :=
  ∀ t : FTree, some t ∈ A → t.orderedB = true

theorem AOKeys_replicate (n : Nat) : AOKeys (List.replicate n none) = 0 := by
  induction n with
  | zero => rfl
  | succ n ih => rw [List.replicate_succ, AOKeys, ih]

theorem countSome_replicate (n : Nat) : countSome (List.replicate n none) = 0 := by
  induction n with
  | zero => rfl
  | succ n ih => rw [List.replicate_succ, countSome, ih]

theorem AOrdered_replicate (n : Nat) : AOrdered (List.replicate n none) := by
  intro t ht
  have := List.eq_of_mem_replicate ht
  simp at this

theorem getD_none_of_countSome_zero :
    ∀ (A : List (Option FTree)), countSome A = 0 → ∀ d, A.getD d none = none := by
  intro A
  induction A with
  | nil => intro _ d; cases d <;> rfl
  | cons o A ih =>
    intro h d
    match o with
    | some t => rw [countSome] at h; omega
    | none =>
      rw [countSome] at h
      match d with
      | 0 => rfl
      | d + 1 => rw [List.getD_cons_succ]; exact ih h d

theorem mem_of_getD_some :
    ∀ (A : List (Option FTree)) (d : Nat) {y : FTree},
      A.getD d none = some y → some y ∈ A := by
  intro A
  induction A with
  | nil => intro d y h; cases d <;> simp [List.getD] at h
  | cons o A ih =>
    intro d y h
    match d with
    | 0 =>
      rw [List.getD_cons_zero] at h
      rw [h]
      exact List.mem_cons_self _ _
    | d + 1 =>
      rw [List.getD_cons_succ] at h
      exact List.mem_cons_of_mem _ (ih d h)

theorem AOKeys_set_none :
    ∀ (A : List (Option FTree)) (d : Nat) {y : FTree}, A.getD d none = some y →
      AOKeys A = y.keys + AOKeys (A.set d none) ∧
        countSome A = countSome (A.set d none) + 1 := by
  intro A
  induction A with
  | nil => intro d y h; cases d <;> simp [List.getD] at h
  | cons o A ih =>
    intro d y h
    match d with
    | 0 =>
      rw [List.getD_cons_zero] at h
      subst h
      rw [List.set_cons_zero]
      exact ⟨by rw [AOKeys, AOKeys], by rw [countSome, countSome]⟩
    | d + 1 =>
      rw [List.getD_cons_succ] at h
      rw [List.set_cons_succ]
      obtain ⟨h1, h2⟩ := ih d h
      match o with
      | none => exact ⟨by rw [AOKeys, AOKeys, h1], by rw [countSome, countSome, h2]⟩
      | some u =>
        refine ⟨?_, ?_⟩
        · rw [AOKeys, AOKeys, h1]
          abel
        · rw [countSome, countSome, h2]

theorem AOKeys_set_some :
    ∀ (A : List (Option FTree)) (d : Nat) (x : FTree), d < A.length →
      A.getD d none = none →
      AOKeys (A.set d (some x)) = x.keys + AOKeys A ∧
        countSome (A.set d (some x)) = countSome A + 1 := by
  intro A
  induction A with
  | nil => intro d x h; simp at h
  | cons o A ih =>
    intro d x hlen h
    match d with
    | 0 =>
      rw [List.getD_cons_zero] at h
      subst h
      rw [List.set_cons_zero]
      exact ⟨by rw [AOKeys, AOKeys], by rw [countSome, countSome]⟩
    | d + 1 =>
      rw [List.getD_cons_succ] at h
      rw [List.set_cons_succ]
      have hlen' : d < A.length := by simpa using hlen
      obtain ⟨h1, h2⟩ := ih d x hlen' h
      match o with
      | none => exact ⟨by rw [AOKeys, AOKeys, h1], by rw [countSome, countSome, h2]⟩
      | some u =>
        refine ⟨?_, ?_⟩
        · rw [AOKeys, AOKeys, h1]
          abel
        · rw [countSome, countSome, h2]

theorem AOrdered_set {A : List (Option FTree)} {d : Nat} {v : Option FTree}
    (hA : AOrdered A) (hv : ∀ t : FTree, v = some t → t.orderedB = true) :
    AOrdered (A.set d v) := by
  intro t ht
  rcases List.mem_or_eq_of_mem_set ht with h | h
  · exact hA t h
  · exact hv t h.symm

theorem fib_link_loop_spec :
    ∀ (fuel : Nat) (A : List (Option FTree)) (x : FTree) (d : Nat),
      countSome A ≤ fuel → d + countSome A < A.length →
      AOKeys (fib_link_loop fuel A x d) = x.keys + AOKeys A ∧
        countSome (fib_link_loop fuel A x d) ≤ countSome A + 1 ∧
        (fib_link_loop fuel A x d).length = A.length ∧
        (x.orderedB = true → AOrdered A → AOrdered (fib_link_loop fuel A x d)) := by
  intro fuel
  induction fuel with
  | zero =>
    intro A x d hfuel hlen
    have hz : countSome A = 0 := by omega
    have hnone := getD_none_of_countSome_zero A hz d
    rw [fib_link_loop]
    obtain ⟨h1, h2⟩ := AOKeys_set_some A d x (by omega) hnone
    refine ⟨h1, by omega, by simp, ?_⟩
    intro hx hA
    exact AOrdered_set hA (fun t ht => by cases ht; exact hx)
  | succ fuel ih =>
    intro A x d hfuel hlen
    cases hA : A.getD d none with
    | none =>
      rw [fib_link_loop, hA]
      dsimp only
      obtain ⟨h1, h2⟩ := AOKeys_set_some A d x (by omega) hA
      refine ⟨h1, by omega, by simp, ?_⟩
      intro hx hAo
      exact AOrdered_set hAo (fun t ht => by cases ht; exact hx)
    | some y =>
      rw [fib_link_loop, hA]
      dsimp only
      obtain ⟨hk, hc⟩ := AOKeys_set_none A d hA
      have hymem := mem_of_getD_some A d hA
      have hlen2 : (A.set d none).length = A.length := by simp
      have hrec := ih (A.set d none)
        (fib_link (if y.key < x.key then (y, x) else (x, y)).2
          (if y.key < x.key then (y, x) else (x, y)).1) (d + 1)
        (by omega) (by omega)
      refine ⟨?_, ?_, ?_, ?_⟩
      · rw [hrec.1, hk]
        by_cases hcmp : y.key < x.key
        · rw [if_pos hcmp]
          rw [fib_link_keys]
          abel
        · rw [if_neg hcmp]
          rw [fib_link_keys]
          abel
      · have := hrec.2.1
        omega
      · rw [hrec.2.2.1, hlen2]
      · intro hx hAo
        refine hrec.2.2.2 ?_ (AOrdered_set hAo (fun t ht => by cases ht))
        have hy : y.orderedB = true := hAo y hymem
        by_cases hcmp : y.key < x.key
        · rw [if_pos hcmp]
          exact fib_link_ordered (le_of_lt hcmp) hx hy
        · rw [if_neg hcmp]
          exact fib_link_ordered (le_of_not_lt hcmp) hy hx

theorem consolidate_fold_spec :
    ∀ (todo : List FTree) (A : List (Option FTree)) (j num md : Nat),
      countSome A ≤ j → A.length = md + num → j + todo.length ≤ num →
      (∀ t ∈ todo, t.degree ≤ md) → (∀ t ∈ todo, t.orderedB = true) → AOrdered A →
      AOKeys (todo.foldl (fun B x => fib_link_loop num B x x.degree) A) =
          FForest.keys todo + AOKeys A ∧
        countSome (todo.foldl (fun B x => fib_link_loop num B x x.degree) A) ≤
          j + todo.length ∧
        (todo.foldl (fun B x => fib_link_loop num B x x.degree) A).length = md + num ∧
        AOrdered (todo.foldl (fun B x => fib_link_loop num B x x.degree) A) := by
  intro todo
  induction todo with
  | nil =>
    intro A j num md hc hl _ _ _ hA
    refine ⟨?_, ?_, hl, hA⟩
    · rw [List.foldl_nil, FForest.keys_nilF, zero_add]
    · rw [List.foldl_nil]; omega
  | cons x todo ih =>
    intro A j num md hc hl hj hdeg hord hA
    rw [List.foldl_cons]
    have hxdeg : x.degree ≤ md := hdeg x (List.mem_cons_self _ _)
    have hxord : x.orderedB = true := hord x (List.mem_cons_self _ _)
    have hlen : x.degree + countSome A < A.length := by
      simp only [List.length_cons] at hj
      omega
    have hfuel : countSome A ≤ num := by
      simp only [List.length_cons] at hj
      omega
    obtain ⟨l1, l2, l3, l4⟩ := fib_link_loop_spec num A x x.degree hfuel hlen
    have hrec := ih (fib_link_loop num A x x.degree) (j + 1) num md
      (by omega) (by rw [l3, hl]) (by simp only [List.length_cons] at hj ⊢; omega)
      (fun t ht => hdeg t (List.mem_cons_of_mem _ ht))
      (fun t ht => hord t (List.mem_cons_of_mem _ ht))
      (l4 hxord hA)
    refine ⟨?_, ?_, hrec.2.2.1, hrec.2.2.2⟩
    · rw [hrec.1, l1, FForest.keys_consF]
      abel
    · have := hrec.2.1
      simp only [List.length_cons]
      omega

theorem reinsert_fold_spec :
    ∀ (A : List (Option FTree)) (acc : List FTree),
      FForest.keys (A.foldl
          (fun acc o => match o with | none => acc | some t => (finsert_node acc t).1) acc) =
        FForest.keys acc + AOKeys A ∧
      (AOrdered A → (∀ t ∈ acc, t.orderedB = true) →
        ∀ t ∈ (A.foldl
          (fun acc o => match o with | none => acc | some t => (finsert_node acc t).1) acc),
          t.orderedB = true) ∧
      (RMH acc → RMH (A.foldl
          (fun acc o => match o with | none => acc | some t => (finsert_node acc t).1) acc)) := by
  intro A
  induction A with
  | nil =>
    intro acc
    refine ⟨?_, ?_, ?_⟩
    · rw [List.foldl_nil, AOKeys, add_zero]
    · intro _ h; rw [List.foldl_nil]; exact h
    · intro h; rw [List.foldl_nil]; exact h
  | cons o A ih =>
    intro acc
    match o with
    | none =>
      rw [List.foldl_cons]
      refine ⟨?_, ?_, ?_⟩
      · rw [(ih acc).1, AOKeys]
      · intro hA hacc
        refine (ih acc).2.1 ?_ hacc
        intro t ht
        exact hA t (List.mem_cons_of_mem _ ht)
      · exact (ih acc).2.2
    | some u =>
      rw [List.foldl_cons]
      have hins := ih (finsert_node acc u).1
      refine ⟨?_, ?_, ?_⟩
      · rw [hins.1, finsert_node_keys, AOKeys]
        abel
      · intro hA hacc
        refine hins.2.1 (fun t ht => hA t (List.mem_cons_of_mem _ ht)) ?_
        intro t ht
        rcases finsert_node_mem ht with rfl | ht
        · exact hA t (List.mem_cons_self _ _)
        · exact hacc t ht
      · intro hr
        exact hins.2.2 (finsert_node_rmh hr)

theorem foldl_max_degree (l : List FTree) :
    ∀ b, b ≤ l.foldl (fun m t => max m t.degree) b ∧
      ∀ t ∈ l, t.degree ≤ l.foldl (fun m t => max m t.degree) b := by
  induction l with
  | nil =>
    intro b
    refine ⟨le_refl _, ?_⟩
    intro t ht
    simp at ht
  | cons u l ih =>
    intro b
    rw [List.foldl_cons]
    refine ⟨le_trans (le_max_left _ _) (ih (max b u.degree)).1, ?_⟩
    intro t ht
    rcases List.mem_cons.1 ht with rfl | ht
    · exact le_trans (le_max_right _ _) (ih (max b t.degree)).1
    · exact (ih (max b u.degree)).2 t ht

theorem consolidate_spec (l : List FTree) (hord : ∀ t ∈ l, t.orderedB = true) :
    FForest.keys (consolidate l) = FForest.keys l ∧
      (∀ t ∈ consolidate l, t.orderedB = true) ∧ RMH (consolidate l) := by
  rw [consolidate]
  have hmd := foldl_max_degree l 0
  obtain ⟨f1, f2, f3, f4⟩ := consolidate_fold_spec l
    (List.replicate (l.foldl (fun m t => max m t.degree) 0 + l.length) none)
    0 l.length (l.foldl (fun m t => max m t.degree) 0)
    (by rw [countSome_replicate]) (by rw [List.length_replicate]) (by omega)
    hmd.2 hord (AOrdered_replicate _)
  obtain ⟨r1, r2, r3⟩ := reinsert_fold_spec
    (l.foldl (fun B x => fib_link_loop l.length B x x.degree)
      (List.replicate (l.foldl (fun m t => max m t.degree) 0 + l.length) none)) []
  refine ⟨?_, ?_, ?_⟩
  · rw [r1, f1, AOKeys_replicate, FForest.keys_nilF]
    abel
  · refine r2 f4 ?_
    intro t ht
    simp at ht
  · exact r3 trivial

/-! ### `FibHeap::pop` extracts the minimum -/

theorem FTree.children_key_le {t : FTree} (h : t.orderedB = true) :
    ∀ c ∈ t.children, t.key ≤ c.key := by
  cases t with
  | node k m d cs =>
    rw [FTree.orderedB_node_iffF] at h
    intro c hc
    exact (h c hc).1

theorem fsplice_no_promote :
    ∀ (cs : List FTree) (z : FTree) (rest : List FTree) (zIdx : Nat),
      (∀ c ∈ cs, ¬ c.key < z.key) →
      fsplice_children (z :: rest) zIdx cs = (z :: (rest ++ cs), zIdx) := by
  intro cs
  induction cs with
  | nil =>
    intro z rest zIdx _
    rw [fsplice_children, List.append_nil]
  | cons c cs ih =>
    intro z rest zIdx hc
    rw [fsplice_children]
    have hins : finsert_node (z :: rest) c = (z :: (rest ++ [c]), false) := by
      rw [finsert_node, if_neg (hc c (List.mem_cons_self _ _))]
    rw [hins]
    dsimp only
    rw [if_neg Bool.false_ne_true]
    rw [ih z (rest ++ [c]) zIdx (fun u hu => hc u (List.mem_cons_of_mem _ hu))]
    rw [List.append_assoc]
    rfl

/-- The invariant `FibHeap`'s operations maintain for the states claim C1
exercises: all trees heap-ordered, cached minimum correct, and `_size`
equal to the number of stored keys. -/
def FInv (h : FHeap) : Prop :=
  (∀ t ∈ h.roots, t.orderedB = true) ∧ RMH h.roots ∧
    h.size = Multiset.card (FForest.keys h.roots)

theorem Finsert_keys (h : FHeap) (k : Int) :
    FForest.keys (Finsert h k).roots = k ::ₘ FForest.keys h.roots := by
  show FForest.keys (finsert_node h.roots (.node k false 0 [])).1 = _
  rw [finsert_node_keys, FTree.keys_nodeF, FForest.keys_nilF]
  rw [← Multiset.singleton_add, ← Multiset.singleton_add]
  simp

theorem Finsert_inv {h : FHeap} (hinv : FInv h) (k : Int) : FInv (Finsert h k) := by
  refine ⟨?_, ?_, ?_⟩
  · intro t ht
    rcases finsert_node_mem ht with rfl | ht
    · rw [FTree.orderedB_node_iffF]
      intro c hc
      simp at hc
    · exact hinv.1 t ht
  · exact finsert_node_rmh hinv.2.1
  · rw [Finsert_keys]
    show h.size + 1 = _
    rw [Multiset.card_cons, hinv.2.2]

theorem Fpop_spec {h : FHeap} (hinv : FInv h) (hpos : 0 < h.size) :
    ∃ k h', Fpop h = .ok (k, h') ∧ FInv h' ∧ h'.size = h.size - 1 ∧
      FForest.keys h.roots = k ::ₘ FForest.keys h'.roots ∧
      ∀ x ∈ FForest.keys h.roots, k ≤ x := by
  match hr : h.roots with
  | [] =>
    exfalso
    have hc := hinv.2.2
    rw [hr, FForest.keys_nilF] at hc
    simp at hc
    omega
  | z :: rest =>
    have hordall : ∀ u ∈ z :: rest, u.orderedB = true := by rw [← hr]; exact hinv.1
    have hrmh : ∀ t ∈ z :: rest, z.key ≤ t.key := by
      have := hinv.2.1
      rw [hr] at this
      exact this
    have hzord : z.orderedB = true := hordall z (List.mem_cons_self _ _)
    have hcord : ∀ c ∈ z.children, c.orderedB = true := FTree.children_orderedF hzord
    have hckey : ∀ c ∈ z.children, ¬ c.key < z.key :=
      fun c hc => not_lt_of_le (FTree.children_key_le hzord c hc)
    have hsp := fsplice_no_promote z.children z rest 0 hckey
    have hkeysz : z.keys = z.key ::ₘ FForest.keys z.children := FTree.keys_eqF z
    have hminle : ∀ x ∈ FForest.keys (z :: rest), z.key ≤ x := by
      intro x hx
      obtain ⟨u, hu, hxu⟩ := mem_fkeys_listsum.1 hx
      exact le_trans (hrmh u hu) (FTree.key_le_of_mem_keysF u (hordall u hu) x hxu)
    by_cases hn : (z :: (rest ++ z.children)).length ≤ 1
    · have hre : rest = [] ∧ z.children = [] := by
        simp only [List.length_cons, List.length_append] at hn
        constructor <;>
          · cases hrest : rest <;> cases hch : z.children <;>
              (try rfl) <;> (rw [hrest, hch] at hn; simp at hn)
      refine ⟨z.key, ⟨consolidate [], h.size - 1⟩, ?_, ?_, rfl, ?_, hminle⟩
      · rw [Fpop]
        simp only [hr]
        rw [hsp]
        dsimp only
        rw [if_pos hn]
      · refine ⟨?_, ?_, ?_⟩
        · intro t ht
          simp [consolidate] at ht
        · show RMH []
          trivial
        · show h.size - 1 = Multiset.card (FForest.keys [])
          have hsz := hinv.2.2
          rw [hr, FForest.keys_consF, hkeysz, hre.1, hre.2] at hsz
          rw [FForest.keys_nilF] at hsz ⊢
          simp at hsz ⊢
          omega
      · show FForest.keys (z :: rest) = z.key ::ₘ FForest.keys []
        rw [FForest.keys_consF, hkeysz, hre.1, hre.2, FForest.keys_nilF]
        simp
    · obtain ⟨c1, c2, c3⟩ := consolidate_spec (rest ++ z.children)
        (by
          intro t ht
          rcases List.mem_append.1 ht with ht | ht
          · exact hordall t (List.mem_cons_of_mem _ ht)
          · exact hcord t ht)
      refine ⟨z.key, ⟨consolidate (rest ++ z.children), h.size - 1⟩, ?_, ⟨c2, c3, ?_⟩, rfl,
        ?_, hminle⟩
      · rw [Fpop]
        simp only [hr]
        rw [hsp]
        dsimp only
        rw [if_neg hn]
        rw [List.eraseIdx_cons_zero, Nat.zero_mod, List.drop_zero, List.take_zero,
          List.append_nil]
      · show h.size - 1 = _
        have hsz := hinv.2.2
        rw [hr, FForest.keys_consF, hkeysz] at hsz
        rw [c1, FForest.keys_appendF]
        simp only [Multiset.card_add, Multiset.card_cons] at hsz ⊢
        omega
      · show FForest.keys (z :: rest) = z.key ::ₘ FForest.keys (consolidate (rest ++ z.children))
        rw [c1, FForest.keys_appendF, FForest.keys_consF, hkeysz]
        rw [← Multiset.singleton_add, ← Multiset.singleton_add]
        abel

theorem FpopAll_spec :
    ∀ (n : Nat) (h : FHeap), FInv h → h.size = n →
      List.Sorted (· ≤ ·) (FpopAll n h) ∧
        (↑(FpopAll n h) : Multiset Int) = FForest.keys h.roots := by
  intro n
  induction n with
  | zero =>
    intro h hinv hs
    refine ⟨List.sorted_nil, ?_⟩
    have h2 := hinv.2.2
    have hz : Multiset.card (FForest.keys h.roots) = 0 := by omega
    rw [Multiset.card_eq_zero] at hz
    rw [hz]
    rfl
  | succ n ih =>
    intro h hinv hs
    obtain ⟨k, h', hpop, hinv', hsz, hkeys, hmin⟩ := Fpop_spec hinv (by omega)
    have hrec := ih h' hinv' (by omega)
    rw [FpopAll, hpop]
    constructor
    · rw [List.sorted_cons]
      refine ⟨?_, hrec.1⟩
      intro b hb
      refine hmin b ?_
      rw [hkeys]
      refine Multiset.mem_cons_of_mem ?_
      rw [← hrec.2]
      exact Multiset.mem_coe.2 hb
    · rw [hkeys, ← hrec.2]
      rfl

theorem Fbuild_aux :
    ∀ (l : List Int) (h : FHeap), FInv h →
      FInv (l.foldl Finsert h) ∧
        FForest.keys ((l.foldl Finsert h).roots) = FForest.keys h.roots + ↑l := by
  intro l
  induction l with
  | nil => intro h hinv; exact ⟨hinv, by simp⟩
  | cons a l ih =>
    intro h hinv
    rw [List.foldl_cons]
    obtain ⟨hinv', hk⟩ := ih (Finsert h a) (Finsert_inv hinv a)
    refine ⟨hinv', ?_⟩
    rw [hk, Finsert_keys]
    rw [← Multiset.cons_coe, ← Multiset.singleton_add, ← Multiset.singleton_add]
    abel

theorem FInv_empty : FInv ⟨[], 0⟩ := by
  refine ⟨?_, trivial, rfl⟩
  intro t ht
  simp at ht

/-- `FibHeap`: inserting the keys of `l` and popping `size()` times yields
the keys of `l` in non-decreasing order. -/
theorem Fib_sorted_extraction (l : List Int) :
    List.Sorted (· ≤ ·) (FpopAll (Fbuild l).size (Fbuild l)) ∧
      (FpopAll (Fbuild l).size (Fbuild l)).Perm l := by
  obtain ⟨hinv, hkeys⟩ := Fbuild_aux l ⟨[], 0⟩ FInv_empty
  rw [FForest.keys_nilF, zero_add] at hkeys
  have hkeys' : FForest.keys (Fbuild l).roots = ↑l := hkeys
  obtain ⟨hs, hm⟩ := FpopAll_spec (Fbuild l).size (Fbuild l) hinv rfl
  refine ⟨hs, ?_⟩
  rw [← Multiset.coe_eq_coe]
  rw [hm, hkeys']

/-- Claim C1: for each variant, inserting the keys of any finite list `l`
(in the given order — `Bbuild`/`Fbuild` fold `insert` over `l`) and then
popping until `size()` reaches 0 (`size()` pops, since insert increments
`_size` once per key and pop decrements it) returns exactly the multiset
of inserted keys in non-decreasing order. -/
theorem claim_C1_sorted_extraction (l : List Int) :
    (List.Sorted (· ≤ ·) (BpopAll (Bbuild l).size (Bbuild l)) ∧
      (BpopAll (Bbuild l).size (Bbuild l)).Perm l) ∧
    (List.Sorted (· ≤ ·) (FpopAll (Fbuild l).size (Fbuild l)) ∧
      (FpopAll (Fbuild l).size (Fbuild l)).Perm l) :=
  ⟨Bheap_sorted_extraction l, Fib_sorted_extraction l⟩

/-! ### Pointer-level model of `FibHeap::add_heap`

`FibHeap::add_heap` iterates `merged = merged->right` over the ring of the
consumed heap `H` — but `insert_node(merged)` has just overwritten
`merged->right` to point at the target heap's ring.  This aliasing is
essential to the function's behaviour, so it is modelled at the pointer
level: nodes are addressed by `Nat` identifiers and carry their `left`,
`right` and `key` fields (`add_heap` reads and writes nothing else). -/

structure FNodeRec where
  left : Nat
  right : Nat
  key : Int

structure FPtrState where
  nodes : Nat → FNodeRec
  min : Option Nat

/-- `FibHeap::insert_node(x)` on the pointer model, line by line:
`if (!min) min = x;` then `l = min->left; l->right = x; x->left = l;
min->left = x; x->right = min;` then `if (x->compare_less(min)) min = x`. -/
def fptr_insert_node (s : FPtrState) (x : Nat) : FPtrState :=
  let mn := match s.min with | none => x | some m => m
  let l := (s.nodes mn).left
  let n1 := fun i => if i = l then { s.nodes i with right := x } else s.nodes i
  let n2 := fun i => if i = x then { n1 i with left := l } else n1 i
  let n3 := fun i => if i = mn then { n2 i with left := x } else n2 i
  let n4 := fun i => if i = x then { n3 i with right := mn } else n3 i
  { nodes := n4, min := some (if (n4 x).key < (n4 mn).key then x else mn) }

/-- The `do { insert_node(merged); merged = merged->right; } while
(merged != H.min)` loop of `FibHeap::add_heap`, with fuel: `none` means
the loop has not terminated within `fuel` iterations. -/
def fptr_add_heap_loop : Nat → FPtrState → Nat → Nat → Option FPtrState
  | 0, _, _, _ => none
  | fuel + 1, s, merged, hmin =>
    let s' := fptr_insert_node s merged
    let m' := (s'.nodes merged).right
    if m' = hmin then some s' else fptr_add_heap_loop fuel s' m' hmin

/-- `FibHeap::add_heap(H)`: early-out when `H.min` is null, otherwise run
the loop starting at `merged = H.min`. -/
def fptr_add_heap (fuel : Nat) (s : FPtrState) (hmin : Option Nat) : Option FPtrState :=
  match hmin with
  | none => some s
  | some m => fptr_add_heap_loop fuel s m m

theorem fptr_insert_self {s : FPtrState} {m : Nat} (hmin : s.min = some m)
    (hl : (s.nodes m).left = m) :
    (fptr_insert_node s m).min = some m ∧
      ((fptr_insert_node s m).nodes m).left = m ∧
      ((fptr_insert_node s m).nodes m).right = m := by
  simp [fptr_insert_node, hmin, hl]

/-- If the target heap's `min` node has become a self-ring (which happens
after the first two iterations whenever the consumed heap's head key is
not smaller), the loop re-inserts that same node forever. -/
theorem fptr_add_heap_diverges :
    ∀ (fuel : Nat) (s : FPtrState) (m hmin : Nat), s.min = some m →
      (s.nodes m).left = m → m ≠ hmin →
      fptr_add_heap_loop fuel s m hmin = none := by
  intro fuel
  induction fuel with
  | zero => intro s m hmin _ _ _; rfl
  | succ fuel ih =>
    intro s m hmin hm hl hne
    obtain ⟨p1, p2, p3⟩ := fptr_insert_self hm hl
    rw [fptr_add_heap_loop]
    simp only [p3]
    rw [if_neg hne]
    exact ih (fptr_insert_node s m) m hmin p1 p2 hne

/-- Heap reached after one successful `pop` (identity on error, used only
where the pop demonstrably succeeds). -/
def BpopHeap (h : BHeap) : BHeap :=
  match Bpop h with
  | .ok (_, h') => h'
  | _ => h

/-- The root chain is in strictly increasing degree order. -/
def degreesIncreasing : List BTree → Bool
  | [] => true
  | [_] => true
  | a :: b :: rest => decide (a.degree < b.degree) && degreesIncreasing (b :: rest)

/-- Pointer state for two singleton Fibonacci heaps: the target heap holds
node 0 (key 1, a self-ring, `min = 0`), the consumed heap holds node 1
(key 2, a self-ring, `H.min = 1`).  Identifiers ≥ 2 are unused. -/
def fptrTwoSingles : FPtrState :=
  { nodes := fun i => if i = 0 then ⟨0, 0, 1⟩ else ⟨1, 1, 2⟩, min := some 0 }

/-- Pointer state for the spec's meld example: the target heap is the ring
0 → 1 → 2 → 0 with keys 1, 4, 9 (`min = 0`, the layout `insert(1);
insert(4); insert(9)` produces), the consumed heap the ring 3 → 4 → 5 → 3
with keys 2, 3, 7 (`H.min = 3`). -/
def fptrMeldExample : FPtrState :=
  { nodes := fun i =>
      if i = 0 then ⟨2, 1, 1⟩
      else if i = 1 then ⟨0, 2, 4⟩
      else if i = 2 then ⟨1, 0, 9⟩
      else if i = 3 then ⟨5, 4, 2⟩
      else if i = 4 then ⟨3, 5, 3⟩
      else ⟨4, 3, 7⟩,
    min := some 0 }

/-- Claim C5 (refuted by the code): `FibHeap::add_heap` does not terminate
on two reachable heaps — melding the singleton heap `{2}` into the
singleton heap `{1}` loops forever (for every fuel bound the loop has not
exited). -/
theorem claim_C5_fib_add_heap_diverges :
    ∀ fuel : Nat, fptr_add_heap fuel fptrTwoSingles (some 1) = none := by
  intro fuel
  show fptr_add_heap_loop fuel fptrTwoSingles 1 1 = none
  match fuel with
  | 0 => rfl
  | 1 => rfl
  | n + 2 =>
    have e : fptr_add_heap_loop (n + 2) fptrTwoSingles 1 1 =
        fptr_add_heap_loop n
          (fptr_insert_node (fptr_insert_node fptrTwoSingles 1) 0) 0 1 := rfl
    rw [e]
    exact fptr_add_heap_diverges n _ 0 1 rfl rfl (by decide)

/-- Claim C3 (refuted by the code): melding `{1,4,9}` with `{2,3,7}`.
`Bheap`: the merged forest holds all six keys and `get_min` returns 1, but
`_size` stays 3, so the pop protocol yields only `1, 2, 3` and the fourth
pop throws.  `FibHeap`: `add_heap` on the same keys loops forever. -/
theorem claim_C3_meld_bug :
    (Badd_heap (Bbuild [1, 4, 9]) (Bbuild [2, 3, 7])).size = 3 ∧
    BForest.keys (Badd_heap (Bbuild [1, 4, 9]) (Bbuild [2, 3, 7])).roots =
      (↑([1, 4, 9, 2, 3, 7] : List Int) : Multiset Int) ∧
    Bget_min (Badd_heap (Bbuild [1, 4, 9]) (Bbuild [2, 3, 7])) = .ok 1 ∧
    BpopAll 6 (Badd_heap (Bbuild [1, 4, 9]) (Bbuild [2, 3, 7])) = [1, 2, 3] ∧
    Bpop (BpopHeap (BpopHeap (BpopHeap
      (Badd_heap (Bbuild [1, 4, 9]) (Bbuild [2, 3, 7]))))) = .emptyErr ∧
    ∀ fuel : Nat, fptr_add_heap fuel fptrMeldExample (some 3) = none := by
  refine ⟨rfl, by decide, rfl, rfl, rfl, ?_⟩
  intro fuel
  show fptr_add_heap_loop fuel fptrMeldExample 3 3 = none
  match fuel with
  | 0 => rfl
  | 1 => rfl
  | n + 2 =>
    have e : fptr_add_heap_loop (n + 2) fptrMeldExample 3 3 =
        fptr_add_heap_loop n
          (fptr_insert_node (fptr_insert_node fptrMeldExample 3) 0) 0 3 := rfl
    rw [e]
    exact fptr_add_heap_diverges n _ 0 3 rfl rfl (by decide)

/-- Claim C4 (refuted by the code): `Bheap::add_heap` never updates
`_size`.  After melding `{1}` into `{2}`'s... after `A = {1}`,
`B = {2}`, `A.add_heap(B)` the merged forest holds both keys but
`size()` still reports 1 (the claim demands 2), and `B`'s `_size` field is
not cleared either (`add_heap` writes nothing but pointers). -/
theorem claim_C4_meld_size_bug :
    (Badd_heap (Bbuild [1]) (Bbuild [2])).size = 1 ∧
    Multiset.card (BForest.keys (Badd_heap (Bbuild [1]) (Bbuild [2])).roots) = 2 ∧
    (Binsert (⟨[], 0⟩ : BHeap) 5).size = 1 ∧
    (BpopHeap (Binsert (⟨[], 0⟩ : BHeap) 5)).size = 0 := by
  refine ⟨rfl, by decide, rfl, rfl⟩

/-- Claim C9 (refuted for `get_min`): on an empty heap both variants'
`get_min` dereference a null pointer (`head->sibling` resp. `min->key`)
instead of failing explicitly, while both `pop`s do throw
`std::out_of_range` before touching the structure. -/
theorem claim_C9_empty_guard :
    Bget_min ⟨[], 0⟩ = .nullDeref ∧ Fget_min ⟨[], 0⟩ = .nullDeref ∧
    Bpop ⟨[], 0⟩ = .emptyErr ∧ Fpop ⟨[], 0⟩ = .emptyErr :=
  ⟨rfl, rfl, rfl, rfl⟩

/-- Claim C6 counterexample: build a degree-2 binomial tree by inserting
1, 2, 3, 4 and pop once.  The popped root's children enter the root list
in their stored (decreasing-degree) order `[1, 0]` because `Bheap::pop`
performs no reversal, so the root chain is not strictly increasing. -/
theorem claim_C6_counterexample :
    BpopAll 1 (Bbuild [1, 2, 3, 4]) = [1] ∧
    (BpopHeap (Bbuild [1, 2, 3, 4])).roots.map BTree.degree = [1, 0] ∧
    degreesIncreasing (BpopHeap (Bbuild [1, 2, 3, 4])).roots = false := by
  refine ⟨rfl, rfl, rfl⟩

/-! ### Handles and `decrease_key`

The C++ `decrease_key` takes a `shared_ptr` to a node.  In the tree
embedding a node handle is its position: the index `r` of its tree in the
root chain/ring plus the in-tree path `p` of child indices (an index into
the stored `children` list at each level).  An invalid handle (dangling or
foreign pointer) is outside the embedding's domain and maps to `none`. -/

mutual

/-- Apply `f` to the node at path `p` (identity on the tree when the path
leaves the tree). -/
def BTree.modAt (f : BTree → BTree) : BTree → List Nat → BTree
  | t, [] => f t
  | .node k d cs, i :: p => .node k d (BTree.modAtChildren f cs i p)

def BTree.modAtChildren (f : BTree → BTree) : List BTree → Nat → List Nat → List BTree
  | [], _, _ => []
  | c :: cs, 0, p => BTree.modAt f c p :: cs
  | c :: cs, j + 1, p => c :: BTree.modAtChildren f cs j p

end

mutual

/-- Node at path `p`. -/
def BTree.getAt? : BTree → List Nat → Option BTree
  | t, [] => some t
  | .node _ _ cs, i :: p => BTree.getAtChildren cs i p

def BTree.getAtChildren : List BTree → Nat → List Nat → Option BTree
  | [], _, _ => none
  | c :: _, 0, p => BTree.getAt? c p
  | _ :: cs, j + 1, p => BTree.getAtChildren cs j p

end

/-- `x->key = v` for the node at path `p`. -/
def BTree.setKeyAt (t : BTree) (p : List Nat) (v : Int) : BTree :=
  BTree.modAt (fun u => match u with | .node _ d cs => .node v d cs) t p

/-- Replace the root-chain entry at index `r`. -/
def bModRoot : List BTree → Nat → (BTree → BTree) → List BTree
  | [], _, _ => []
  | t :: ts, 0, f => f t :: ts
  | t :: ts, j + 1, f => t :: bModRoot ts j f

/-- Key of the node a handle points at. -/
def bKeyAt? (roots : List BTree) (r : Nat) (p : List Nat) : Option Int :=
  match roots.get? r with
  | some t => (t.getAt? p).map BTree.key
  | none => none

def bSetKey (roots : List BTree) (r : Nat) (p : List Nat) (v : Int) : List BTree :=
  bModRoot roots r (fun t => t.setKeyAt p v)

/-- The key movement of the sift-up loop of `Bheap::decrease_key`
(`while (z != nullptr && y->compare_less(z)) { swap(y->key, z->key); y = z;
z = y->p; }`), walking the structural ancestor chain.  The cursor's path is
passed reversed (`i :: qrev` means the cursor is child `i` of the node at
path `qrev.reverse`); swapping keys with the parent moves the cursor up one
level.  NOTE: in the source `y` and `z` are references (`NodePtr &y = x;
NodePtr &z = y->p;`), so the loop also rewrites the decreased node's `p`
field, reseats the caller's handle, and reads the (possibly corrupted) `p`
fields instead of the structural chain — `bsiftPtr` below is the
pointer-faithful loop.  This structural version matches the source's key
movement exactly when every `p` field equals the structural parent, e.g. in
states no earlier `decrease_key` has touched. -/
def bsiftRev (roots : List BTree) (r : Nat) : List Nat → List BTree
  | [] => roots
  | i :: qrev =>
      match bKeyAt? roots r (qrev.reverse ++ [i]), bKeyAt? roots r qrev.reverse with
      | some ky, some kz =>
          if ky < kz then
            bsiftRev (bSetKey (bSetKey roots r (qrev.reverse ++ [i]) kz) r qrev.reverse ky)
              r qrev
          else roots
      | _, _ => roots

/-- Result of a `decrease_key` call: `err` models the thrown
`std::out_of_range` when the key would increase (the carried heap is the
state at the throw, which the code has not yet mutated). -/
inductive DKRes (α : Type) where
  | err (a : α)
  | ok (a : α)
deriving Repr

/-- The guard and key movement of `Bheap::decrease_key(x, new_key)`: throw
if `x->key < new_key` (before any mutation), otherwise `x->key = new_key`
and sift the new key upward by swapping keys along the structural parent
chain.  `none` = invalid handle (the C++ would dereference a dangling
pointer).  The source's `p`-field write and handle reseating (through the
`y`/`z` references) are NOT modelled here — see `Bdecrease_key_ptr` for the
pointer-faithful version.  The simplification is sound for the increase
guard (claim C10), which fires before the loop and before any mutation. -/
def Bdecrease_key (h : BHeap) (r : Nat) (p : List Nat) (nk : Int) : Option (DKRes BHeap) :=
  match bKeyAt? h.roots r p with
  | none => none
  | some k =>
    if k < nk then some (.err h)
    else some (.ok ⟨bsiftRev (bSetKey h.roots r p nk) r p.reverse, h.size⟩)

mutual

def FTree.modAt (f : FTree → FTree) : FTree → List Nat → FTree
  | t, [] => f t
  | .node k m d cs, i :: p => .node k m d (FTree.modAtChildren f cs i p)

def FTree.modAtChildren (f : FTree → FTree) : List FTree → Nat → List Nat → List FTree
  | [], _, _ => []
  | c :: cs, 0, p => FTree.modAt f c p :: cs
  | c :: cs, j + 1, p => c :: FTree.modAtChildren f cs j p

end

mutual

def FTree.getAt? : FTree → List Nat → Option FTree
  | t, [] => some t
  | .node _ _ _ cs, i :: p => FTree.getAtChildren cs i p

def FTree.getAtChildren : List FTree → Nat → List Nat → Option FTree
  | [], _, _ => none
  | c :: _, 0, p => FTree.getAt? c p
  | _ :: cs, j + 1, p => FTree.getAtChildren cs j p

end

def FTree.setKeyAt (t : FTree) (p : List Nat) (v : Int) : FTree :=
  FTree.modAt (fun u => match u with | .node _ m d cs => .node v m d cs) t p

def fModRoot : List FTree → Nat → (FTree → FTree) → List FTree
  | [], _, _ => []
  | t :: ts, 0, f => f t :: ts
  | t :: ts, j + 1, f => t :: fModRoot ts j f

def fSetKey (roots : List FTree) (r : Nat) (p : List Nat) (v : Int) : List FTree :=
  fModRoot roots r (fun t => t.setKeyAt p v)

/-- The splice-out part of `FibHeap::cut(x, y)` acting on the parent `y`:
`y->child` becomes `x->right` (so the remaining child ring is read from
`x`'s right neighbour), `y->degree--`. -/
def fremoveChild (i : Nat) : FTree → FTree
  | .node k m d cs => .node k m (d - 1) (cs.drop (i + 1) ++ cs.take i)

def fsetMarkTrue : FTree → FTree
  | .node k _ d cs => .node k true d cs

/-- `FibHeap::cut(x, y)` on the forest: remove child `i` of the node at
path `q` inside tree `r`, clear the cut node's `mark` and `p`, and
`insert_node` it into the root ring.  Also reports whether `insert_node`
made it the new `min` (which shifts existing root indices by one). -/
def fcut (roots : List FTree) (r : Nat) (q : List Nat) (i : Nat) : List FTree × Bool :=
  match roots.get? r with
  | none => (roots, false)
  | some tr =>
    match tr.getAt? (q ++ [i]) with
    | none => (roots, false)
    | some x =>
      finsert_node (fModRoot roots r (fun t => FTree.modAt (fremoveChild i) t q))
        (.node x.key false x.degree x.children)

/-- `FibHeap::cascading_cut(y)` walking up the (reversed) path: a marked
node is cut and the walk continues at its parent; an unmarked non-root is
marked and the walk stops.  `nIdx` tracks the root index of the node the
original `decrease_key` cut (prepending inserts shift it). -/
def fcascading_cut : List FTree → Nat → List Nat → Nat → List FTree × Nat
  | roots, _, [], nIdx => (roots, nIdx)
  | roots, r, i :: qrev, nIdx =>
    match roots.get? r with
    | none => (roots, nIdx)
    | some tr =>
      match tr.getAt? (qrev.reverse ++ [i]) with
      | none => (roots, nIdx)
      | some y =>
        if y.mark then
          fcascading_cut (fcut roots r qrev.reverse i).1
            (if (fcut roots r qrev.reverse i).2 then r + 1 else r) qrev
            (if (fcut roots r qrev.reverse i).2 then nIdx + 1 else nIdx)
        else
          (fModRoot roots r (fun t => FTree.modAt fsetMarkTrue t (qrev.reverse ++ [i])), nIdx)

/-- The final `if (N->compare_less(min)) min = N` of `FibHeap::decrease_key`
for a root node `N` at ring position `j`: pointing `min` at `N` re-reads
the ring starting there. -/
def fminCheck (roots : List FTree) (j : Nat) : List FTree :=
  match roots with
  | [] => roots
  | mh :: _ =>
    match roots.get? j with
    | none => roots
    | some N => if N.key < mh.key then roots.drop j ++ roots.take j else roots

/-- `FibHeap::decrease_key(N, new_key)`: throw if `N->key < new_key`
(before any mutation); otherwise set the key; if `N` has a parent and now
compares less, `cut` + `cascading_cut`; finally update `min`.  `none` =
outside the embedding's domain: an invalid handle, or the unreachable
corner where the code would point `min` at a non-root node (it requires a
state whose cached minimum is not a true minimum). -/
def Fdecrease_key (h : FHeap) (r : Nat) (p : List Nat) (nk : Int) : Option (DKRes FHeap) :=
  match h.roots.get? r with
  | none => none
  | some tr =>
    match tr.getAt? p with
    | none => none
    | some N =>
      if N.key < nk then some (.err h)
      else
        match p.reverse with
        | [] => some (.ok ⟨fminCheck (fSetKey h.roots r p nk) r, h.size⟩)
        | i :: qrev =>
          match (fSetKey h.roots r p nk).get? r with
          | none => none
          | some tr1 =>
            match tr1.getAt? qrev.reverse with
            | none => none
            | some y =>
              if nk < y.key then
                some (.ok ⟨fminCheck
                  (fcascading_cut (fcut (fSetKey h.roots r p nk) r qrev.reverse i).1
                    (if (fcut (fSetKey h.roots r p nk) r qrev.reverse i).2 then r + 1 else r)
                    qrev
                    (if (fcut (fSetKey h.roots r p nk) r qrev.reverse i).2 then 0
                     else (fcut (fSetKey h.roots r p nk) r qrev.reverse i).1.length - 1)).1
                  (fcascading_cut (fcut (fSetKey h.roots r p nk) r qrev.reverse i).1
                    (if (fcut (fSetKey h.roots r p nk) r qrev.reverse i).2 then r + 1 else r)
                    qrev
                    (if (fcut (fSetKey h.roots r p nk) r qrev.reverse i).2 then 0
                     else (fcut (fSetKey h.roots r p nk) r qrev.reverse i).1.length - 1)).2,
                  h.size⟩)
              else
                match fSetKey h.roots r p nk with
                | [] => none
                | mh :: rest =>
                  if nk < mh.key then none
                  else some (.ok ⟨mh :: rest, h.size⟩)

/-- Heap after a successful `decrease_key` (identity otherwise). -/
def FdkHeap (h : FHeap) (r : Nat) (p : List Nat) (nk : Int) : FHeap :=
  match Fdecrease_key h r p nk with
  | some (.ok h') => h'
  | _ => h

/-- Heap after a successful Fibonacci `pop` (identity otherwise). -/
def FpopHeap (h : FHeap) : FHeap :=
  match Fpop h with
  | .ok (_, h') => h'
  | _ => h

/-- Some node on the root ring is marked. -/
def fAnyRootMarked (h : FHeap) : Bool :=
  h.roots.any FTree.mark

/-! ### Path lemmas for the Fibonacci tree embedding -/

theorem fModRoot_length (l : List FTree) :
    ∀ (r : Nat) (f : FTree → FTree), (fModRoot l r f).length = l.length := by
  induction l with
  | nil => intro r f; rfl
  | cons t ts ih =>
    intro r f
    match r with
    | 0 => rfl
    | j + 1 =>
      rw [fModRoot]
      simp [ih j f]

theorem fModRoot_get_self (l : List FTree) :
    ∀ (r : Nat) (f : FTree → FTree), (fModRoot l r f).get? r = (l.get? r).map f := by
  induction l with
  | nil => intro r f; cases r <;> rfl
  | cons t ts ih =>
    intro r f
    match r with
    | 0 => rfl
    | j + 1 =>
      rw [fModRoot]
      simpa using ih j f

theorem fModRoot_get_other (l : List FTree) :
    ∀ (r j : Nat) (f : FTree → FTree), j ≠ r → (fModRoot l r f).get? j = l.get? j := by
  induction l with
  | nil => intro r j f _; cases r <;> rfl
  | cons t ts ih =>
    intro r j f hne
    match r, j with
    | 0, 0 => exact absurd rfl hne
    | 0, j + 1 => rfl
    | r + 1, 0 => rfl
    | r + 1, j + 1 =>
      rw [fModRoot]
      simpa using ih r j f (by omega)

theorem FTree.getAt?_append :
    ∀ (q : List Nat) (t : FTree) (p' : List Nat),
      t.getAt? (q ++ p') = (t.getAt? q).bind (fun y => y.getAt? p') := by
  intro q
  induction q with
  | nil =>
    intro t p'
    rw [List.nil_append, FTree.getAt?]
    rfl
  | cons i q ih =>
    intro t p'
    cases t with
    | node k m d cs =>
      rw [List.cons_append, FTree.getAt?, FTree.getAt?]
      induction cs generalizing i with
      | nil =>
        match i with
        | 0 => rfl
        | j + 1 => rfl
      | cons c cs ihc =>
        match i with
        | 0 => rw [FTree.getAtChildren, FTree.getAtChildren]; exact ih c p'
        | j + 1 => rw [FTree.getAtChildren, FTree.getAtChildren]; exact ihc j

/-- A node reached through the child list is a subtree of some child. -/
theorem FTree.getAtChildren_casesF :
    ∀ (cs : List FTree) (i : Nat) (q : List Nat) (y : FTree),
      FTree.getAtChildren cs i q = some y → ∃ c ∈ cs, c.getAt? q = some y := by
  intro cs
  induction cs with
  | nil =>
    intro i q y h
    match i with
    | 0 => cases h
    | j + 1 => cases h
  | cons c cs ih =>
    intro i q y h
    match i with
    | 0 =>
      rw [FTree.getAtChildren] at h
      exact ⟨c, List.mem_cons_self _ _, h⟩
    | j + 1 =>
      rw [FTree.getAtChildren] at h
      obtain ⟨u, hu, hy⟩ := ih j q y h
      exact ⟨u, List.mem_cons_of_mem _ hu, hy⟩

/-- The node at a proper prefix of a modified path survives with its key,
mark and degree intact (only its child list is rewritten). -/
theorem FTree.getAt?_modAt_prefix (f : FTree → FTree) :
    ∀ (q : List Nat) (t : FTree) (i : Nat) (p' : List Nat),
      (FTree.modAt f t (q ++ i :: p')).getAt? q =
        (t.getAt? q).map (fun y =>
          FTree.node y.key y.mark y.degree (FTree.modAtChildren f y.children i p')) := by
  intro q
  induction q with
  | nil =>
    intro t i p'
    cases t with
    | node k m d cs =>
      rw [List.nil_append, FTree.modAt, FTree.getAt?, FTree.getAt?]
      rfl
  | cons j q ih =>
    intro t i p'
    cases t with
    | node k m d cs =>
      rw [List.cons_append, FTree.modAt, FTree.getAt?, FTree.getAt?]
      induction cs generalizing j with
      | nil =>
        match j with
        | 0 => rfl
        | j + 1 => rfl
      | cons c cs ihc =>
        match j with
        | 0 =>
          rw [FTree.modAtChildren, FTree.getAtChildren, FTree.getAtChildren]
          exact ih c i p'
        | j + 1 =>
          rw [FTree.modAtChildren, FTree.getAtChildren, FTree.getAtChildren]
          exact ihc j

theorem FTree.modAt_cons_key (f : FTree → FTree) (t : FTree) (i : Nat) (p : List Nat) :
    (FTree.modAt f t (i :: p)).key = t.key ∧ (FTree.modAt f t (i :: p)).mark = t.mark := by
  cases t with
  | node k m d cs => exact ⟨rfl, rfl⟩

/-- Keys of a subtree are keys of the tree. -/
theorem FTree.getAt?_keys_subset :
    ∀ (q : List Nat) (t y : FTree), t.getAt? q = some y → ∀ x ∈ y.keys, x ∈ t.keys := by
  intro q
  induction q with
  | nil =>
    intro t y h
    rw [FTree.getAt?] at h
    cases h
    exact fun x hx => hx
  | cons i q ih =>
    intro t y h
    cases t with
    | node k m d cs =>
      rw [FTree.getAt?] at h
      obtain ⟨c, hc, hy⟩ := FTree.getAtChildren_casesF cs i q y h
      intro x hx
      rw [FTree.keys_nodeF]
      exact Multiset.mem_cons_of_mem (mem_fkeys_listsum.2 ⟨c, hc, ih c y hy x hx⟩)

/-- Subtrees of a heap-ordered tree are heap-ordered. -/
theorem FTree.getAt?_orderedF :
    ∀ (q : List Nat) (t y : FTree), t.getAt? q = some y → t.orderedB = true →
      y.orderedB = true := by
  intro q
  induction q with
  | nil =>
    intro t y h ht
    rw [FTree.getAt?] at h
    cases h
    exact ht
  | cons i q ih =>
    intro t y h ht
    cases t with
    | node k m d cs =>
      rw [FTree.getAt?] at h
      obtain ⟨c, hc, hy⟩ := FTree.getAtChildren_casesF cs i q y h
      rw [FTree.orderedB_node_iffF] at ht
      exact ih c y hy (ht c hc).2

/-! ### Claim C10: the `decrease_key` increase guard -/

theorem FTree.key_mem_keys (t : FTree) : t.key ∈ t.keys := by
  rw [FTree.keys_eqF]
  exact Multiset.mem_cons_self _ _

theorem Fdecrease_key_err {h : FHeap} {r : Nat} {p : List Nat} {tr N : FTree} {nk : Int}
    (hr : h.roots.get? r = some tr) (hN : tr.getAt? p = some N) (hlt : N.key < nk) :
    Fdecrease_key h r p nk = some (.err h) := by
  rw [Fdecrease_key]
  simp only [hr, hN]
  rw [if_pos hlt]

theorem Fdecrease_key_ok {h : FHeap} {r : Nat} {p : List Nat} {tr N : FTree} {nk : Int}
    (hr : h.roots.get? r = some tr) (hN : tr.getAt? p = some N)
    (hord : ∀ t ∈ h.roots, t.orderedB = true) (hrmh : RMH h.roots) (hle : nk ≤ N.key) :
    ∃ h', Fdecrease_key h r p nk = some (.ok h') := by
  rw [Fdecrease_key]
  simp only [hr, hN]
  rw [if_neg (by omega)]
  match hpr : p.reverse with
  | [] => exact ⟨_, rfl⟩
  | i :: qrev =>
    have hp : p = qrev.reverse ++ [i] := by
      rw [← List.reverse_reverse p, hpr, List.reverse_cons]
    have hy0 : ∃ y0, tr.getAt? qrev.reverse = some y0 := by
      rw [hp, FTree.getAt?_append] at hN
      match hq : tr.getAt? qrev.reverse with
      | some y0 => exact ⟨y0, rfl⟩
      | none => rw [hq] at hN; cases hN
    obtain ⟨y0, hy0⟩ := hy0
    have hget1 : (fSetKey h.roots r p nk).get? r = some (tr.setKeyAt p nk) := by
      rw [fSetKey, fModRoot_get_self, hr]
      rfl
    have hpar : (tr.setKeyAt p nk).getAt? qrev.reverse =
        some (FTree.node y0.key y0.mark y0.degree
          (FTree.modAtChildren (fun u => match u with | .node _ m d cs => .node nk m d cs)
            y0.children i [])) := by
      rw [FTree.setKeyAt, hp]
      have := FTree.getAt?_modAt_prefix
        (fun u => match u with | .node _ m d cs => .node nk m d cs) qrev.reverse tr i []
      rw [show qrev.reverse ++ [i] = qrev.reverse ++ i :: [] from rfl, this, hy0]
      rfl
    simp only [hget1, hpar]
    by_cases hcmp : nk < y0.key
    · rw [if_pos (by simpa using hcmp)]
      exact ⟨_, rfl⟩
    · rw [if_neg (by simpa using hcmp)]
      have hlen : h.roots ≠ [] := by
        intro hnil
        rw [hnil] at hr
        cases r <;> cases hr
      match hroots : h.roots with
      | [] => exact absurd hroots hlen
      | t0 :: ts0 =>
        have hkey0 : ∀ mh rest, fSetKey h.roots r p nk = mh :: rest → mh.key = t0.key := by
          intro mh rest hms
          have hpcons : ∃ a p', p = a :: p' := by
            match p, hpr with
            | a :: p', _ => exact ⟨a, p', rfl⟩
          obtain ⟨a, p', hpcons⟩ := hpcons
          rw [fSetKey, hroots] at hms
          match r, hms with
          | 0, hms =>
            rw [fModRoot] at hms
            cases hms
            rw [hpcons, FTree.setKeyAt]
            exact (FTree.modAt_cons_key _ t0 a p').1
          | rr + 1, hms =>
            rw [fModRoot] at hms
            cases hms
            rfl
        have hchain : t0.key ≤ y0.key := by
          have htrmem : tr ∈ h.roots := by
            rw [hroots]
            rw [hroots] at hr
            exact List.get?_mem hr
          have h1 : t0.key ≤ tr.key := by
            have := hrmh
            rw [hroots] at this
            exact this tr (by rw [← hroots]; exact htrmem)
          have h2 : tr.key ≤ y0.key :=
            FTree.key_le_of_mem_keysF tr (hord tr htrmem) y0.key
              (FTree.getAt?_keys_subset qrev.reverse tr y0 hy0 y0.key
                (FTree.key_mem_keys y0))
          omega
        obtain ⟨mh, rest, hms⟩ : ∃ mh rest, fSetKey h.roots r p nk = mh :: rest := by
          match hcase : fSetKey h.roots r p nk with
          | [] =>
            have hl : (fSetKey h.roots r p nk).length = h.roots.length :=
              fModRoot_length _ _ _
            rw [hcase, hroots] at hl
            cases hl
          | mh :: rest => exact ⟨mh, rest, rfl⟩
        have hmhkey : mh.key = t0.key := hkey0 mh rest hms
        rw [hroots] at hms
        rw [hms]
        show ∃ h', (if nk < mh.key then none
          else some (DKRes.ok ⟨mh :: rest, h.size⟩)) = some (.ok h')
        rw [if_neg (by omega)]
        exact ⟨_, rfl⟩

/-- Claim C10: in both variants `decrease_key` with `newKey` strictly
greater than the node's current key throws `InvalidKeyIncrease`
(`std::out_of_range`) before any mutation — the heap carried by the `err`
result is the input state — and with `newKey ≤` the current key the call
does not fail.  (The Fibonacci success case assumes heap order and a
correct cached minimum, which hold in every reachable state.) -/
theorem claim_C10_decrease_key_guard :
    (∀ (h : BHeap) (r : Nat) (p : List Nat) (k nk : Int),
       bKeyAt? h.roots r p = some k →
       (k < nk → Bdecrease_key h r p nk = some (.err h)) ∧
       (nk ≤ k → ∃ h', Bdecrease_key h r p nk = some (.ok h'))) ∧
    (∀ (h : FHeap) (r : Nat) (p : List Nat) (tr N : FTree) (nk : Int),
       h.roots.get? r = some tr → tr.getAt? p = some N →
       (N.key < nk → Fdecrease_key h r p nk = some (.err h)) ∧
       ((∀ t ∈ h.roots, t.orderedB = true) → RMH h.roots → nk ≤ N.key →
        ∃ h', Fdecrease_key h r p nk = some (.ok h'))) := by
  constructor
  · intro h r p k nk hk
    constructor
    · intro hlt
      rw [Bdecrease_key]
      simp only [hk]
      rw [if_pos hlt]
    · intro hle
      rw [Bdecrease_key]
      simp only [hk]
      rw [if_neg (by omega)]
      exact ⟨_, rfl⟩
  · intro h r p tr N nk hr hN
    exact ⟨Fdecrease_key_err hr hN,
      fun ho hrmh hle => Fdecrease_key_ok hr hN ho hrmh hle⟩

/-- Witness for C10 at concrete inputs: a singleton heap `{10}`; raising
to 15 throws with the state untouched, lowering to 5 succeeds. -/
theorem claim_C10_witness :
    Bdecrease_key (Bbuild [10]) 0 [] 15 = some (.err (Bbuild [10])) ∧
    (∃ h', Bdecrease_key (Bbuild [10]) 0 [] 5 = some (.ok h')) ∧
    Fdecrease_key (Fbuild [10]) 0 [] 15 = some (.err (Fbuild [10])) ∧
    (∃ h', Fdecrease_key (Fbuild [10]) 0 [] 5 = some (.ok h')) := by
  obtain ⟨hB, hF⟩ := claim_C10_decrease_key_guard
  have hFr : (Fbuild [10]).roots.get? 0 = some (FTree.node 10 false 0 []) := rfl
  have hFN : (FTree.node 10 false 0 []).getAt? [] = some (FTree.node 10 false 0 []) := rfl
  have hFo : ∀ t ∈ (Fbuild [10]).roots, t.orderedB = true := by decide
  have hFm : RMH (Fbuild [10]).roots := by
    intro t ht
    rcases List.mem_singleton.1 ht with rfl
    exact le_refl _
  refine ⟨(hB (Bbuild [10]) 0 [] 10 15 rfl).1 (by decide),
    (hB (Bbuild [10]) 0 [] 10 5 rfl).2 (by decide),
    (hF (Fbuild [10]) 0 [] _ _ 15 hFr hFN).1 (by decide),
    (hF (Fbuild [10]) 0 [] _ _ 5 hFr hFN).2 hFo hFm (by decide)⟩

/-! ### Claim C7: `Bheap::decrease_key` only moves key values -/

mutual

/-- The structural skeleton of a tree: parent/child/sibling layout and
degrees, with every key erased (set to 0). -/
def BTree.strip : BTree → BTree
  | .node _ d cs => .node 0 d (BForest.strip cs)

def BForest.strip : List BTree → List BTree
  | [] => []
  | t :: ts => BTree.strip t :: BForest.strip ts

end

theorem BTree.strip_modAt {f : BTree → BTree} (hf : ∀ u, (f u).strip = u.strip) :
    ∀ (p : List Nat) (t : BTree), (BTree.modAt f t p).strip = t.strip := by
  intro p
  induction p with
  | nil =>
    intro t
    cases t with
    | node k d cs =>
      rw [BTree.modAt]
      exact hf _
  | cons i p ih =>
    intro t
    cases t with
    | node k d cs =>
      rw [BTree.modAt, BTree.strip, BTree.strip]
      congr 1
      induction cs generalizing i with
      | nil =>
        match i with
        | 0 => rfl
        | j + 1 => rfl
      | cons c cs ihc =>
        match i with
        | 0 => rw [BTree.modAtChildren, BForest.strip, BForest.strip, ih c]
        | j + 1 => rw [BTree.modAtChildren, BForest.strip, BForest.strip, ihc j]

theorem BForest.strip_bModRoot {f : BTree → BTree} (hf : ∀ u, (f u).strip = u.strip) :
    ∀ (l : List BTree) (r : Nat), BForest.strip (bModRoot l r f) = BForest.strip l := by
  intro l
  induction l with
  | nil => intro r; rfl
  | cons t ts ih =>
    intro r
    match r with
    | 0 =>
      rw [bModRoot, BForest.strip, BForest.strip, hf t]
    | j + 1 =>
      rw [bModRoot, BForest.strip, BForest.strip, ih j]

theorem strip_setKeyFun (v : Int) :
    ∀ u : BTree, (match u with | BTree.node _ d cs => BTree.node v d cs : BTree).strip
      = u.strip := by
  intro u
  cases u with
  | node k d cs => rfl

theorem BForest.strip_bSetKey (l : List BTree) (r : Nat) (p : List Nat) (v : Int) :
    BForest.strip (bSetKey l r p v) = BForest.strip l := by
  rw [bSetKey]
  exact BForest.strip_bModRoot
    (fun u => BTree.strip_modAt (strip_setKeyFun v) p u) l r

theorem BForest.strip_bsiftRev (r : Nat) :
    ∀ (qrev : List Nat) (l : List BTree),
      BForest.strip (bsiftRev l r qrev) = BForest.strip l := by
  intro qrev
  induction qrev with
  | nil => intro l; rfl
  | cons i qrev ih =>
    intro l
    rw [bsiftRev]
    cases hky : bKeyAt? l r (qrev.reverse ++ [i]) with
    | none => rfl
    | some ky =>
      cases hkz : bKeyAt? l r qrev.reverse with
      | none => rfl
      | some kz =>
        show BForest.strip (if ky < kz then
            bsiftRev (bSetKey (bSetKey l r (qrev.reverse ++ [i]) kz) r qrev.reverse ky) r qrev
          else l) = BForest.strip l
        by_cases hc : ky < kz
        · rw [if_pos hc, ih, BForest.strip_bSetKey, BForest.strip_bSetKey]
        · rw [if_neg hc]

/-- Equal skeletons resolve the same paths. -/
theorem BTree.getAt?_isSome_of_strip :
    ∀ (p : List Nat) (t t' : BTree), t.strip = t'.strip →
      (t.getAt? p).isSome = (t'.getAt? p).isSome := by
  intro p
  induction p with
  | nil =>
    intro t t' _
    cases t
    cases t'
    rfl
  | cons i p ih =>
    intro t t' hst
    cases t with
    | node k d cs =>
      cases t' with
      | node k' d' cs' =>
        rw [BTree.strip, BTree.strip] at hst
        injection hst with _ h2 h3
        rw [BTree.getAt?, BTree.getAt?]
        have inner : ∀ (cs cs' : List BTree), BForest.strip cs = BForest.strip cs' →
            ∀ i, (BTree.getAtChildren cs i p).isSome =
              (BTree.getAtChildren cs' i p).isSome := by
          intro cs
          induction cs with
          | nil =>
            intro cs' hx i
            match cs' with
            | [] =>
              match i with
              | 0 => rfl
              | j + 1 => rfl
            | c' :: cs'' => rw [BForest.strip, BForest.strip] at hx; cases hx
          | cons c cs ihc =>
            intro cs' hx i
            match cs' with
            | [] => rw [BForest.strip, BForest.strip] at hx; cases hx
            | c' :: cs'' =>
              rw [BForest.strip, BForest.strip] at hx
              injection hx with hc3 hcs3
              match i with
              | 0 =>
                rw [BTree.getAtChildren, BTree.getAtChildren]
                exact ih c c' hc3
              | j + 1 =>
                rw [BTree.getAtChildren, BTree.getAtChildren]
                exact ihc cs'' hcs3 j
        exact inner cs cs' h3 i

theorem bKeyAt?_isSome_of_strip :
    ∀ (l l' : List BTree), BForest.strip l = BForest.strip l' →
      ∀ (r : Nat) (p : List Nat), (bKeyAt? l r p).isSome = (bKeyAt? l' r p).isSome := by
  intro l
  induction l with
  | nil =>
    intro l' h r p
    match l' with
    | [] => rfl
    | t' :: ts' => rw [BForest.strip, BForest.strip] at h; cases h
  | cons t ts ih =>
    intro l' h r p
    match l' with
    | [] => rw [BForest.strip, BForest.strip] at h; cases h
    | t' :: ts' =>
      rw [BForest.strip, BForest.strip] at h
      injection h with h1 h2
      match r with
      | 0 =>
        rw [bKeyAt?, bKeyAt?]
        simp only [List.get?_cons_zero]
        have hg := BTree.getAt?_isSome_of_strip p t t' h1
        cases hx : t.getAt? p with
        | none =>
          cases hx' : t'.getAt? p with
          | none => rfl
          | some u' => rw [hx, hx'] at hg; cases hg
        | some u =>
          cases hx' : t'.getAt? p with
          | none => rw [hx, hx'] at hg; cases hg
          | some u' => rfl
      | j + 1 =>
        rw [bKeyAt?, bKeyAt?]
        simp only [List.get?_cons_succ]
        have hrec := ih ts' h2 j p
        rw [bKeyAt?, bKeyAt?] at hrec
        exact hrec

/-! ### Claim C8: marked roots -/

/-- Claim C8 counterexample: insert 0..7, pop (building a degree-2 tree
rooted at 1), decrease the key 4 (root 0, path [1,0]) to −1 — the cut
marks its parent 3 — then pop twice: node 3, still marked, is promoted by
`pop` (which clears `p` but not `mark`) and survives consolidation as a
root.  The final state, reached purely by public operations, has a marked
root. -/
theorem claim_C8_counterexample :
    fAnyRootMarked (FpopHeap (FpopHeap
      (FdkHeap (FpopHeap (Fbuild [0, 1, 2, 3, 4, 5, 6, 7])) 0 [1, 0] (-1)))) = true ∧
    (FpopHeap (FpopHeap
      (FdkHeap (FpopHeap (Fbuild [0, 1, 2, 3, 4, 5, 6, 7])) 0 [1, 0] (-1)))).roots.map
        FTree.mark = [false, true] := ⟨rfl, rfl⟩

/-- The node `insert_node` splices in sits at the head of the ring when it
became the new `min`, else at the seam (the end of the min-first list). -/
theorem finsert_node_get (l : List FTree) (x : FTree) :
    (finsert_node l x).1.get? (if (finsert_node l x).2 then 0
      else (finsert_node l x).1.length - 1) = some x := by
  match l with
  | [] => rfl
  | m :: rest =>
    rw [finsert_node]
    by_cases h : x.key < m.key
    · rw [if_pos h]
      rfl
    · rw [if_neg h]
      show (m :: (rest ++ [x])).get? ((m :: (rest ++ [x])).length - 1) = some x
      have hlen : (m :: (rest ++ [x])).length - 1 = rest.length + 1 := by
        simp
      rw [hlen, List.get?_cons_succ, List.get?_concat_length]

/-- Claim C8 amended: `cut` does clear the mark of the node it promotes
(the cut node enters the root ring unmarked, at the head if it became the
new `min`, else at the seam), but `pop` splices the extracted minimum's
children into the root ring as they are — parent link cleared, mark left
unchanged — so marked roots are reachable. -/
theorem claim_C8_amended :
    (∀ (roots : List FTree) (r : Nat) (q : List Nat) (i : Nat) (tr x : FTree),
       roots.get? r = some tr → tr.getAt? (q ++ [i]) = some x →
       (fcut roots r q i).1.get? (if (fcut roots r q i).2 then 0
         else (fcut roots r q i).1.length - 1) =
         some (FTree.node x.key false x.degree x.children)) ∧
    (∀ (l : List FTree) (zIdx : Nat) (cs : List FTree) (t : FTree),
       t ∈ (fsplice_children l zIdx cs).1 → t ∈ l ∨ t ∈ cs) := by
  constructor
  · intro roots r q i tr x hr hx
    rw [fcut]
    simp only [hr, hx]
    exact finsert_node_get _ _
  · intro l zIdx cs
    induction cs generalizing l zIdx with
    | nil =>
      intro t ht
      rw [fsplice_children] at ht
      exact Or.inl ht
    | cons c cs ih =>
      intro t ht
      rw [fsplice_children] at ht
      rcases ih _ _ t ht with h | h
      · rcases finsert_node_mem h with rfl | h
        · exact Or.inr (List.mem_cons_self _ _)
        · exact Or.inl h
      · exact Or.inr (List.mem_cons_of_mem _ h)

/-- Witness for the amended C8 at concrete inputs: cutting the marked
child 9 out of the tree `5{9*}` yields the unmarked root `9`; splicing the
child list `[b]` into the singleton ring `[a]` leaves `b`'s mark alone. -/
theorem claim_C8_amended_witness :
    (fcut [FTree.node 5 false 1 [FTree.node 9 true 0 []]] 0 [] 0).1.get?
      (if (fcut [FTree.node 5 false 1 [FTree.node 9 true 0 []]] 0 [] 0).2 then 0
       else (fcut [FTree.node 5 false 1 [FTree.node 9 true 0 []]] 0 [] 0).1.length - 1) =
      some (FTree.node 9 false 0 []) ∧
    (FTree.node 7 true 0 [] ∈ [FTree.node 3 false 0 []] ∨
      FTree.node 7 true 0 [] ∈ [FTree.node 7 true 0 []]) := by
  obtain ⟨h1, h2⟩ := claim_C8_amended
  refine ⟨h1 [FTree.node 5 false 1 [FTree.node 9 true 0 []]] 0 [] 0
      (FTree.node 5 false 1 [FTree.node 9 true 0 []]) (FTree.node 9 true 0 []) rfl rfl, ?_⟩
  refine h2 [FTree.node 3 false 0 []] 0 [FTree.node 7 true 0 []] (FTree.node 7 true 0 []) ?_
  show FTree.node 7 true 0 [] ∈ [FTree.node 3 false 0 [], FTree.node 7 true 0 []]
  exact List.mem_cons_of_mem _ (List.mem_cons_self _ _)

/-! ### Claim C6: strictly increasing root degrees -/

/-- Strictly increasing degrees (propositional form). -/
def SDeg (l : List BTree) : Prop :=
  l.Pairwise (fun a b => a.degree < b.degree)

/-- Non-decreasing degrees. -/
def NDeg (l : List BTree) : Prop :=
  l.Pairwise (fun a b => a.degree ≤ b.degree)

/-- Number of roots of degree `d`. -/
def countDeg (d : Nat) (l : List BTree) : Nat :=
  l.countP (fun t => t.degree == d)

theorem degreesIncreasing_iff (l : List BTree) :
    degreesIncreasing l = true ↔ SDeg l := by
  induction l with
  | nil => simp [degreesIncreasing, SDeg]
  | cons a l ih =>
    match l with
    | [] => simp [degreesIncreasing, SDeg]
    | b :: l' =>
      rw [degreesIncreasing, SDeg, List.pairwise_cons]
      rw [Bool.and_eq_true, decide_eq_true_eq, ih]
      constructor
      · rintro ⟨hab, hp⟩
        refine ⟨?_, hp⟩
        intro t ht
        rcases List.mem_cons.1 ht with rfl | ht
        · exact hab
        · rw [SDeg, List.pairwise_cons] at hp
          exact lt_trans hab (hp.1 t ht)
      · rintro ⟨hall, hp⟩
        exact ⟨hall b (List.mem_cons_self _ _), hp⟩

theorem countDeg_le_one_of_sdeg {l : List BTree} (h : SDeg l) (d : Nat) :
    countDeg d l ≤ 1 := by
  induction l with
  | nil => simp [countDeg]
  | cons a l ih =>
    rw [SDeg, List.pairwise_cons] at h
    rw [countDeg, List.countP_cons]
    by_cases ha : a.degree = d
    · have hz : countDeg d l = 0 := by
        rw [countDeg, List.countP_eq_zero]
        intro t ht
        simp only [beq_iff_eq]
        have := h.1 t ht
        omega
      rw [countDeg] at hz
      simp [ha, hz]
    · have := ih h.2
      rw [countDeg] at this
      simp only [beq_iff_eq, ha]
      simpa using this

theorem countDeg_perm {l1 l2 : List BTree} (h : l1.Perm l2) (d : Nat) :
    countDeg d l1 = countDeg d l2 :=
  h.countP_eq _

theorem countDeg_append (d : Nat) (l1 l2 : List BTree) :
    countDeg d (l1 ++ l2) = countDeg d l1 + countDeg d l2 := by
  rw [countDeg, countDeg, countDeg, List.countP_append]

theorem countDeg_cons_le {d : Nat} {t : BTree} {l : List BTree} :
    countDeg d l ≤ countDeg d (t :: l) := by
  rw [countDeg, countDeg, List.countP_cons]
  omega

theorem advanceIns_spec (b : BTree) :
    ∀ (rest : List BTree) (c : BTree), NDeg (c :: rest) →
      (∀ u ∈ (advanceIns c rest b).1, u.degree < b.degree) ∧
      (∀ w, (advanceIns c rest b).2.2.head? = some w → ¬ w.degree < b.degree) ∧
      ((advanceIns c rest b).2.1 = c ∨ ((advanceIns c rest b).2.1).degree < b.degree) := by
  intro rest
  induction rest with
  | nil =>
    intro c _
    rw [advanceIns]
    refine ⟨fun u hu => absurd hu (List.not_mem_nil u), ?_, Or.inl rfl⟩
    intro w hw
    cases hw
  | cons r rs ih =>
    intro c hnd
    rw [advanceIns]
    by_cases h : r.degree < b.degree
    · rw [if_pos h]
      have hnd' : NDeg (r :: rs) := by
        rw [NDeg, List.pairwise_cons] at hnd
        exact hnd.2
      obtain ⟨i1, i2, i3⟩ := ih r hnd'
      dsimp only
      refine ⟨?_, i2, ?_⟩
      · intro u hu
        rcases List.mem_cons.1 hu with rfl | hu
        · rw [NDeg, List.pairwise_cons] at hnd
          exact lt_of_le_of_lt (hnd.1 r (List.mem_cons_self _ _)) h
        · exact i1 u hu
      · rcases i3 with he | hlt
        · rw [he]
          exact Or.inr h
        · exact Or.inr hlt
    · rw [if_neg h]
      refine ⟨fun u hu => absurd hu (List.not_mem_nil u), ?_, Or.inl rfl⟩
      intro w hw
      rw [List.head?_cons] at hw
      cases hw
      exact h

theorem insertFrom_ndeg :
    ∀ (bs : List BTree) (c : BTree) (rest : List BTree),
      NDeg (c :: rest) → NDeg bs →
      (∀ w, bs.head? = some w → c.degree ≤ w.degree) →
      NDeg (insertFrom c rest bs) := by
  intro bs
  induction bs with
  | nil =>
    intro c rest h _ _
    rw [insertFrom]
    exact h
  | cons b bs' ih =>
    intro c rest hcr hbs hhead
    rw [insertFrom]
    obtain ⟨ha1, ha2, ha3⟩ := advanceIns_spec b rest c hcr
    have heq := advanceIns_eq b rest c
    rcases hadv : advanceIns c rest b with ⟨p, cur, rst⟩
    rw [hadv] at ha1 ha2 ha3 heq
    dsimp only at ha1 ha2 ha3 heq ⊢
    have hsplit : NDeg (p ++ cur :: rst) := by
      rw [NDeg, heq]
      exact hcr
    rw [NDeg, List.pairwise_append] at hsplit
    obtain ⟨hpP, hcrP, hcross⟩ := hsplit
    have hcb : cur.degree ≤ b.degree := by
      rcases ha3 with hec | hlt
      · rw [hec]
        exact hhead b rfl
      · exact le_of_lt hlt
    have hbs' : NDeg bs' := (List.pairwise_cons.1 hbs).2
    have hbb : ∀ v ∈ bs', b.degree ≤ v.degree := (List.pairwise_cons.1 hbs).1
    have hb_rst : ∀ t ∈ rst, b.degree ≤ t.degree := by
      intro t ht
      match hr : rst with
      | [] => cases ht
      | r0 :: rr =>
        have hbr0 : b.degree ≤ r0.degree := by
          have := ha2 r0 rfl
          omega
        rcases List.mem_cons.1 ht with rfl | ht
        · exact hbr0
        · have hpair := (List.pairwise_cons.1 ((List.pairwise_cons.1 hcrP).2)).1
          exact le_trans hbr0 (hpair t ht)
    have hrec_sorted : NDeg (cur :: b :: rst) := by
      rw [NDeg, List.pairwise_cons]
      refine ⟨?_, ?_⟩
      · intro t ht
        rcases List.mem_cons.1 ht with rfl | ht
        · exact hcb
        · exact (List.pairwise_cons.1 hcrP).1 t ht
      · rw [List.pairwise_cons]
        exact ⟨hb_rst, (List.pairwise_cons.1 hcrP).2⟩
    have hrec := ih cur (b :: rst) hrec_sorted hbs' (by
      intro w hw
      match hb : bs' with
      | [] => cases hw
      | w0 :: ws =>
        rw [List.head?_cons] at hw
        cases hw
        exact le_trans hcb (hbb w (List.mem_cons_self _ _)))
    rw [NDeg, List.pairwise_append]
    refine ⟨hpP, hrec, ?_⟩
    intro u hu v hv
    have hv' : v ∈ cur :: (b :: rst) ++ bs' :=
      (insertFrom_perm cur (b :: rst) bs').mem_iff.1 hv
    rcases List.mem_cons.1 hv' with rfl | hv'
    · exact hcross u hu v (List.mem_cons_self _ _)
    · rcases List.mem_append.1 hv' with hv' | hv'
      · rcases List.mem_cons.1 hv' with rfl | hv'
        · exact le_of_lt (ha1 u hu)
        · exact hcross u hu v (List.mem_cons_of_mem _ hv')
      · exact le_trans (le_of_lt (ha1 u hu)) (hbb v hv')

theorem sdeg_ndeg {l : List BTree} (h : SDeg l) : NDeg l :=
  List.Pairwise.imp (fun hab => le_of_lt hab) h

theorem merge_heads_ndeg {h1 h2 : List BTree} (hs1 : SDeg h1) (hs2 : SDeg h2) :
    NDeg (merge_heads h1 h2) := by
  match h1, h2 with
  | a :: as', b :: bs =>
    rw [merge_heads]
    by_cases hab : a.degree > b.degree
    · rw [if_pos hab]
      refine insertFrom_ndeg _ _ _ (sdeg_ndeg hs2) (sdeg_ndeg hs1) ?_
      intro w hw
      rw [List.head?_cons] at hw
      cases hw
      exact le_of_lt hab
    · rw [if_neg hab]
      refine insertFrom_ndeg _ _ _ (sdeg_ndeg hs1) (sdeg_ndeg hs2) ?_
      intro w hw
      rw [List.head?_cons] at hw
      cases hw
      omega
  | [], [] =>
    show NDeg ([] ++ [])
    simp [NDeg]
  | [], b :: bs =>
    show NDeg ([] ++ b :: bs)
    simpa using sdeg_ndeg hs2
  | a :: as', [] =>
    show NDeg ((a :: as') ++ [])
    simpa using sdeg_ndeg hs1

theorem link_nodes_degree (y z : BTree) :
    (link_nodes y z).degree = z.degree + 1 := rfl

theorem bcarryCond_true {x y : BTree} {rest : List BTree}
    (h : bcarryCond x y rest = true) :
    x.degree ≠ y.degree ∨
      ∃ z rest'', rest = z :: rest'' ∧ z.degree = x.degree := by
  unfold bcarryCond at h
  rw [Bool.or_eq_true, bne_iff_ne] at h
  rcases h with h | h
  · exact Or.inl h
  · match hr : rest with
    | [] => simp at h
    | z :: rest'' =>
      rw [beq_iff_eq] at h
      exact Or.inr ⟨z, rest'', rfl, h⟩

theorem bcarryCond_false {x y : BTree} {rest : List BTree}
    (h : bcarryCond x y rest = false) :
    x.degree = y.degree ∧
      ∀ w, rest.head? = some w → w.degree ≠ x.degree := by
  unfold bcarryCond at h
  rw [Bool.or_eq_false_iff, bne_eq_false_iff_eq] at h
  refine ⟨h.1, ?_⟩
  intro w hw
  match hr : rest with
  | [] => cases hw
  | z :: rest'' =>
    rw [List.head?_cons] at hw
    cases hw
    have := h.2
    simp only [beq_eq_false_iff_ne, ne_eq] at this
    exact this

theorem countDeg_cons (d : Nat) (t : BTree) (l : List BTree) :
    countDeg d (t :: l) = countDeg d l + (if t.degree = d then 1 else 0) := by
  rw [countDeg, countDeg, List.countP_cons]
  simp [beq_iff_eq]

/-- The carry loop of `add_heap_head` turns a merged chain whose degrees are
non-decreasing with at most two roots per degree into a strictly increasing
chain.  `done` holds the already-final prefix in reverse. -/
theorem bcarry_sdeg :
    ∀ (rest done : List BTree) (x : BTree),
      done.Pairwise (fun a b => b.degree < a.degree) →
      (∀ e ∈ done, e.degree ≤ x.degree) →
      (∀ e, done.head? = some e → e.degree = x.degree →
        ∃ z rest'', rest = z :: rest'' ∧ z.degree = x.degree ∧
          ∀ w, rest''.head? = some w → w.degree ≠ x.degree) →
      NDeg (x :: rest) →
      (∀ d, countDeg d rest ≤ 2) →
      SDeg (bcarry done x rest) := by
  intro rest
  induction rest with
  | nil =>
    intro done x ha hb hc _ _
    rw [bcarry, SDeg, List.pairwise_append]
    refine ⟨?_, ?_, ?_⟩
    · rw [List.pairwise_reverse]
      exact ha
    · exact List.pairwise_singleton _ _
    · intro u hu v hv
      rcases List.mem_singleton.1 hv with rfl
      rw [List.mem_reverse] at hu
      match hdn : done with
      | [] => cases hu
      | e0 :: dd =>
        rcases List.mem_cons.1 hu with rfl | hu
        · have hle := hb u (List.mem_cons_self _ _)
          rcases lt_or_eq_of_le hle with hlt | heq2
          · exact hlt
          · obtain ⟨z, rest'', hzeq, _, _⟩ := hc u rfl heq2
            cases hzeq
        · have := (List.pairwise_cons.1 ha).1 u hu
          exact lt_of_lt_of_le this (hb e0 (List.mem_cons_self _ _))
  | cons y rest' ih =>
    intro done x ha hb hc hd he
    have hxy_le : x.degree ≤ y.degree :=
      (List.pairwise_cons.1 hd).1 y (List.mem_cons_self _ _)
    rw [bcarry]
    by_cases hcond : bcarryCond x y rest' = true
    · rw [if_pos hcond]
      have hstrict_done : ∀ e ∈ done, e.degree < x.degree := by
        intro e he'
        match hdn : done with
        | [] => cases he'
        | e0 :: dd =>
          rcases List.mem_cons.1 he' with rfl | he'
          · rcases lt_or_eq_of_le (hb e (List.mem_cons_self _ _)) with hlt | heq2
            · exact hlt
            · obtain ⟨z, rest'', hzeq, hz, hne⟩ := hc e rfl heq2
              rw [List.cons.injEq] at hzeq
              obtain ⟨rfl, rfl⟩ := hzeq
              rcases bcarryCond_true hcond with hneq | ⟨z', r', hz'eq, hz'⟩
              · exact absurd hz.symm hneq
              · exact absurd hz' (hne z' (by rw [hz'eq, List.head?_cons]))
          · exact lt_of_lt_of_le ((List.pairwise_cons.1 ha).1 e he')
              (hb e0 (List.mem_cons_self _ _))
      apply ih (x :: done) y
      · rw [List.pairwise_cons]
        exact ⟨hstrict_done, ha⟩
      · intro e he'
        rcases List.mem_cons.1 he' with rfl | he'
        · exact hxy_le
        · exact le_trans (le_of_lt (hstrict_done e he')) hxy_le
      · intro e he' hey
        rw [List.head?_cons] at he'
        cases he'
        rcases bcarryCond_true hcond with hneq | ⟨z, rest'', hzeq, hz⟩
        · exact absurd hey hneq
        · refine ⟨z, rest'', hzeq, by omega, ?_⟩
          intro w hw
          match hr'' : rest'' with
          | [] => cases hw
          | w0 :: ws =>
            rw [List.head?_cons, Option.some.injEq] at hw
            intro hwy
            have hcount := he x.degree
            rw [hzeq, countDeg_cons, countDeg_cons] at hcount
            have hw0le : 1 ≤ countDeg x.degree (w0 :: ws) := by
              rw [countDeg_cons]
              have hx0 : w0.degree = x.degree := by rw [hw]; omega
              simp [hx0]
            have hy' : y.degree = x.degree := by omega
            rw [if_pos hy', if_pos hz] at hcount
            omega
      · exact (List.pairwise_cons.1 hd).2
      · exact fun d => le_trans countDeg_cons_le (he d)
    · have hcond' : bcarryCond x y rest' = false := by
        rw [Bool.eq_false_iff]
        exact hcond
      obtain ⟨hxy, hne⟩ := bcarryCond_false hcond'
      rw [if_neg hcond]
      have hmain : ∀ w : BTree, w.degree = x.degree + 1 →
          SDeg (bcarry done w rest') := by
        intro w hwdeg
        apply ih done w
        · exact ha
        · intro e he'
          have := hb e he'
          omega
        · intro e he' hew
          have := hb e (by
            match hdn : done with
            | [] => cases he'
            | e0 :: dd =>
              rw [List.head?_cons] at he'
              cases he'
              exact List.mem_cons_self _ _)
          omega
        · rw [NDeg, List.pairwise_cons]
          have hd' : NDeg (y :: rest') := (List.pairwise_cons.1 hd).2
          refine ⟨?_, (List.pairwise_cons.1 hd').2⟩
          intro v hv
          match hr' : rest' with
          | [] => cases hv
          | z0 :: zs =>
            have hyz0 : y.degree ≤ z0.degree :=
              (List.pairwise_cons.1 hd').1 z0 (List.mem_cons_self _ _)
            have hz0ne : z0.degree ≠ x.degree := hne z0 rfl
            have hwz0 : w.degree ≤ z0.degree := by omega
            rcases List.mem_cons.1 hv with rfl | hv
            · exact hwz0
            · have := (List.pairwise_cons.1 ((List.pairwise_cons.1 hd').2)).1 v hv
              omega
        · exact fun d => le_trans countDeg_cons_le (he d)
      by_cases hk : x.key < y.key
      · rw [if_pos hk]
        exact hmain (link_nodes y x) (by rw [link_nodes_degree])
      · rw [if_neg hk]
        exact hmain (link_nodes x y) (by rw [link_nodes_degree]; omega)

/-- Claim C6 (amended): the root-degree chain is strictly increasing after
`merge_heads` + the carry loop, i.e. `add_heap_head` (hence `insert` and
`add_heap`) maps heaps with strictly increasing root degrees to heaps with
strictly increasing root degrees.  (`pop` can break the invariant, see the
counterexample: promoted children are spliced in decreasing degree order.) -/
theorem claim_C6_amended (l1 l2 : List BTree)
    (h1 : degreesIncreasing l1 = true) (h2 : degreesIncreasing l2 = true) :
    degreesIncreasing (add_heap_head l1 l2) = true := by
  rw [degreesIncreasing_iff] at h1 h2 ⊢
  match l2 with
  | [] => exact h1
  | b :: bs =>
    match l1 with
    | [] => exact h2
    | a :: as' =>
      have hnd : NDeg (merge_heads (a :: as') (b :: bs)) := merge_heads_ndeg h1 h2
      have hcnt : ∀ d, countDeg d (merge_heads (a :: as') (b :: bs)) ≤ 2 := by
        intro d
        rw [countDeg_perm (merge_heads_perm (a :: as') (b :: bs)) d, countDeg_append]
        have c1 := countDeg_le_one_of_sdeg h1 d
        have c2 := countDeg_le_one_of_sdeg h2 d
        omega
      have hunf : add_heap_head (a :: as') (b :: bs) =
          (match merge_heads (a :: as') (b :: bs) with
           | [] => []
           | x :: rest => bcarry [] x rest) := rfl
      rw [hunf]
      cases hm : merge_heads (a :: as') (b :: bs) with
      | nil => exact List.Pairwise.nil
      | cons x rest =>
        rw [hm] at hnd hcnt
        show SDeg (bcarry [] x rest)
        refine bcarry_sdeg rest [] x List.Pairwise.nil ?_ ?_ hnd ?_
        · intro e he'
          cases he'
        · intro e he'
          cases he'
        · exact fun d => le_trans countDeg_cons_le (hcnt d)

theorem claim_C6_amended_witness :
    degreesIncreasing (Bbuild [(1 : Int), 2, 3]).roots = true ∧
    degreesIncreasing (Bbuild [(7 : Int)]).roots = true ∧
    degreesIncreasing
      (add_heap_head (Bbuild [(1 : Int), 2, 3]).roots (Bbuild [(7 : Int)]).roots) = true :=
  ⟨rfl, rfl, claim_C6_amended _ _ rfl rfl⟩

/-! ### Claim C2: heap order in all reachable states -/

theorem BTree.getAtChildren_eq :
    ∀ (cs : List BTree) (j : Nat) (p : List Nat),
      BTree.getAtChildren cs j p = (cs.get? j).bind (fun c => c.getAt? p) := by
  intro cs
  induction cs with
  | nil =>
    intro j p
    match j with
    | 0 => rfl
    | j + 1 => rfl
  | cons c cs ih =>
    intro j p
    match j with
    | 0 => rfl
    | j + 1 =>
      rw [BTree.getAtChildren]
      simpa using ih j p

theorem BTree.getAt?_node_cons (k : Int) (d : Nat) (cs : List BTree) (j : Nat)
    (p : List Nat) :
    (BTree.node k d cs).getAt? (j :: p) = (cs.get? j).bind (fun c => c.getAt? p) := by
  rw [BTree.getAt?, BTree.getAtChildren_eq]

theorem BTree.modAt_node_cons (f : BTree → BTree) (k : Int) (d : Nat) (cs : List BTree)
    (j : Nat) (p : List Nat) :
    BTree.modAt f (.node k d cs) (j :: p) = .node k d (BTree.modAtChildren f cs j p) := rfl

theorem BTree.modAtChildren_get? (f : BTree → BTree) :
    ∀ (cs : List BTree) (j j' : Nat) (p : List Nat),
      (BTree.modAtChildren f cs j p).get? j' =
        if j' = j then (cs.get? j).map (fun c => BTree.modAt f c p) else cs.get? j' := by
  intro cs
  induction cs with
  | nil =>
    intro j j' p
    match j with
    | 0 => rw [BTree.modAtChildren]; simp
    | j + 1 => rw [BTree.modAtChildren]; simp
  | cons c cs ih =>
    intro j j' p
    match j with
    | 0 =>
      rw [BTree.modAtChildren]
      match j' with
      | 0 => rfl
      | j' + 1 => simp
    | j + 1 =>
      rw [BTree.modAtChildren]
      match j' with
      | 0 => rfl
      | j' + 1 =>
        rw [List.get?_cons_succ, List.get?_cons_succ, List.get?_cons_succ, ih j j' p]
        by_cases hid : j' = j
        · rw [if_pos hid, if_pos (by omega : j' + 1 = j + 1)]
        · rw [if_neg hid, if_neg (by omega : ¬ j' + 1 = j + 1)]

theorem BTree.modAtChildren_length (f : BTree → BTree) :
    ∀ (cs : List BTree) (j : Nat) (p : List Nat),
      (BTree.modAtChildren f cs j p).length = cs.length := by
  intro cs
  induction cs with
  | nil =>
    intro j p
    match j with
    | 0 => rfl
    | j + 1 => rfl
  | cons c cs ih =>
    intro j p
    match j with
    | 0 => rfl
    | j + 1 =>
      rw [BTree.modAtChildren]
      simpa using ih j p

theorem bModRoot_get_self (l : List BTree) :
    ∀ (r : Nat) (f : BTree → BTree), (bModRoot l r f).get? r = (l.get? r).map f := by
  induction l with
  | nil => intro r f; cases r <;> rfl
  | cons t ts ih =>
    intro r f
    match r with
    | 0 => rfl
    | j + 1 =>
      rw [bModRoot]
      simpa using ih j f

theorem bModRoot_get_other (l : List BTree) :
    ∀ (r j : Nat) (f : BTree → BTree), j ≠ r → (bModRoot l r f).get? j = l.get? j := by
  induction l with
  | nil => intro r j f _; cases r <;> rfl
  | cons t ts ih =>
    intro r j f hne
    match r, j with
    | 0, 0 => exact absurd rfl hne
    | 0, j + 1 => rfl
    | r + 1, 0 => rfl
    | r + 1, j + 1 =>
      rw [bModRoot]
      simpa using ih r j f (by omega)

/-- All children except the `j`-th satisfy the heap-order condition for a
node with key `k`. -/
def othersOK (k : Int) (j : Nat) (cs : List BTree) : Prop :=
  ∀ j' c, j' ≠ j → cs.get? j' = some c → k ≤ c.key ∧ c.orderedB = true

/-- `t` is heap-ordered except possibly along the edge leading into the
node at path `q` (the sift cursor): the cursor subtree is ordered and every
strict descendant of the cursor dominates the cursor's parent key, but the
parent's key need not be below the cursor's key. -/
def orderedExceptB : BTree → List Nat → Prop
  | t, [] => t.orderedB = true
  | .node k _ cs, [j] =>
      othersOK k j cs ∧ ∃ cj, cs.get? j = some cj ∧ cj.orderedB = true ∧
        ∀ x ∈ BForest.keys cj.children, k ≤ x
  | .node k _ cs, j :: q1 :: q' =>
      othersOK k j cs ∧ ∃ cj, cs.get? j = some cj ∧ k ≤ cj.key ∧
        orderedExceptB cj (q1 :: q')

theorem orderedExceptB_nil (t : BTree) :
    orderedExceptB t [] ↔ t.orderedB = true := by
  rw [orderedExceptB]

theorem orderedExceptB_single (k : Int) (d : Nat) (cs : List BTree) (j : Nat) :
    orderedExceptB (.node k d cs) [j] ↔
      othersOK k j cs ∧ ∃ cj, cs.get? j = some cj ∧ cj.orderedB = true ∧
        ∀ x ∈ BForest.keys cj.children, k ≤ x := by
  rw [orderedExceptB]

theorem orderedExceptB_deep (k : Int) (d : Nat) (cs : List BTree) (j : Nat)
    {qt : List Nat} (hqt : qt ≠ []) :
    orderedExceptB (.node k d cs) (j :: qt) ↔
      othersOK k j cs ∧ ∃ cj, cs.get? j = some cj ∧ k ≤ cj.key ∧
        orderedExceptB cj qt := by
  match qt with
  | [] => exact absurd rfl hqt
  | q1 :: q' => rw [orderedExceptB]

theorem BTree.orderedB_iff_get (k : Int) (d : Nat) (cs : List BTree) :
    (BTree.node k d cs).orderedB = true ↔
      ∀ j c, cs.get? j = some c → k ≤ c.key ∧ c.orderedB = true := by
  rw [BTree.orderedB_node_iff]
  constructor
  · intro h j c hc
    exact h c (List.get?_mem hc)
  · intro h c hc
    obtain ⟨n, hn⟩ := List.mem_iff_get?.1 hc
    exact h n c hn

theorem BTree.setKeyAt_node_nil (k : Int) (d : Nat) (cs : List BTree) (v : Int) :
    (BTree.node k d cs).setKeyAt [] v = .node v d cs := rfl

theorem BTree.setKeyAt_node_cons (k : Int) (d : Nat) (cs : List BTree) (j : Nat)
    (p : List Nat) (v : Int) :
    (BTree.node k d cs).setKeyAt (j :: p) v =
      .node k d (BTree.modAtChildren
        (fun u => match u with | .node _ d' cs' => .node v d' cs') cs j p) := rfl

theorem BTree.setKeyAt_children_get? (k : Int) (d : Nat) (cs : List BTree)
    (j j' : Nat) (p : List Nat) (v : Int) :
    ((BTree.node k d cs).setKeyAt (j :: p) v).children.get? j' =
      if j' = j then (cs.get? j).map (fun c => c.setKeyAt p v) else cs.get? j' :=
  BTree.modAtChildren_get? _ cs j j' p

theorem BTree.setKeyAt_cons_key (t : BTree) (j : Nat) (p : List Nat) (v : Int) :
    (t.setKeyAt (j :: p) v).key = t.key := by
  cases t with
  | node k d cs => rfl

/-- Along a valid cursor the invariant guarantees the path resolves. -/
theorem orderedExceptB_isSome :
    ∀ (q : List Nat) (t : BTree), orderedExceptB t q → ∃ u, t.getAt? q = some u := by
  intro q
  induction q with
  | nil =>
    intro t _
    cases t with
    | node k d cs => exact ⟨_, rfl⟩
  | cons j q ih =>
    intro t h
    cases t with
    | node k d cs =>
      match q with
      | [] =>
        obtain ⟨_, cj, hcj, _⟩ := (orderedExceptB_single k d cs j).1 h
        refine ⟨cj, ?_⟩
        rw [BTree.getAt?_node_cons, hcj, Option.some_bind]
        cases cj with
        | node k1 d1 cs1 => rfl
      | q1 :: q' =>
        obtain ⟨_, cj, hcj, _, hrec⟩ := (orderedExceptB_deep k d cs j (by simp)).1 h
        obtain ⟨u, hu⟩ := ih cj hrec
        refine ⟨u, ?_⟩
        rw [BTree.getAt?_node_cons, hcj, Option.some_bind]
        exact hu

theorem BTree.getAt?_nil (t : BTree) : t.getAt? [] = some t := by
  cases t with
  | node k d cs => rfl

theorem BTree.getAtChildren_cases :
    ∀ (cs : List BTree) (i : Nat) (q : List Nat) (y : BTree),
      BTree.getAtChildren cs i q = some y → ∃ c ∈ cs, c.getAt? q = some y := by
  intro cs
  induction cs with
  | nil =>
    intro i q y h
    match i with
    | 0 => cases h
    | j + 1 => cases h
  | cons c cs ih =>
    intro i q y h
    match i with
    | 0 =>
      rw [BTree.getAtChildren] at h
      exact ⟨c, List.mem_cons_self _ _, h⟩
    | j + 1 =>
      rw [BTree.getAtChildren] at h
      obtain ⟨u, hu, hy⟩ := ih j q y h
      exact ⟨u, List.mem_cons_of_mem _ hu, hy⟩

/-- Subtrees of a heap-ordered binomial tree are heap-ordered. -/
theorem BTree.getAt?_ordered :
    ∀ (q : List Nat) (t y : BTree), t.getAt? q = some y → t.orderedB = true →
      y.orderedB = true := by
  intro q
  induction q with
  | nil =>
    intro t y h ht
    rw [BTree.getAt?_nil] at h
    cases h
    exact ht
  | cons i q ih =>
    intro t y h ht
    cases t with
    | node k d cs =>
      rw [BTree.getAt?] at h
      obtain ⟨c, hc, hy⟩ := BTree.getAtChildren_cases cs i q y h
      rw [BTree.orderedB_node_iff] at ht
      exact ih c y hy (ht c hc).2

/-- Setting the key at a valid path to a smaller value yields the
almost-ordered state the sift loop starts from. -/
theorem orderedExceptB_entry :
    ∀ (p : List Nat) (t u : BTree), t.orderedB = true → t.getAt? p = some u →
      ∀ nk : Int, nk ≤ u.key → orderedExceptB (t.setKeyAt p nk) p := by
  intro p
  induction p with
  | nil =>
    intro t u hord hget nk hnk
    cases t with
    | node k d cs =>
      rw [BTree.getAt?_nil] at hget
      obtain rfl := Option.some.inj hget
      rw [BTree.setKeyAt_node_nil, orderedExceptB_nil, BTree.orderedB_node_iff]
      rw [BTree.orderedB_node_iff] at hord
      intro c hc
      refine ⟨?_, (hord c hc).2⟩
      have hk : (BTree.node k d cs).key = k := rfl
      rw [hk] at hnk
      have := (hord c hc).1
      omega
  | cons j p' ih =>
    intro t u hord hget nk hnk
    cases t with
    | node k d cs =>
      rw [BTree.getAt?_node_cons] at hget
      cases hcs : cs.get? j with
      | none => rw [hcs] at hget; cases hget
      | some cj =>
        rw [hcs, Option.some_bind] at hget
        have hkcj := (BTree.orderedB_iff_get k d cs).1 hord j cj hcs
        match p' with
        | [] =>
          rw [BTree.getAt?_nil] at hget
          obtain rfl := Option.some.inj hget
          rw [BTree.setKeyAt_node_cons, orderedExceptB_single]
          constructor
          · intro j' c hne hc
            rw [BTree.modAtChildren_get? _ cs j j' [], if_neg hne] at hc
            exact (BTree.orderedB_iff_get k d cs).1 hord j' c hc
          · cases cj with
            | node ku du cu =>
              refine ⟨.node nk du cu, ?_, ?_, ?_⟩
              · rw [BTree.modAtChildren_get? _ cs j j [], if_pos rfl, hcs]
                rfl
              · rw [BTree.orderedB_node_iff]
                intro c hc
                have hordu := hkcj.2
                rw [BTree.orderedB_node_iff] at hordu
                refine ⟨?_, (hordu c hc).2⟩
                have hk2 : (BTree.node ku du cu).key = ku := rfl
                rw [hk2] at hnk
                have := (hordu c hc).1
                omega
              · intro x hx
                show k ≤ x
                obtain ⟨c, hc, hxc⟩ := mem_keys_listsum.1 hx
                have hordu := hkcj.2
                rw [BTree.orderedB_node_iff] at hordu
                have h1 : ku ≤ c.key := (hordu c hc).1
                have h2 := BTree.key_le_of_mem_keys c (hordu c hc).2 x hxc
                have h3 : k ≤ ku := hkcj.1
                omega
        | p1 :: p'' =>
          rw [BTree.setKeyAt_node_cons,
            orderedExceptB_deep _ _ _ _ (by simp : (p1 :: p'') ≠ [])]
          constructor
          · intro j' c hne hc
            rw [BTree.modAtChildren_get? _ cs j j' (p1 :: p''), if_neg hne] at hc
            exact (BTree.orderedB_iff_get k d cs).1 hord j' c hc
          · refine ⟨cj.setKeyAt (p1 :: p'') nk, ?_, ?_, ?_⟩
            · rw [BTree.modAtChildren_get? _ cs j j (p1 :: p''), if_pos rfl, hcs]
              rfl
            · rw [BTree.setKeyAt_cons_key]
              exact hkcj.1
            · exact ih cj u hkcj.2 hget nk hnk

/-- When the cursor key dominates its parent key, the almost-ordered state
is fully ordered (the loop's exit is sound). -/
theorem orderedExceptB_stop :
    ∀ (qp : List Nat) (t : BTree) (i : Nat) (z y : BTree),
      orderedExceptB t (qp ++ [i]) → t.getAt? qp = some z →
      t.getAt? (qp ++ [i]) = some y → z.key ≤ y.key → t.orderedB = true := by
  intro qp
  induction qp with
  | nil =>
    intro t i z y hex hz hy hk
    cases t with
    | node k d cs =>
      rw [BTree.getAt?_nil] at hz
      obtain rfl := Option.some.inj hz
      rw [List.nil_append] at hex hy
      obtain ⟨hoth, cj, hcj, hcjord, _⟩ := (orderedExceptB_single k d cs i).1 hex
      rw [BTree.getAt?_node_cons, hcj, Option.some_bind, BTree.getAt?_nil] at hy
      have hcy : cj = y := Option.some.inj hy
      rw [BTree.orderedB_iff_get]
      intro j' c hc
      by_cases hji : j' = i
      · subst hji
        rw [hc] at hcj
        obtain rfl := Option.some.inj hcj
        refine ⟨?_, hcjord⟩
        have hzk : (BTree.node k d cs).key = k := rfl
        rw [hzk] at hk
        rw [hcy]
        exact hk
      · exact hoth j' c hji hc
  | cons j qp' ih =>
    intro t i z y hex hz hy hk
    cases t with
    | node k d cs =>
      rw [List.cons_append] at hex hy
      obtain ⟨hoth, cj, hcj, hkcj, hrec⟩ :=
        (orderedExceptB_deep k d cs j (by simp : qp' ++ [i] ≠ [])).1 hex
      rw [BTree.getAt?_node_cons, hcj, Option.some_bind] at hz hy
      have hcjord := ih cj i z y hrec hz hy hk
      rw [BTree.orderedB_iff_get]
      intro j' c hc
      by_cases hji : j' = j
      · subst hji
        rw [hc] at hcj
        obtain rfl := Option.some.inj hcj
        exact ⟨hkcj, hcjord⟩
      · exact hoth j' c hji hc

/-- One key swap with the parent re-establishes the almost-ordered state
one level higher (the loop's step is sound). -/
theorem orderedExceptB_swap :
    ∀ (qp : List Nat) (t : BTree) (i : Nat) (z y : BTree),
      orderedExceptB t (qp ++ [i]) →
      t.getAt? qp = some z → t.getAt? (qp ++ [i]) = some y → y.key < z.key →
      orderedExceptB ((t.setKeyAt (qp ++ [i]) z.key).setKeyAt qp y.key) qp := by
  intro qp
  induction qp with
  | nil =>
    intro t i z y hex hz hy hlt
    cases t with
    | node k d cs =>
      rw [BTree.getAt?_nil] at hz
      obtain rfl := Option.some.inj hz
      have hzk : (BTree.node k d cs).key = k := rfl
      rw [List.nil_append] at hex hy ⊢
      obtain ⟨hoth, cj, hcj, hcjord, hcjkeys⟩ := (orderedExceptB_single k d cs i).1 hex
      rw [BTree.getAt?_node_cons, hcj, Option.some_bind, BTree.getAt?_nil] at hy
      have hcy : cj = y := Option.some.inj hy
      rw [hzk] at hlt ⊢
      rw [BTree.setKeyAt_node_cons, BTree.setKeyAt_node_nil, orderedExceptB_nil,
        BTree.orderedB_iff_get]
      intro j' c hc
      rw [BTree.modAtChildren_get?] at hc
      by_cases hji : j' = i
      · rw [if_pos hji, hcj] at hc
        have hc' := Option.some.inj hc
        cases cj with
        | node kc dc cc =>
          rw [← hc']
          have hck : kc = y.key := by rw [← hcy]; rfl
          constructor
          · show y.key ≤ k
            omega
          · show (BTree.node k dc cc).orderedB = true
            rw [BTree.orderedB_node_iff]
            intro ch hch
            have hordc := hcjord
            rw [BTree.orderedB_node_iff] at hordc
            refine ⟨?_, (hordc ch hch).2⟩
            have hmem : ch.key ∈ BForest.keys cc :=
              mem_keys_listsum.2 ⟨ch, hch, by
                rw [BTree.keys_eq]
                exact Multiset.mem_cons_self _ _⟩
            exact hcjkeys ch.key hmem
      · rw [if_neg hji] at hc
        obtain ⟨h1, h2⟩ := hoth j' c hji hc
        exact ⟨by omega, h2⟩
  | cons j qp' ih =>
    intro t i z y hex hz hy hlt
    cases t with
    | node k d cs =>
      rw [List.cons_append] at hex hy ⊢
      obtain ⟨hoth, cj, hcj, hkcj, hrec⟩ :=
        (orderedExceptB_deep k d cs j (by simp : qp' ++ [i] ≠ [])).1 hex
      rw [BTree.getAt?_node_cons, hcj, Option.some_bind] at hz hy
      rw [BTree.setKeyAt_node_cons, BTree.setKeyAt_node_cons]
      have hgets : ∀ j', (BTree.modAtChildren
          (fun u => match u with | .node _ d' cs' => .node y.key d' cs')
          (BTree.modAtChildren
            (fun u => match u with | .node _ d' cs' => .node z.key d' cs')
            cs j (qp' ++ [i])) j qp').get? j' =
          if j' = j then some ((cj.setKeyAt (qp' ++ [i]) z.key).setKeyAt qp' y.key)
          else cs.get? j' := by
        intro j'
        rw [BTree.modAtChildren_get?]
        by_cases hji : j' = j
        · rw [if_pos hji, if_pos hji, BTree.modAtChildren_get?, if_pos rfl, hcj]
          rfl
        · rw [if_neg hji, if_neg hji, BTree.modAtChildren_get?, if_neg hji]
      have hrec2 := ih cj i z y hrec hz hy hlt
      match qp' with
      | [] =>
        rw [orderedExceptB_single]
        constructor
        · intro j' c hne hc
          rw [hgets j', if_neg hne] at hc
          obtain ⟨h1, h2⟩ := hoth j' c hne hc
          exact ⟨h1, h2⟩
        · refine ⟨(cj.setKeyAt ([] ++ [i]) z.key).setKeyAt [] y.key, ?_, ?_, ?_⟩
          · rw [hgets j, if_pos rfl]
          · exact (orderedExceptB_nil _).1 hrec2
          · -- keys of the swapped cursor's children dominate k
            cases cj with
            | node kc dc cc =>
              rw [List.nil_append] at hrec hy ⊢
              obtain ⟨hothc, ci, hci, hciord, hcikeys⟩ :=
                (orderedExceptB_single kc dc cc i).1 hrec
              rw [BTree.getAt?_node_cons, hci, Option.some_bind, BTree.getAt?_nil] at hy
              have hciy : ci = y := Option.some.inj hy
              have hkc : k ≤ kc := hkcj
              rw [BTree.setKeyAt_node_cons, BTree.setKeyAt_node_nil]
              show ∀ x ∈ BForest.keys (BTree.modAtChildren
                (fun u => match u with | .node _ d' cs' => .node z.key d' cs') cc i []),
                k ≤ x
              intro x hx
              obtain ⟨c'', hc'', hxc⟩ := mem_keys_listsum.1 hx
              obtain ⟨n, hn⟩ := List.mem_iff_get?.1 hc''
              rw [BTree.modAtChildren_get?] at hn
              by_cases hni : n = i
              · rw [if_pos hni, hci] at hn
                have hn' := Option.some.inj hn
                cases ci with
                | node ki di cci =>
                  rw [← hn'] at hxc
                  have hzkc : z.key = kc := by
                    rw [BTree.getAt?_nil] at hz
                    have hze := Option.some.inj hz
                    rw [← hze]
                    rfl
                  simp only [BTree.modAt] at hxc
                  rw [BTree.keys_node] at hxc
                  rcases Multiset.mem_cons.1 hxc with rfl | hxc
                  · omega
                  · have := hcikeys x (by
                      show x ∈ BForest.keys (BTree.node ki di cci).children
                      exact hxc)
                    omega
              · rw [if_neg hni] at hn
                obtain ⟨h1, h2⟩ := hothc n c'' hni hn
                have := BTree.key_le_of_mem_keys c'' h2 x hxc
                omega
      | q1 :: q'' =>
        rw [orderedExceptB_deep _ _ _ _ (by simp : (q1 :: q'') ≠ [])]
        constructor
        · intro j' c hne hc
          rw [hgets j', if_neg hne] at hc
          exact hoth j' c hne hc
        · refine ⟨(cj.setKeyAt ((q1 :: q'') ++ [i]) z.key).setKeyAt (q1 :: q'') y.key,
            ?_, ?_, ?_⟩
          · rw [hgets j, if_pos rfl]
          · rw [List.cons_append, BTree.setKeyAt_cons_key, BTree.setKeyAt_cons_key]
            exact hkcj
          · exact hrec2

theorem orderedExceptB_isSome_prefix :
    ∀ (qp : List Nat) (i : Nat) (t : BTree), orderedExceptB t (qp ++ [i]) →
      ∃ z, t.getAt? qp = some z := by
  intro qp
  induction qp with
  | nil =>
    intro i t _
    exact ⟨t, BTree.getAt?_nil t⟩
  | cons j qp' ih =>
    intro i t h
    cases t with
    | node k d cs =>
      rw [List.cons_append] at h
      obtain ⟨_, cj, hcj, _, hrec⟩ :=
        (orderedExceptB_deep k d cs j (by simp : qp' ++ [i] ≠ [])).1 h
      obtain ⟨z, hz⟩ := ih i cj hrec
      refine ⟨z, ?_⟩
      rw [BTree.getAt?_node_cons, hcj, Option.some_bind]
      exact hz

/-- The key movement of the sift loop restores full heap order from the
almost-ordered entry state (structural-chain model; the source's additional
`p`-field write through the `z` reference is treated in the pointer model
below). -/
theorem bsiftRev_ordered :
    ∀ (qrev : List Nat) (R : List BTree) (r : Nat),
      (∀ j t, j ≠ r → R.get? j = some t → t.orderedB = true) →
      (∀ tr, R.get? r = some tr → orderedExceptB tr qrev.reverse) →
      ∀ t ∈ bsiftRev R r qrev, t.orderedB = true := by
  intro qrev
  induction qrev with
  | nil =>
    intro R r hoff hr t ht
    rw [bsiftRev] at ht
    obtain ⟨n, hn⟩ := List.mem_iff_get?.1 ht
    by_cases hnr : n = r
    · subst hnr
      have := hr t hn
      rw [List.reverse_nil, orderedExceptB_nil] at this
      exact this
    · exact hoff n t hnr hn
  | cons i qrev ih =>
    intro R r hoff hr t ht
    rw [bsiftRev] at ht
    have hrr : ∀ tr, R.get? r = some tr → orderedExceptB tr (qrev.reverse ++ [i]) := by
      intro tr htr
      have := hr tr htr
      rw [List.reverse_cons] at this
      exact this
    cases hky : bKeyAt? R r (qrev.reverse ++ [i]) with
    | none =>
      simp only [hky] at ht
      rw [bKeyAt?] at hky
      cases hR : R.get? r with
      | none =>
        obtain ⟨n, hn⟩ := List.mem_iff_get?.1 ht
        by_cases hnr : n = r
        · subst hnr
          rw [hn] at hR
          cases hR
        · exact hoff n t hnr hn
      | some tr =>
        rw [hR] at hky
        have hky' : Option.map BTree.key (tr.getAt? (qrev.reverse ++ [i])) = none := hky
        obtain ⟨u, hu⟩ := orderedExceptB_isSome (qrev.reverse ++ [i]) tr (hrr tr hR)
        rw [hu, Option.map_some'] at hky'
        cases hky'
    | some ky =>
      cases hkz : bKeyAt? R r qrev.reverse with
      | none =>
        simp only [hky, hkz] at ht
        rw [bKeyAt?] at hkz
        cases hR : R.get? r with
        | none =>
          rw [bKeyAt?, hR] at hky
          cases hky
        | some tr =>
          rw [hR] at hkz
          have hkz' : Option.map BTree.key (tr.getAt? qrev.reverse) = none := hkz
          obtain ⟨z, hz⟩ := orderedExceptB_isSome_prefix qrev.reverse i tr (hrr tr hR)
          rw [hz, Option.map_some'] at hkz'
          cases hkz'
      | some kz =>
        simp only [hky, hkz] at ht
        rw [bKeyAt?] at hky hkz
        cases hR : R.get? r with
        | none =>
          rw [hR] at hky
          cases hky
        | some tr =>
          rw [hR] at hky hkz
          have hky' : Option.map BTree.key (tr.getAt? (qrev.reverse ++ [i])) = some ky := hky
          have hkz' : Option.map BTree.key (tr.getAt? qrev.reverse) = some kz := hkz
          obtain ⟨y, hy, hyk⟩ := Option.map_eq_some'.1 hky'
          obtain ⟨z, hz, hzk⟩ := Option.map_eq_some'.1 hkz'
          by_cases hcmp : ky < kz
          · rw [if_pos hcmp] at ht
            refine ih _ r ?_ ?_ t ht
            · intro j u hjr hj
              rw [bSetKey, bModRoot_get_other] at hj
              · rw [bSetKey, bModRoot_get_other] at hj
                · exact hoff j u hjr hj
                · exact hjr
              · exact hjr
            · intro tr' htr'
              rw [bSetKey, bModRoot_get_self, bSetKey, bModRoot_get_self, hR] at htr'
              rw [Option.map_some', Option.map_some'] at htr'
              have htr'' := Option.some.inj htr'
              rw [← htr'']
              have hswap := orderedExceptB_swap qrev.reverse tr i z y (hrr tr hR) hz hy
                (by omega)
              rw [hzk, hyk] at hswap
              exact hswap
          · rw [if_neg hcmp] at ht
            obtain ⟨n, hn⟩ := List.mem_iff_get?.1 ht
            by_cases hnr : n = r
            · subst hnr
              rw [hn] at hR
              obtain rfl := Option.some.inj hR
              exact orderedExceptB_stop qrev.reverse t i z y (hrr t hn) hz hy (by omega)
            · exact hoff n t hnr hn

/-- The guard-and-key-movement model of a successful `Bheap::decrease_key`
preserves heap order of every tree.  The source also corrupts the decreased
node's `p` field, which makes a LATER `decrease_key` stop its sift early
and break heap order — see `claim_C2_heap_order_bug`. -/
theorem Bdecrease_key_ordered {h : BHeap} {r : Nat} {p : List Nat} {nk : Int} {h' : BHeap}
    (hord : ∀ t ∈ h.roots, t.orderedB = true)
    (hdk : Bdecrease_key h r p nk = some (.ok h')) :
    ∀ t ∈ h'.roots, t.orderedB = true := by
  rw [Bdecrease_key] at hdk
  cases hk0 : bKeyAt? h.roots r p with
  | none =>
    rw [hk0] at hdk
    cases hdk
  | some k0 =>
    rw [hk0] at hdk
    have hdk' : (if k0 < nk then some (DKRes.err h)
        else some (DKRes.ok (⟨bsiftRev (bSetKey h.roots r p nk) r p.reverse,
          h.size⟩ : BHeap))) = some (DKRes.ok h') := hdk
    by_cases hlt : k0 < nk
    · rw [if_pos hlt] at hdk'
      simp at hdk'
    · rw [if_neg hlt] at hdk'
      have hh : h' = ⟨bsiftRev (bSetKey h.roots r p nk) r p.reverse, h.size⟩ := by
        have := Option.some.inj hdk'
        cases this
        rfl
      rw [hh]
      refine bsiftRev_ordered p.reverse (bSetKey h.roots r p nk) r ?_ ?_
      · intro j u hjr hj
        rw [bSetKey, bModRoot_get_other _ _ _ _ hjr] at hj
        exact hord u (List.get?_mem hj)
      · intro tr' htr'
        rw [bSetKey, bModRoot_get_self] at htr'
        rw [bKeyAt?] at hk0
        cases hR : h.roots.get? r with
        | none =>
          rw [hR] at htr'
          cases htr'
        | some tr =>
          rw [hR] at htr' hk0
          have hk0' : Option.map BTree.key (tr.getAt? p) = some k0 := hk0
          rw [Option.map_some'] at htr'
          have htr'' := Option.some.inj htr'
          obtain ⟨u, hu, huk⟩ := Option.map_eq_some'.1 hk0'
          rw [List.reverse_reverse, ← htr'']
          exact orderedExceptB_entry p tr u (hord tr (List.get?_mem hR)) hu nk (by omega)

theorem getD_mem_or (l : List BTree) :
    ∀ (i : Nat) (d : BTree), l.getD i d ∈ l ∨ l.getD i d = d := by
  induction l with
  | nil =>
    intro i d
    right
    cases i <;> rfl
  | cons a l ih =>
    intro i d
    match i with
    | 0 => exact Or.inl (List.mem_cons_self _ _)
    | i + 1 =>
      rw [List.getD_cons_succ]
      rcases ih i d with h | h
      · exact Or.inl (List.mem_cons_of_mem _ h)
      · exact Or.inr h

theorem Bpop_ordered {h : BHeap} {k : Int} {h' : BHeap}
    (hord : ∀ t ∈ h.roots, t.orderedB = true) (hp : Bpop h = .ok (k, h')) :
    ∀ t ∈ h'.roots, t.orderedB = true := by
  rw [Bpop] at hp
  by_cases hsz : h.size < 1
  · rw [if_pos hsz] at hp
    cases hp
  · rw [if_neg hsz] at hp
    cases hroots : h.roots with
    | nil =>
      rw [hroots] at hp
      cases hp
    | cons t0 ts =>
      rw [hroots] at hp
      have hp' : Res.ok ((((t0 :: ts).getD (firstMinIdx 1 0 t0.key ts) t0).key,
          (⟨add_heap_head ((t0 :: ts).eraseIdx (firstMinIdx 1 0 t0.key ts))
            (((t0 :: ts).getD (firstMinIdx 1 0 t0.key ts) t0).children),
            h.size - 1⟩ : BHeap))) = Res.ok (k, h') := hp
      have hpair := Res.ok.inj hp'
      have hh : h' = ⟨add_heap_head ((t0 :: ts).eraseIdx (firstMinIdx 1 0 t0.key ts))
          (((t0 :: ts).getD (firstMinIdx 1 0 t0.key ts) t0).children), h.size - 1⟩ :=
        ((Prod.ext_iff.1 hpair).2).symm
      rw [hh]
      have hordc : ∀ t ∈ t0 :: ts, t.orderedB = true := by
        rw [← hroots]
        exact hord
      refine add_heap_head_ordered ?_ ?_
      · intro t ht
        exact hordc t (List.mem_of_mem_eraseIdx ht)
      · have hm : ((t0 :: ts).getD (firstMinIdx 1 0 t0.key ts) t0) ∈ t0 :: ts := by
          rcases getD_mem_or (t0 :: ts) (firstMinIdx 1 0 t0.key ts) t0 with h1 | h1
          · exact h1
          · rw [h1]
            exact List.mem_cons_self _ _
        exact BTree.children_ordered (hordc _ hm)

theorem Binsert_ordered {h : BHeap} (hord : ∀ t ∈ h.roots, t.orderedB = true) (d : Int) :
    ∀ t ∈ (Binsert h d).roots, t.orderedB = true := by
  show ∀ t ∈ add_heap_head h.roots [.node d 0 []], t.orderedB = true
  refine add_heap_head_ordered hord ?_
  intro t ht
  rcases List.mem_singleton.1 ht with rfl
  rfl

/-- `Bheap` states reachable from a default-constructed heap by insert,
meld and (successful) pop — a throwing `pop` leaves the state unchanged.
`decrease_key` is deliberately excluded: the source's `decrease_key`
additionally rewrites the decreased node's `p` field through the `z`
reference, so its states are modelled pointer-faithfully by
`Bdecrease_key_ptr` below (claim C2). -/
inductive BReach : BHeap → Prop where
  | empty : BReach ⟨[], 0⟩
  | insert (h : BHeap) (d : Int) : BReach h → BReach (Binsert h d)
  | meld (h1 h2 : BHeap) : BReach h1 → BReach h2 → BReach (Badd_heap h1 h2)
  | pop (h : BHeap) (k : Int) (h' : BHeap) : BReach h → Bpop h = .ok (k, h') → BReach h'

theorem BReach_ordered : ∀ h, BReach h → ∀ t ∈ h.roots, t.orderedB = true := by
  intro h hreach
  induction hreach with
  | empty =>
    intro t ht
    cases ht
  | insert h d _ ih => exact Binsert_ordered ih d
  | meld h1 h2 _ _ ih1 ih2 =>
    show ∀ t ∈ add_heap_head h1.roots h2.roots, t.orderedB = true
    exact add_heap_head_ordered ih1 ih2
  | pop h k h' _ hpop ih => exact Bpop_ordered ih hpop

theorem FTree.modAtChildren_mem :
    ∀ (cs : List FTree) (j : Nat) (q : List Nat) (f : FTree → FTree) (c : FTree),
      c ∈ FTree.modAtChildren f cs j q → c ∈ cs ∨ ∃ c0 ∈ cs, c = FTree.modAt f c0 q := by
  intro cs
  induction cs with
  | nil =>
    intro j q f c hc
    rw [FTree.modAtChildren] at hc
    cases hc
  | cons c0 cs ih =>
    intro j q f c hc
    match j with
    | 0 =>
      rw [FTree.modAtChildren] at hc
      rcases List.mem_cons.1 hc with rfl | hc
      · exact Or.inr ⟨c0, List.mem_cons_self _ _, rfl⟩
      · exact Or.inl (List.mem_cons_of_mem _ hc)
    | j + 1 =>
      rw [FTree.modAtChildren] at hc
      rcases List.mem_cons.1 hc with rfl | hc
      · exact Or.inl (List.mem_cons_self _ _)
      · rcases ih j q f c hc with hm | ⟨u, hu, he⟩
        · exact Or.inl (List.mem_cons_of_mem _ hm)
        · exact Or.inr ⟨u, List.mem_cons_of_mem _ hu, he⟩

theorem FTree.modAt_key_of_preserve {f : FTree → FTree}
    (hf : ∀ u, (f u).key = u.key) :
    ∀ (q : List Nat) (t : FTree), (FTree.modAt f t q).key = t.key := by
  intro q t
  match q, t with
  | [], t =>
    rw [FTree.modAt]
    exact hf t
  | j :: q', .node k m d cs => rfl

theorem fremoveChild_key (i : Nat) (u : FTree) : (fremoveChild i u).key = u.key := by
  cases u with
  | node k m d cs => rfl

theorem fsetMarkTrue_key (u : FTree) : (fsetMarkTrue u).key = u.key := by
  cases u with
  | node k m d cs => rfl

/-- Removing a child anywhere preserves heap order of the tree. -/
theorem fremoveChild_modAt_ordered :
    ∀ (q : List Nat) (t : FTree) (i : Nat), t.orderedB = true →
      (FTree.modAt (fremoveChild i) t q).orderedB = true := by
  intro q
  induction q with
  | nil =>
    intro t i hord
    cases t with
    | node k m d cs =>
      show (FTree.node k m (d - 1) (cs.drop (i + 1) ++ cs.take i)).orderedB = true
      rw [FTree.orderedB_node_iffF] at hord ⊢
      intro c hc
      rcases List.mem_append.1 hc with hc | hc
      · exact hord c (List.mem_of_mem_drop hc)
      · exact hord c (List.mem_of_mem_take hc)
  | cons j q ih =>
    intro t i hord
    cases t with
    | node k m d cs =>
      show (FTree.node k m d (FTree.modAtChildren (fremoveChild i) cs j q)).orderedB = true
      rw [FTree.orderedB_node_iffF] at hord ⊢
      intro c hc
      rcases FTree.modAtChildren_mem cs j q _ c hc with hm | ⟨c0, hc0, rfl⟩
      · exact hord c hm
      · refine ⟨?_, ih c0 i (hord c0 hc0).2⟩
        rw [FTree.modAt_key_of_preserve (fremoveChild_key i)]
        exact (hord c0 hc0).1

/-- Setting a mark anywhere preserves heap order of the tree. -/
theorem fsetMarkTrue_modAt_ordered :
    ∀ (q : List Nat) (t : FTree), t.orderedB = true →
      (FTree.modAt fsetMarkTrue t q).orderedB = true := by
  intro q
  induction q with
  | nil =>
    intro t hord
    cases t with
    | node k m d cs =>
      show (FTree.node k true d cs).orderedB = true
      rw [FTree.orderedB_node_iffF] at hord ⊢
      exact hord
  | cons j q ih =>
    intro t hord
    cases t with
    | node k m d cs =>
      show (FTree.node k m d (FTree.modAtChildren fsetMarkTrue cs j q)).orderedB = true
      rw [FTree.orderedB_node_iffF] at hord ⊢
      intro c hc
      rcases FTree.modAtChildren_mem cs j q _ c hc with hm | ⟨c0, hc0, rfl⟩
      · exact hord c hm
      · refine ⟨?_, ih c0 (hord c0 hc0).2⟩
        rw [FTree.modAt_key_of_preserve fsetMarkTrue_key]
        exact (hord c0 hc0).1

/-- A `cut` on a fully ordered forest keeps every tree ordered. -/
theorem fcut_ordered {roots : List FTree} {r : Nat} {q : List Nat} {i : Nat}
    (hord : ∀ t ∈ roots, t.orderedB = true) :
    ∀ t ∈ (fcut roots r q i).1, t.orderedB = true := by
  rw [fcut]
  split
  · exact hord
  · next tr hR =>
    split
    · exact hord
    · next x hx =>
      intro t ht
      rcases finsert_node_mem ht with rfl | ht
      · have hx_ord : x.orderedB = true :=
          FTree.getAt?_orderedF _ tr x hx (hord tr (List.get?_mem hR))
        cases x with
        | node kx mx dx cx => exact hx_ord
      · obtain ⟨n, hn⟩ := List.mem_iff_get?.1 ht
        by_cases hnr : n = r
        · subst hnr
          rw [fModRoot_get_self, hR, Option.map_some'] at hn
          have := Option.some.inj hn
          rw [← this]
          exact fremoveChild_modAt_ordered q tr i (hord tr (List.get?_mem hR))
        · rw [fModRoot_get_other _ _ _ _ hnr] at hn
          exact hord t (List.get?_mem hn)

/-- `cascading_cut` on a fully ordered forest keeps every tree ordered. -/
theorem fcascading_cut_ordered :
    ∀ (qrev : List Nat) (roots : List FTree) (r : Nat) (nIdx : Nat),
      (∀ t ∈ roots, t.orderedB = true) →
      ∀ t ∈ (fcascading_cut roots r qrev nIdx).1, t.orderedB = true := by
  intro qrev
  induction qrev with
  | nil =>
    intro roots r nIdx hord
    rw [fcascading_cut]
    exact hord
  | cons i qrev ih =>
    intro roots r nIdx hord
    rw [fcascading_cut]
    split
    · exact hord
    · next tr hR =>
      split
      · exact hord
      · next y hy =>
        split
        · exact ih _ _ _ (fcut_ordered hord)
        · intro t ht
          obtain ⟨n, hn⟩ := List.mem_iff_get?.1 ht
          by_cases hnr : n = r
          · subst hnr
            rw [fModRoot_get_self, hR, Option.map_some'] at hn
            have := Option.some.inj hn
            rw [← this]
            exact fsetMarkTrue_modAt_ordered _ tr (hord tr (List.get?_mem hR))
          · rw [fModRoot_get_other _ _ _ _ hnr] at hn
            exact hord t (List.get?_mem hn)

theorem fminCheck_mem {roots : List FTree} {j : Nat} :
    ∀ t ∈ fminCheck roots j, t ∈ roots := by
  rw [fminCheck.eq_def]
  split
  · exact fun t ht => ht
  · split
    · exact fun t ht => ht
    · split
      · intro t ht
        rcases List.mem_append.1 ht with ht | ht
        · exact List.mem_of_mem_drop ht
        · exact List.mem_of_mem_take ht
      · exact fun t ht => ht

theorem FTree.getAt?_nilF (t : FTree) : t.getAt? [] = some t := by
  cases t with
  | node k m d cs => rfl

theorem FTree.getAtChildren_eqF :
    ∀ (cs : List FTree) (j : Nat) (p : List Nat),
      FTree.getAtChildren cs j p = (cs.get? j).bind (fun c => c.getAt? p) := by
  intro cs
  induction cs with
  | nil =>
    intro j p
    match j with
    | 0 => rfl
    | j + 1 => rfl
  | cons c cs ih =>
    intro j p
    match j with
    | 0 => rfl
    | j + 1 =>
      rw [FTree.getAtChildren]
      simpa using ih j p

theorem FTree.getAt?_node_consF (k : Int) (m : Bool) (d : Nat) (cs : List FTree)
    (j : Nat) (p : List Nat) :
    (FTree.node k m d cs).getAt? (j :: p) = (cs.get? j).bind (fun c => c.getAt? p) := by
  rw [FTree.getAt?, FTree.getAtChildren_eqF]

theorem FTree.orderedB_iff_getF (k : Int) (m : Bool) (d : Nat) (cs : List FTree) :
    (FTree.node k m d cs).orderedB = true ↔
      ∀ j c, cs.get? j = some c → k ≤ c.key ∧ c.orderedB = true := by
  rw [FTree.orderedB_node_iffF]
  constructor
  · intro h j c hc
    exact h c (List.get?_mem hc)
  · intro h c hc
    obtain ⟨n, hn⟩ := List.mem_iff_get?.1 hc
    exact h n c hn

theorem FTree.setKeyAt_node_nilF (k : Int) (m : Bool) (d : Nat) (cs : List FTree) (v : Int) :
    (FTree.node k m d cs).setKeyAt [] v = .node v m d cs := rfl

theorem FTree.setKeyAt_node_consF (k : Int) (m : Bool) (d : Nat) (cs : List FTree)
    (j : Nat) (p : List Nat) (v : Int) :
    (FTree.node k m d cs).setKeyAt (j :: p) v =
      .node k m d (FTree.modAtChildren
        (fun u => match u with | .node _ m' d' cs' => .node v m' d' cs') cs j p) := rfl

theorem FTree.modAtChildren_get?F (f : FTree → FTree) :
    ∀ (cs : List FTree) (j j' : Nat) (p : List Nat),
      (FTree.modAtChildren f cs j p).get? j' =
        if j' = j then (cs.get? j).map (fun c => FTree.modAt f c p) else cs.get? j' := by
  intro cs
  induction cs with
  | nil =>
    intro j j' p
    match j with
    | 0 => rw [FTree.modAtChildren]; simp
    | j + 1 => rw [FTree.modAtChildren]; simp
  | cons c cs ih =>
    intro j j' p
    match j with
    | 0 =>
      rw [FTree.modAtChildren]
      match j' with
      | 0 => rfl
      | j' + 1 => simp
    | j + 1 =>
      rw [FTree.modAtChildren]
      match j' with
      | 0 => rfl
      | j' + 1 =>
        rw [List.get?_cons_succ, List.get?_cons_succ, List.get?_cons_succ, ih j j' p]
        by_cases hid : j' = j
        · rw [if_pos hid, if_pos (by omega : j' + 1 = j + 1)]
        · rw [if_neg hid, if_neg (by omega : ¬ j' + 1 = j + 1)]

theorem FTree.setKeyAt_cons_keyF (t : FTree) (j : Nat) (p : List Nat) (v : Int) :
    (t.setKeyAt (j :: p) v).key = t.key := by
  cases t with
  | node k m d cs => rfl

/-- The node at the modified path after `setKeyAt` is the original node with
its key replaced. -/
theorem FTree.getAt?_setKeyAt_self :
    ∀ (p : List Nat) (t u : FTree) (v : Int), t.getAt? p = some u →
      (t.setKeyAt p v).getAt? p =
        some (match u with | .node _ m d cs => .node v m d cs) := by
  intro p
  induction p with
  | nil =>
    intro t u v hget
    rw [FTree.getAt?_nilF] at hget
    obtain rfl := Option.some.inj hget
    cases t with
    | node k m d cs =>
      rw [FTree.setKeyAt_node_nilF, FTree.getAt?_nilF]
  | cons j p' ih =>
    intro t u v hget
    cases t with
    | node k m d cs =>
      rw [FTree.getAt?_node_consF] at hget
      cases hcs : cs.get? j with
      | none =>
        rw [hcs] at hget
        cases hget
      | some cj =>
        rw [hcs, Option.some_bind] at hget
        rw [FTree.setKeyAt_node_consF, FTree.getAt?_node_consF,
          FTree.modAtChildren_get?F _ cs j j p', if_pos rfl, hcs, Option.map_some',
          Option.some_bind]
        exact ih cj u v hget

/-- Decreasing the root key keeps the tree ordered. -/
theorem setKey_root_ordered {t : FTree} {v : Int} (hord : t.orderedB = true)
    (hv : v ≤ t.key) : (t.setKeyAt [] v).orderedB = true := by
  cases t with
  | node k m d cs =>
    rw [FTree.setKeyAt_node_nilF]
    rw [FTree.orderedB_node_iffF] at hord ⊢
    intro c hc
    refine ⟨?_, (hord c hc).2⟩
    have h1 := (hord c hc).1
    have h2 : v ≤ k := hv
    omega

/-- Setting the key of an interior node to a value between its parent's key
and its own key keeps the tree ordered. -/
theorem setKey_child_ordered :
    ∀ (qp : List Nat) (i : Nat) (t z u : FTree) (v : Int),
      t.orderedB = true → t.getAt? qp = some z → t.getAt? (qp ++ [i]) = some u →
      z.key ≤ v → v ≤ u.key → (t.setKeyAt (qp ++ [i]) v).orderedB = true := by
  intro qp
  induction qp with
  | nil =>
    intro i t z u v hord hz hu hzv hvu
    cases t with
    | node k m d cs =>
      rw [FTree.getAt?_nilF] at hz
      obtain rfl := Option.some.inj hz
      rw [List.nil_append] at hu ⊢
      rw [FTree.getAt?_node_consF] at hu
      cases hcs : cs.get? i with
      | none =>
        rw [hcs] at hu
        cases hu
      | some ci =>
        rw [hcs, Option.some_bind, FTree.getAt?_nilF] at hu
        obtain rfl := Option.some.inj hu
        rw [FTree.setKeyAt_node_consF]
        rw [FTree.orderedB_iff_getF]
        intro j' c hc
        rw [FTree.modAtChildren_get?F] at hc
        by_cases hji : j' = i
        · rw [if_pos hji, hcs, Option.map_some'] at hc
          obtain rfl := Option.some.inj hc
          cases ci with
          | node ku mu du cu =>
            constructor
            · show k ≤ v
              exact hzv
            · show (FTree.node v mu du cu).orderedB = true
              have hu_ord : (FTree.node ku mu du cu).orderedB = true :=
                ((FTree.orderedB_iff_getF k m d cs).1 hord i _ hcs).2
              rw [FTree.orderedB_node_iffF] at hu_ord ⊢
              intro c hcc
              refine ⟨?_, (hu_ord c hcc).2⟩
              have h1 := (hu_ord c hcc).1
              have h2 : v ≤ ku := hvu
              omega
        · rw [if_neg hji] at hc
          exact (FTree.orderedB_iff_getF k m d cs).1 hord j' c hc
  | cons j qp' ih =>
    intro i t z u v hord hz hu hzv hvu
    cases t with
    | node k m d cs =>
      rw [List.cons_append] at hu ⊢
      rw [FTree.getAt?_node_consF] at hz hu
      cases hcs : cs.get? j with
      | none =>
        rw [hcs] at hz
        cases hz
      | some cj =>
        rw [hcs, Option.some_bind] at hz hu
        rw [FTree.setKeyAt_node_consF, FTree.orderedB_iff_getF]
        intro j' c hc
        rw [FTree.modAtChildren_get?F] at hc
        by_cases hji : j' = j
        · rw [if_pos hji, hcs, Option.map_some'] at hc
          obtain rfl := Option.some.inj hc
          have hkcj := (FTree.orderedB_iff_getF k m d cs).1 hord j cj hcs
          constructor
          · cases hq : qp' ++ [i] with
            | nil => simp at hq
            | cons a l =>
              rw [(FTree.modAt_cons_key _ cj a l).1]
              exact hkcj.1
          · exact ih i cj z u v hkcj.2 hz hu hzv hvu
        · rw [if_neg hji] at hc
          exact (FTree.orderedB_iff_getF k m d cs).1 hord j' c hc

theorem FTree.modAtChildren_drop :
    ∀ (cs : List FTree) (i : Nat) (f : FTree → FTree) (p : List Nat),
      (FTree.modAtChildren f cs i p).drop (i + 1) = cs.drop (i + 1) := by
  intro cs
  induction cs with
  | nil =>
    intro i f p
    rw [FTree.modAtChildren]
  | cons c cs ih =>
    intro i f p
    match i with
    | 0 => rfl
    | i + 1 =>
      rw [FTree.modAtChildren, List.drop_succ_cons, List.drop_succ_cons]
      exact ih i f p

theorem FTree.modAtChildren_take :
    ∀ (cs : List FTree) (i : Nat) (f : FTree → FTree) (p : List Nat),
      (FTree.modAtChildren f cs i p).take i = cs.take i := by
  intro cs
  induction cs with
  | nil =>
    intro i f p
    rw [FTree.modAtChildren]
  | cons c cs ih =>
    intro i f p
    match i with
    | 0 => rfl
    | i + 1 =>
      rw [FTree.modAtChildren, List.take_succ_cons, List.take_succ_cons, ih i f p]

theorem FTree.modAtChildren_fuse (f g : FTree → FTree) (p1 p2 : List Nat)
    (h : ∀ c, FTree.modAt f (FTree.modAt g c p2) p1 = FTree.modAt f c p1) :
    ∀ (cs : List FTree) (j : Nat),
      FTree.modAtChildren f (FTree.modAtChildren g cs j p2) j p1 =
        FTree.modAtChildren f cs j p1 := by
  intro cs
  induction cs with
  | nil =>
    intro j
    rw [FTree.modAtChildren]
  | cons c cs ih =>
    intro j
    match j with
    | 0 =>
      rw [FTree.modAtChildren, FTree.modAtChildren, FTree.modAtChildren, h c]
    | j + 1 =>
      rw [FTree.modAtChildren, FTree.modAtChildren, FTree.modAtChildren, ih j]

/-- Cutting the child at the path that `setKeyAt` just modified removes the
modified subtree: the remaining tree is the original with that child cut. -/
theorem cut_after_setKey :
    ∀ (q : List Nat) (i : Nat) (t : FTree) (v : Int),
      FTree.modAt (fremoveChild i) (t.setKeyAt (q ++ [i]) v) q =
        FTree.modAt (fremoveChild i) t q := by
  intro q
  induction q with
  | nil =>
    intro i t v
    cases t with
    | node k m d cs =>
      rw [List.nil_append, FTree.setKeyAt_node_consF]
      show fremoveChild i (.node k m d (FTree.modAtChildren _ cs i [])) =
        fremoveChild i (.node k m d cs)
      rw [fremoveChild, fremoveChild, FTree.modAtChildren_drop, FTree.modAtChildren_take]
  | cons j q' ih =>
    intro i t v
    cases t with
    | node k m d cs =>
      rw [List.cons_append, FTree.setKeyAt_node_consF]
      show FTree.node k m d (FTree.modAtChildren (fremoveChild i)
          (FTree.modAtChildren _ cs j (q' ++ [i])) j q') =
        FTree.node k m d (FTree.modAtChildren (fremoveChild i) cs j q')
      rw [FTree.modAtChildren_fuse _ _ q' (q' ++ [i]) (fun c => ih i c v) cs j]

/-- A successful `FibHeap::decrease_key` preserves heap order of every tree. -/
theorem Fdecrease_key_ordered {h : FHeap} {r : Nat} {p : List Nat} {nk : Int} {h' : FHeap}
    (hord : ∀ t ∈ h.roots, t.orderedB = true)
    (hdk : Fdecrease_key h r p nk = some (.ok h')) :
    ∀ t ∈ h'.roots, t.orderedB = true := by
  rw [Fdecrease_key] at hdk
  split at hdk
  · cases hdk
  · next tr htr =>
    split at hdk
    · cases hdk
    · next N hN =>
      have htr_ord : tr.orderedB = true := hord tr (List.get?_mem htr)
      have hN_ord : N.orderedB = true := FTree.getAt?_orderedF p tr N hN htr_ord
      cases N with
      | node kN mN dN csN =>
      split at hdk
      · simp at hdk
      · next hnotlt =>
        rw [not_lt] at hnotlt
        split at hdk
        · next hprev =>
          have hp : p = [] := List.reverse_eq_nil_iff.1 hprev
          obtain rfl := DKRes.ok.inj (Option.some.inj hdk)
          intro t ht
          have ht2 := fminCheck_mem t ht
          obtain ⟨n, hn⟩ := List.mem_iff_get?.1 ht2
          by_cases hnr : n = r
          · subst hnr
            rw [fSetKey, fModRoot_get_self, htr, Option.map_some'] at hn
            obtain rfl := Option.some.inj hn
            subst hp
            rw [FTree.getAt?_nilF] at hN
            obtain rfl := Option.some.inj hN
            exact setKey_root_ordered htr_ord hnotlt
          · rw [fSetKey, fModRoot_get_other _ _ _ _ hnr] at hn
            exact hord t (List.get?_mem hn)
        · next i qrev hprev =>
          have hp : p = qrev.reverse ++ [i] := by
            rw [← List.reverse_reverse p, hprev, List.reverse_cons]
          split at hdk
          · cases hdk
          · next tr1 htr1 =>
            have htr1_eq : tr1 = tr.setKeyAt p nk := by
              rw [fSetKey, fModRoot_get_self, htr, Option.map_some'] at htr1
              exact (Option.some.inj htr1).symm
            split at hdk
            · cases hdk
            · next y hy =>
              have hx : tr1.getAt? (qrev.reverse ++ [i]) =
                  some (.node nk mN dN csN) := by
                rw [htr1_eq, ← hp]
                exact FTree.getAt?_setKeyAt_self p tr _ nk hN
              have hxord : (FTree.node nk mN dN csN).orderedB = true := by
                rw [FTree.orderedB_node_iffF] at hN_ord ⊢
                intro c hc
                refine ⟨?_, (hN_ord c hc).2⟩
                have h1 := (hN_ord c hc).1
                have h2 : nk ≤ kN := hnotlt
                omega
              split at hdk
              · next hylt =>
                obtain rfl := DKRes.ok.inj (Option.some.inj hdk)
                have hcut_ord : ∀ t ∈ (fcut (fSetKey h.roots r p nk) r qrev.reverse i).1,
                    t.orderedB = true := by
                  rw [fcut]
                  split
                  · next hnone =>
                    rw [htr1] at hnone
                    cases hnone
                  · next tr1' htr1' =>
                    rw [htr1] at htr1'
                    obtain rfl := Option.some.inj htr1'
                    split
                    · next hnone2 =>
                      rw [hx] at hnone2
                      cases hnone2
                    · next x hx2 =>
                      rw [hx] at hx2
                      obtain rfl := Option.some.inj hx2
                      intro t ht
                      rcases finsert_node_mem ht with rfl | ht
                      · exact hxord
                      · obtain ⟨n, hn⟩ := List.mem_iff_get?.1 ht
                        by_cases hnr : n = r
                        · subst hnr
                          rw [fModRoot_get_self, htr1, Option.map_some'] at hn
                          obtain rfl := Option.some.inj hn
                          rw [htr1_eq, hp, cut_after_setKey]
                          exact fremoveChild_modAt_ordered qrev.reverse tr i htr_ord
                        · rw [fModRoot_get_other _ _ _ _ hnr, fSetKey,
                            fModRoot_get_other _ _ _ _ hnr] at hn
                          exact hord t (List.get?_mem hn)
                intro t ht
                have ht2 := fminCheck_mem t ht
                exact fcascading_cut_ordered qrev _ _ _ hcut_ord t ht2
              · next hynot =>
                rw [not_lt] at hynot
                split at hdk
                · cases hdk
                · next mh rest hS =>
                  split at hdk
                  · cases hdk
                  · obtain rfl := DKRes.ok.inj (Option.some.inj hdk)
                    intro t ht
                    have ht2 : t ∈ fSetKey h.roots r p nk := by
                      rw [hS]
                      exact ht
                    obtain ⟨n, hn⟩ := List.mem_iff_get?.1 ht2
                    by_cases hnr : n = r
                    · subst hnr
                      rw [fSetKey, fModRoot_get_self, htr, Option.map_some'] at hn
                      obtain rfl := Option.some.inj hn
                      rw [htr1_eq, hp, FTree.setKeyAt] at hy
                      rw [FTree.getAt?_modAt_prefix] at hy
                      cases hz : tr.getAt? qrev.reverse with
                      | none =>
                        rw [hz] at hy
                        cases hy
                      | some z =>
                        rw [hz, Option.map_some'] at hy
                        have hyz := Option.some.inj hy
                        have hyk : y.key = z.key := by
                          rw [← hyz]
                          rfl
                        rw [hp]
                        refine setKey_child_ordered qrev.reverse i tr z
                          (.node kN mN dN csN) nk htr_ord hz ?_ ?_ ?_
                        · rw [← hp]
                          exact hN
                        · omega
                        · exact hnotlt
                    · rw [fSetKey, fModRoot_get_other _ _ _ _ hnr] at hn
                      exact hord t (List.get?_mem hn)

theorem Fpop_ordered {h : FHeap} {k : Int} {h' : FHeap}
    (hord : ∀ t ∈ h.roots, t.orderedB = true) (hp : Fpop h = .ok (k, h')) :
    ∀ t ∈ h'.roots, t.orderedB = true := by
  cases hroots : h.roots with
  | nil =>
    rw [Fpop, hroots] at hp
    cases hp
  | cons z rest =>
    have hordall : ∀ u ∈ z :: rest, u.orderedB = true := by
      rw [← hroots]
      exact hord
    have hzord := hordall z (List.mem_cons_self _ _)
    have hckey : ∀ c ∈ z.children, ¬ c.key < z.key :=
      fun c hc => not_lt_of_le (FTree.children_key_le hzord c hc)
    have hsp := fsplice_no_promote z.children z rest 0 hckey
    have hout : ∃ out, Fpop h = Res.ok out ∧
        (out.2.roots = consolidate [] ∨ out.2.roots = consolidate (rest ++ z.children)) := by
      rw [Fpop]
      simp only [hroots]
      rw [hsp]
      dsimp only
      by_cases hn : (z :: (rest ++ z.children)).length ≤ 1
      · rw [if_pos hn]
        exact ⟨_, rfl, Or.inl rfl⟩
      · rw [if_neg hn]
        rw [List.eraseIdx_cons_zero, Nat.zero_mod, List.drop_zero, List.take_zero,
          List.append_nil]
        exact ⟨_, rfl, Or.inr rfl⟩
    obtain ⟨out, ho, hroots'⟩ := hout
    rw [hp] at ho
    obtain rfl := Res.ok.inj ho
    have he' : h'.roots = consolidate [] ∨ h'.roots = consolidate (rest ++ z.children) :=
      hroots'
    intro t ht
    rcases he' with he | he
    · rw [he] at ht
      simp [consolidate] at ht
    · rw [he] at ht
      refine (consolidate_spec (rest ++ z.children) ?_).2.1 t ht
      intro u hu
      rcases List.mem_append.1 hu with hu | hu
      · exact hordall u (List.mem_cons_of_mem _ hu)
      · exact FTree.children_orderedF hzord u hu

theorem Finsert_ordered {h : FHeap} (hord : ∀ t ∈ h.roots, t.orderedB = true) (kk : Int) :
    ∀ t ∈ (Finsert h kk).roots, t.orderedB = true := by
  intro t ht
  rcases finsert_node_mem ht with rfl | ht
  · rfl
  · exact hord t ht

/-- `FibHeap` states reachable by the public operations.  `FibHeap::add_heap`
only relinks root `left`/`right`/`min` pointers (and can fail to terminate,
see claim C5): it never touches any root's `p`, `child`, `key` or `mark`, so
whatever root ring a call leaves behind, each of its root subtrees is a root
subtree of one of the two melded heaps; the `meld` constructor
over-approximates `add_heap` by exactly that guarantee. -/
inductive FReach : FHeap → Prop where
  | empty : FReach ⟨[], 0⟩
  | insert (h : FHeap) (k : Int) : FReach h → FReach (Finsert h k)
  | meld (h1 h2 h' : FHeap) : FReach h1 → FReach h2 →
      (∀ t ∈ h'.roots, t ∈ h1.roots ∨ t ∈ h2.roots) → FReach h'
  | pop (h : FHeap) (k : Int) (h' : FHeap) : FReach h → Fpop h = .ok (k, h') → FReach h'
  | decrease (h : FHeap) (r : Nat) (p : List Nat) (nk : Int) (h' : FHeap) :
      FReach h → Fdecrease_key h r p nk = some (.ok h') → FReach h'

theorem FReach_ordered : ∀ h, FReach h → ∀ t ∈ h.roots, t.orderedB = true := by
  intro h hreach
  induction hreach with
  | empty =>
    intro t ht
    cases ht
  | insert h k _ ih => exact Finsert_ordered ih k
  | meld h1 h2 h' _ _ hmem ih1 ih2 =>
    intro t ht
    rcases hmem t ht with ht | ht
    · exact ih1 t ht
    · exact ih2 t ht
  | pop h k h' _ hpop ih => exact Fpop_ordered ih hpop
  | decrease h r p nk h' _ hdk ih => exact Fdecrease_key_ordered ih hdk

/-! ### The pointer-faithful `Bheap::decrease_key` (claims C2 and C7)

`Bheap::decrease_key` binds two references before its loop:
`NodePtr &y = x;` aliases the caller's handle variable, and
`NodePtr &z = y->p;` aliases the `p` FIELD of the node the handle points
at (references bind once).  Hence each iteration
`std::swap(y->key, z->key); y = z; z = y->p;`
(a) swaps the two keys, (b) reseats the caller's handle one node up, and
(c) writes the new cursor's `p` value into the ORIGINAL node's `p` field —
and the loop condition re-reads that field.  The model below carries every
node's `p` field explicitly and threads the handle value. -/

/-- Node address for the pointer-aware model: root index plus child path in
the skeleton (which `decrease_key` never changes, so addresses are stable
across the calls modelled here). -/
abbrev BPos := Nat × List Nat

/-- The `p` fields of a heap built by `insert`/`add_heap`/`pop` alone:
every node's `p` equals its structural parent (`link_nodes` sets the
linked child's `p = z`, `pop` nulls the promoted children's `p`, roots
start with `p = null`, and no other operation writes `p`). -/
def structP : BPos → Option BPos
  | (_, []) => none
  | (r, i :: q) => some (r, (i :: q).dropLast)

/-- The loop of `Bheap::decrease_key` with the source's reference semantics
spelled out: `pos0` is the decreased node (whose `p` field the `z`
reference aliases), `y` the current value of the caller's by-reference
handle, `P` the `p` fields.  Each iteration checks
`P pos0 ≠ null && y->key < (P pos0)->key`, swaps the two keys, reseats
`y := P pos0`, and writes the new `y`'s stored `p` into `P pos0`.
Corrupted `p` fields can make the loop cyclic, so it is fuel-indexed;
`none` = fuel exhausted or a dangling address. -/
def bsiftPtr : Nat → List BTree → (BPos → Option BPos) → BPos → BPos →
    Option (List BTree × (BPos → Option BPos) × BPos)
  | 0, _, _, _, _ => none
  | fuel + 1, T, P, pos0, y =>
    match P pos0 with
    | none => some (T, P, y)
    | some z =>
      match bKeyAt? T y.1 y.2, bKeyAt? T z.1 z.2 with
      | some ky, some kz =>
        if ky < kz then
          bsiftPtr fuel (bSetKey (bSetKey T y.1 y.2 kz) z.1 z.2 ky)
            (fun q => if q = pos0 then P z else P q) pos0 z
        else some (T, P, y)
      | _, _ => none

/-- `Bheap::decrease_key` over the pointer-aware state: the increase guard
throws before any mutation (`err` carries the untouched state), otherwise
`x->key = new_key` is written and the aliasing sift loop runs.  Returns the
new forest, the new `p` fields, and the final value of the caller's
by-reference handle. -/
def Bdecrease_key_ptr (fuel : Nat) (T : List BTree) (P : BPos → Option BPos)
    (h : BPos) (nk : Int) :
    Option (DKRes (List BTree × (BPos → Option BPos) × BPos)) :=
  match bKeyAt? T h.1 h.2 with
  | none => none
  | some k =>
    if k < nk then some (.err (T, P, h))
    else
      match bsiftPtr fuel (bSetKey T h.1 h.2 nk) P h h with
      | none => none
      | some out => some (.ok out)

/-- Claim C7: refuted — the source mutates both things the claim says are
untouched.  In `Bbuild [10,20,30]` the key 20 sits at root 1, child 0, its
structural parent the root `10`.  One valid `decrease_key(handle, 5)` does
one swap, and at exit (a) the caller's by-reference handle has been
reseated to the root `(1, [])` (the stop ancestor, which now holds the
decreased key), and (b) the decreased node's `p` field has been overwritten
— through the `z` reference — with the root's `p` = null, no longer its
structural parent.  The key-erased skeleton (children, sibling order,
degrees) is indeed unchanged. -/
theorem claim_C7_handle_bug :
    ∃ s : List BTree × (BPos → Option BPos) × BPos,
      Bdecrease_key_ptr 3 (Bbuild [10, 20, 30]).roots structP ((1, [0]) : BPos) 5 =
        some (.ok s) ∧
      s.2.2 = ((1, []) : BPos) ∧ ¬ s.2.2 = ((1, [0]) : BPos) ∧
      s.2.1 (1, [0]) = none ∧ ¬ s.2.1 (1, [0]) = structP (1, [0]) ∧
      BForest.strip s.1 = BForest.strip (Bbuild [10, 20, 30]).roots := by
  exact ⟨_, rfl, rfl, by decide, rfl, by decide, rfl⟩

/-- Claim C2: refuted on the Binomial heap.  Insert 0,10,20,30 (one B2:
root 0 with children [20-subtree, 10], 30 under 20; all `p` fields
structural).  The valid call `decrease_key(handle20, -5)` swaps node 20
with the root and — through the `z` reference — overwrites node 20's `p`
with the root's `p` = null.  The second, equally valid call
`decrease_key(handle30, -10)` swaps 30's node with node 20's, then reads
the corrupted null `p` and stops: the final forest has child key −10
directly under parent key −5, violating heap order after a sequence of
public operations.  (The Fibonacci variant copies `N->p` by value and keeps
heap order in all reachable states, `FReach_ordered`; so do Bheap
sequences without `decrease_key`, `BReach_ordered`.) -/
theorem claim_C2_heap_order_bug :
    ∃ s1 s2 : List BTree × (BPos → Option BPos) × BPos,
      Bdecrease_key_ptr 4 (Bbuild [0, 10, 20, 30]).roots structP
        ((0, [0]) : BPos) (-5) = some (.ok s1) ∧
      Bdecrease_key_ptr 4 s1.1 s1.2.1 ((0, [0, 0]) : BPos) (-10) = some (.ok s2) ∧
      s2.1 = [.node (-5) 2 [.node (-10) 1 [.node 0 0 []], .node 10 0 []]] ∧
      BForest.orderedB s2.1 = false := by
  exact ⟨_, _, rfl, rfl, rfl, rfl⟩
